import Mathlib

/- Verification of the measurement feature pipeline: a shallow embedding of
   src/main.py and src/feature_engineering.py.

   DataFrames are modelled as association lists of named columns.  Float cells
   are modelled exactly: NaN and the two infinities are explicit constructors,
   rationals stand for ordinary finite doubles, and a dedicated constructor
   records the square root of a positive rational (the only irrational values
   the pipeline produces, via pow(0.5)).  The arithmetic cases below mirror the
   IEEE-754 behaviour of the operations the pipeline actually performs. -/

/-- Column names, as lists of characters. -/
abbrev Name := List Char

def nm (s : String) : Name := s.toList

/-- A pandas float cell. -/
inductive PValue where
  | nan  : PValue
  | pinf : PValue
  | ninf : PValue
  | val  : ℚ → PValue
  | root : ℚ → PValue
deriving DecidableEq, Repr

/-- IEEE subtraction.  Magnitude cells (root) are never recombined
    arithmetically by the pipeline; those cases are mapped to NaN. -/
def PValue.sub : PValue → PValue → PValue
  | nan, _ => nan
  | _, nan => nan
  | root _, _ => nan
  | _, root _ => nan
  | pinf, pinf => nan
  | pinf, _ => pinf
  | ninf, ninf => nan
  | ninf, _ => ninf
  | val _, pinf => ninf
  | val _, ninf => pinf
  | val a, val b => val (a - b)

/-- IEEE addition (same caveat about root cells). -/
def PValue.add : PValue → PValue → PValue
  | nan, _ => nan
  | _, nan => nan
  | root _, _ => nan
  | _, root _ => nan
  | pinf, ninf => nan
  | ninf, pinf => nan
  | pinf, _ => pinf
  | ninf, _ => ninf
  | val _, pinf => pinf
  | val _, ninf => ninf
  | val a, val b => val (a + b)

/-- IEEE division: x/0 is NaN for x = 0 and a signed infinity otherwise,
    which is exactly what a pandas Series division by zero produces. -/
def PValue.div : PValue → PValue → PValue
  | nan, _ => nan
  | _, nan => nan
  | root _, _ => nan
  | _, root _ => nan
  | pinf, pinf => nan
  | pinf, ninf => nan
  | ninf, pinf => nan
  | ninf, ninf => nan
  | pinf, val b => if b < 0 then ninf else pinf
  | ninf, val b => if b < 0 then pinf else ninf
  | val _, pinf => val 0
  | val _, ninf => val 0
  | val a, val b =>
    if b = 0 then (if a = 0 then nan else if 0 < a.num then pinf else ninf)
    else val (a / b)

/-- pow(2) on a cell; squaring a magnitude cell is exact. -/
def PValue.sq : PValue → PValue
  | nan => nan
  | pinf => pinf
  | ninf => pinf
  | val q => val (q * q)
  | root q => val q

/-- pow(0.5) on a cell: NaN for negative input, exact 0 at 0, and a
    symbolic square root for positive rationals. -/
def PValue.pvSqrt : PValue → PValue
  | nan => nan
  | pinf => pinf
  | ninf => nan
  | root _ => nan
  | val q => if q.num < 0 then nan else if q = 0 then val 0 else root q

/-- fillna(0) on a cell. -/
def PValue.fillna0 : PValue → PValue
  | nan => val 0
  | v => v

/-- One step of a NaN-skipping row sum (pandas sum with skipna=True). -/
def PValue.skipAdd (acc v : PValue) : PValue :=
  match v with
  | nan => acc
  | v => PValue.add acc v

/-- A dataframe: named columns in order, each a list of cells. -/
structure Frame where
  cols : List (Name × List PValue)
deriving DecidableEq, Repr

def Frame.names (f : Frame) : List Name := f.cols.map Prod.fst

def Frame.getCol (f : Frame) (c : Name) : Option (List PValue) :=
  (f.cols.find? (fun p => decide (p.1 = c))).map Prod.snd

def Frame.hasCol (f : Frame) (c : Name) : Bool := (f.getCol c).isSome

/-- Column assignment df[c] = vs: replaces the column in place if the name
    exists, otherwise appends it on the right, as pandas does. -/
def Frame.setCol (f : Frame) (c : Name) (vs : List PValue) : Frame :=
  if f.hasCol c then ⟨f.cols.map (fun p => if p.1 = c then (c, vs) else p)⟩
  else ⟨f.cols ++ [(c, vs)]⟩

def Frame.nRows (f : Frame) : ℕ :=
  match f.cols with
  | [] => 0
  | p :: _ => p.2.length

/-- df[[c1, ..., ck]]. -/
def Frame.select (f : Frame) (cs : List Name) : Frame :=
  ⟨cs.map (fun c => (c, (f.getCol c).getD []))⟩

def cellAt (f : Frame) (c : Name) (i : ℕ) : PValue :=
  ((f.getCol c).getD []).getD i PValue.nan

/-- Series.shift(1): first cell becomes NaN, last cell falls off. -/
def shift1 : List PValue → List PValue
  | [] => []
  | x :: xs => PValue.nan :: (x :: xs).dropLast

def seriesSub (a b : List PValue) : List PValue := List.zipWith PValue.sub a b

def seriesDiv (a b : List PValue) : List PValue := List.zipWith PValue.div a b

def seriesFillna0 (a : List PValue) : List PValue := a.map PValue.fillna0

/-- feature_engineering.get_vector_total:
    df[cols].pow(2).sum(1).pow(0.5), with the NaN-skipping row sum. -/
def get_vector_total (df : Frame) (cols : List Name) : List PValue :=
  (List.range df.nRows).map (fun i =>
    PValue.pvSqrt
      ((cols.map (fun c => PValue.sq (cellAt df c i))).foldl PValue.skipAdd (PValue.val 0)))

/-- feature_engineering.get_variable_change_over_time:
    ((df[col] - df[col].shift(1)) / df['dt']).fillna(0). -/
def get_variable_change_over_time (df : Frame) (col : Name) : List PValue :=
  seriesFillna0
    (seriesDiv
      (seriesSub ((df.getCol col).getD []) (shift1 ((df.getCol col).getD [])))
      ((df.getCol (nm "dt")).getD []))

/-- str(col).startswith('x') or str(col).startswith('y') or str(col).startswith('z'). -/
def startsXYZ : Name → Bool
  | 'x' :: _ => true
  | 'y' :: _ => true
  | 'z' :: _ => true
  | _ => false

/-- startswith('fx') or startswith('fy') or startswith('fz'). -/
def startsFXYZ : Name → Bool
  | 'f' :: 'x' :: _ => true
  | 'f' :: 'y' :: _ => true
  | 'f' :: 'z' :: _ => true
  | _ => false

/-- startswith('vx') or startswith('vy') or startswith('vz'). -/
def startsVXYZ : Name → Bool
  | 'v' :: 'x' :: _ => true
  | 'v' :: 'y' :: _ => true
  | 'v' :: 'z' :: _ => true
  | _ => false

/-- endswith('1'). -/
def endsOne (c : Name) : Bool := decide (c.getLast? = some '1')

/-- endswith('2'). -/
def endsTwo (c : Name) : Bool := decide (c.getLast? = some '2')

/-- The column loop of feature_engineering.add_velocity_features, threading the
    in-place column assignments and the two group accumulators. -/
def velLoop : List Name → Frame → List Name → List Name → Frame × List Name × List Name
  | [], df, v1, v2 => (df, v1, v2)
  | c :: rest, df, v1, v2 =>
    if startsXYZ c then
      if endsOne ('v' :: c) then
        velLoop rest (df.setCol ('v' :: c) (get_variable_change_over_time df c))
          (v1 ++ ['v' :: c]) v2
      else if endsTwo ('v' :: c) then
        velLoop rest (df.setCol ('v' :: c) (get_variable_change_over_time df c))
          v1 (v2 ++ ['v' :: c])
      else velLoop rest (df.setCol ('v' :: c) (get_variable_change_over_time df c)) v1 v2
    else velLoop rest df v1 v2

/-- feature_engineering.add_velocity_features.  The first component is the
    frame the function mutated in place, the second its returned slice
    df[['time', *v1cols, *v2cols]]. -/
def add_velocity_features (df : Frame) : Frame × Frame :=
  let r := velLoop df.names df [] []
  let p1 :=
    if r.2.1 = [] then (r.1, r.2.1)
    else (r.1.setCol (nm "v1") (get_vector_total r.1 r.2.1), r.2.1 ++ [nm "v1"])
  let p2 :=
    if r.2.2 = [] then (p1.1, r.2.2)
    else (p1.1.setCol (nm "v2") (get_vector_total p1.1 r.2.2), r.2.2 ++ [nm "v2"])
  (p2.1, p2.1.select (nm "time" :: p1.2 ++ p2.2))

/-- The column scan of feature_engineering.add_total_force_features: cur_fcol
    is 'f' + str(col)[1:], grouped by its trailing digit. -/
def forceLoop : List Name → List Name → List Name → List Name × List Name
  | [], f1, f2 => (f1, f2)
  | c :: rest, f1, f2 =>
    if startsFXYZ c then
      if endsOne ('f' :: c.drop 1) then forceLoop rest (f1 ++ ['f' :: c.drop 1]) f2
      else if endsTwo ('f' :: c.drop 1) then forceLoop rest f1 (f2 ++ ['f' :: c.drop 1])
      else forceLoop rest f1 f2
    else forceLoop rest f1 f2

/-- feature_engineering.add_total_force_features (mutated frame, returned slice). -/
def add_total_force_features (df : Frame) : Frame × Frame :=
  let r := forceLoop df.names [] []
  let p1 :=
    if r.1 = [] then (df, r.1)
    else (df.setCol (nm "f1") (get_vector_total df r.1), r.1 ++ [nm "f1"])
  let p2 :=
    if r.2 = [] then (p1.1, r.2)
    else (p1.1.setCol (nm "f2") (get_vector_total p1.1 r.2), r.2 ++ [nm "f2"])
  (p2.1, p2.1.select (nm "time" :: p1.2 ++ p2.2))

/-- The raw (non-normalized) delta series of add_position_change_features:
    (df[col] - df[col].shift(1)).fillna(0). -/
def posSeries (df : Frame) (col : Name) : List PValue :=
  seriesFillna0 (seriesSub ((df.getCol col).getD []) (shift1 ((df.getCol col).getD [])))

/-- The column loop of feature_engineering.add_position_change_features. -/
def posLoop : List Name → Frame → List Name → List Name → Frame × List Name × List Name
  | [], df, d1, d2 => (df, d1, d2)
  | c :: rest, df, d1, d2 =>
    if startsXYZ c then
      if endsOne ('d' :: c) then
        posLoop rest (df.setCol ('d' :: c) (posSeries df c)) (d1 ++ ['d' :: c]) d2
      else if endsTwo ('d' :: c) then
        posLoop rest (df.setCol ('d' :: c) (posSeries df c)) d1 (d2 ++ ['d' :: c])
      else posLoop rest (df.setCol ('d' :: c) (posSeries df c)) d1 d2
    else posLoop rest df d1 d2

/-- feature_engineering.add_position_change_features (mutated frame, slice). -/
def add_position_change_features (df : Frame) : Frame × Frame :=
  let r := posLoop df.names df [] []
  let p1 :=
    if r.2.1 = [] then (r.1, r.2.1)
    else (r.1.setCol (nm "d1") (get_vector_total r.1 r.2.1), r.2.1 ++ [nm "d1"])
  let p2 :=
    if r.2.2 = [] then (p1.1, r.2.2)
    else (p1.1.setCol (nm "d2") (get_vector_total p1.1 r.2.2), r.2.2 ++ [nm "d2"])
  (p2.1, p2.1.select (nm "time" :: p1.2 ++ p2.2))

/-- The column loop of feature_engineering.add_acceleration_features:
    cur_acol is 'a' + str(col)[1:] for columns starting with vx/vy/vz. -/
def accLoop : List Name → Frame → List Name → List Name → Frame × List Name × List Name
  | [], df, a1, a2 => (df, a1, a2)
  | c :: rest, df, a1, a2 =>
    if startsVXYZ c then
      if endsOne ('a' :: c.drop 1) then
        accLoop rest (df.setCol ('a' :: c.drop 1) (get_variable_change_over_time df c))
          (a1 ++ ['a' :: c.drop 1]) a2
      else if endsTwo ('a' :: c.drop 1) then
        accLoop rest (df.setCol ('a' :: c.drop 1) (get_variable_change_over_time df c))
          a1 (a2 ++ ['a' :: c.drop 1])
      else accLoop rest (df.setCol ('a' :: c.drop 1) (get_variable_change_over_time df c)) a1 a2
    else accLoop rest df a1 a2

/-- feature_engineering.add_acceleration_features: mutates the merged frame in
    place and returns it whole (no slice is taken). -/
def add_acceleration_features (df : Frame) : Frame :=
  let r := accLoop df.names df [] []
  let df1 := if r.2.1 = [] then r.1 else r.1.setCol (nm "a1") (get_vector_total r.1 r.2.1)
  if r.2.2 = [] then df1 else df1.setCol (nm "a2") (get_vector_total df1 r.2.2)

/-- The row key of a frame on a list of join columns. -/
def keyAt (f : Frame) (ks : List Name) (i : ℕ) : List PValue := ks.map (fun c => cellAt f c i)

/-- Matching row pairs of an inner join, in left-key order (how pandas orders
    an inner merge with sort=False). -/
def matchPairs (a b : Frame) (ks : List Name) : List (ℕ × ℕ) :=
  (List.range a.nRows).flatMap (fun i =>
    ((List.range b.nRows).filter (fun j => decide (keyAt a ks i = keyAt b ks j))).map
      (fun j => (i, j)))

/-- pd.merge(a, b): inner join on the columns common to both frames. -/
def merge (a b : Frame) : Frame :=
  let ks := a.names.filter (fun c => decide (c ∈ b.names))
  let ps := matchPairs a b ks
  ⟨(a.cols.map (fun p => (p.1, ps.map (fun ij => cellAt a p.1 ij.1)))) ++
    ((b.cols.filter (fun p => decide (¬ p.1 ∈ ks))).map
      (fun p => (p.1, ps.map (fun ij => cellAt b p.1 ij.2))))⟩

/-- feature_engineering.add_engineered_features.

    datetime.timestamp is modelled as the identity on the already-numeric time
    cells.  The three stage-2 transforms receive the frame by value: dask.bag's
    default multiprocessing scheduler pickles the frame into each task, so the
    in-place writes of one transform are visible neither to the others nor to
    the merge below, whose left operand is the parent's frame. -/
def add_engineered_features (df : Frame) : Frame :=
  let ts := (df.getCol (nm "time")).getD []
  let dfA := df.setCol (nm "timestamp") ts
  let dfB := dfA.setCol (nm "dt") (seriesSub ts (shift1 ts))
  let vdf := (add_velocity_features dfB).2
  let adf := (add_total_force_features dfB).2
  let pdf := (add_position_change_features dfB).2
  let vapdf := merge (merge vdf adf) pdf
  add_acceleration_features (merge dfB vapdf)

/-- Series.ffill on one column, carrying the last observed cell. -/
def ffillGo : Option PValue → List PValue → List PValue
  | _, [] => []
  | last, x :: xs =>
    if x = PValue.nan then (last.getD PValue.nan) :: ffillGo last xs
    else x :: ffillGo (some x) xs

def ffill (xs : List PValue) : List PValue := ffillGo none xs

/-- Series.bfill: a forward fill run from the back. -/
def bfill (xs : List PValue) : List PValue := (ffill xs.reverse).reverse

/-- main.match_timestamps_with_measurements: df.ffill().bfill(). -/
def match_timestamps_with_measurements (f : Frame) : Frame :=
  ⟨f.cols.map (fun p => (p.1, bfill (ffill p.2)))⟩

/-- A long-format measurement record (main.py input), with run_uuid kept as an
    exact unbounded natural number. -/
structure MRow where
  time : ℚ
  value : PValue
  field : Name
  robot_id : ℕ
  run_uuid : ℕ
  sensor_type : Name
deriving DecidableEq, Repr

/-- astype('uint64') on one cell, per column_dtypes in main.py: pandas raises
    OverflowError for a Python int outside the uint64 range instead of
    truncating it. -/
def astype_uint64 (v : ℕ) : Except String ℕ :=
  if v < 2 ^ 64 then Except.ok v else Except.error "OverflowError"

/-- main.preprocess_df restricted to the run_uuid column: df.astype succeeds,
    leaving every run_uuid value unchanged, exactly when every cell passes
    astype_uint64, and otherwise raises. -/
def preprocess_df_run_uuid (df : List MRow) : Except String (List MRow) :=
  if df.all (fun r => decide (r.run_uuid < 2 ^ 64)) then Except.ok df
  else Except.error "OverflowError"

/-- First-appearance deduplication with an accumulator of already-seen values
    (the order Series.unique reports). -/
def uniqueGo {α : Type} [DecidableEq α] (seen : List α) : List α → List α
  | [] => []
  | a :: rest => if a ∈ seen then uniqueGo seen rest else a :: uniqueGo (a :: seen) rest

/-- main.get_dfs_by_run_uuid: an insertion-ordered mapping from each distinct
    run_uuid to the boolean-mask selection df[df['run_uuid'] == run_uuid]. -/
def get_dfs_by_run_uuid (df : List MRow) : List (ℕ × List MRow) :=
  (uniqueGo [] (df.map (fun r => r.run_uuid))).map
    (fun u => (u, df.filter (fun r => decide (r.run_uuid = u))))

/-- The observed values aggregated into one pivot cell: rows matching the
    (time, field, robot_id) triple, NaN values skipped (pivot_table's mean
    aggregation ignores NaN). -/
def pivotVals (df : List MRow) (t : ℚ) (f : Name) (rid : ℕ) : List ℚ :=
  (df.filter (fun r => decide (r.time = t ∧ r.field = f ∧ r.robot_id = rid))).filterMap
    (fun r => match r.value with | PValue.val q => some q | _ => none)

/-- One cell of pivot_table(index='time', columns=['field','robot_id'],
    values='value'): the arithmetic mean of the matching observed values
    (pivot_table's default aggfunc), NaN when there are none. -/
def pivotCell (df : List MRow) (t : ℚ) (f : Name) (rid : ℕ) : PValue :=
  let vs := pivotVals df t f rid
  if vs = [] then PValue.nan else PValue.val (vs.sum / vs.length)

def natName (n : ℕ) : Name := (toString n).toList

/-- main.convert_to_features: the wide frame over the sorted distinct
    timestamps, one column per observed (field, robot_id) pair named
    field_robot_id, each cell aggregated by pivotCell.  (pandas sorts the
    pivoted column index; column order is immaterial to every claim below and
    first-appearance order is used here.) -/
def convert_to_features (df : List MRow) : Frame :=
  let ts := List.insertionSort (· ≤ ·) (uniqueGo [] (df.map (fun r => r.time)))
  let keys := uniqueGo [] (df.map (fun r => (r.field, r.robot_id)))
  ⟨(nm "time", ts.map PValue.val) ::
    keys.map (fun k =>
      (k.1 ++ '_' :: natName k.2, ts.map (fun t => pivotCell df t k.1 k.2)))⟩

/-- The real value of a finite cell (NaN and the infinities have none); used
    only to state claims about magnitude cells. -/
noncomputable def PValue.interp : PValue → Option ℝ
  | nan => none
  | pinf => none
  | ninf => none
  | val q => some (q : ℝ)
  | root q => some (Real.sqrt (q : ℝ))


/-- The first force group: columns whose (identity-renamed) name starts with
    fx/fy/fz and ends in the digit 1. -/
def forceGroupOne (g : Frame) : List Name :=
  g.names.filter (fun c => startsFXYZ c && endsOne c)

/-- The second force group (trailing digit 2). -/
def forceGroupTwo (g : Frame) : List Name :=
  g.names.filter (fun c => startsFXYZ c && endsTwo c)


/-- The shared tail of the three slice transforms: conditionally attach a
    group magnitude column and extend the group list with its name. -/
def magStage (gV : Frame) (L : List Name) (m : Name) : Frame × List Name :=
  if L = [] then (gV, L) else (gV.setCol m (get_vector_total gV L), L ++ [m])

/-- Both magnitude stages followed by the slice df[['time', *g1, *g2]]. -/
def magSelect (gV : Frame) (L1 L2 : List Name) (n1 n2 : Name) : Frame :=
  (magStage (magStage gV L1 n1).1 L2 n2).1.select
    (nm "time" :: (magStage gV L1 n1).2 ++ (magStage (magStage gV L1 n1).1 L2 n2).2)

lemma PValue.sub_nan (x : PValue) : PValue.sub x PValue.nan = PValue.nan := by
  cases x <;> rfl

lemma PValue.nan_div (d : PValue) : PValue.div PValue.nan d = PValue.nan := by
  cases d <;> rfl

/-- C1: every run_uuid value that survives preprocessing is bit-for-bit the
    input value, and a table containing a run_uuid wider than 64 bits makes
    preprocessing raise instead of truncating; astype('uint64') itself never
    returns an altered value. -/
theorem C1_run_id_never_narrowed (df : List MRow) :
    (∀ out, preprocess_df_run_uuid df = Except.ok out →
      out.map (fun r => r.run_uuid) = df.map (fun r => r.run_uuid)) ∧
    (∀ r ∈ df, 2 ^ 64 ≤ r.run_uuid →
      preprocess_df_run_uuid df = Except.error "OverflowError") ∧
    (∀ v w, astype_uint64 v = Except.ok w → w = v) := by
  refine ⟨?_, ?_, ?_⟩
  · intro out hout
    unfold preprocess_df_run_uuid at hout
    by_cases h : df.all (fun r => decide (r.run_uuid < 2 ^ 64))
    · rw [if_pos h] at hout
      cases hout
      rfl
    · rw [if_neg h] at hout
      cases hout
  · intro r hr hbig
    unfold preprocess_df_run_uuid
    rw [if_neg]
    intro hall
    have := List.all_eq_true.mp hall r hr
    have hlt := of_decide_eq_true this
    omega
  · intro v w hok
    unfold astype_uint64 at hok
    by_cases h : v < 2 ^ 64
    · rw [if_pos h] at hok
      cases hok
      rfl
    · rw [if_neg h] at hok
      cases hok

theorem C1_run_id_never_narrowed_witness :
    2 ^ 64 ≤ ((⟨0, PValue.val 1, nm "fx", 1, 2 ^ 64, nm "load_cell"⟩ : MRow).run_uuid) ∧
    preprocess_df_run_uuid [⟨0, PValue.val 1, nm "fx", 1, 2 ^ 64, nm "load_cell"⟩] =
      Except.error "OverflowError" :=
  ⟨Nat.le_refl _,
    (C1_run_id_never_narrowed [⟨0, PValue.val 1, nm "fx", 1, 2 ^ 64, nm "load_cell"⟩]).2.1
      ⟨0, PValue.val 1, nm "fx", 1, 2 ^ 64, nm "load_cell"⟩ (by simp) (Nat.le_refl _)⟩

/-- C2: evaluating the code at the failing input.  On a row whose dt is 0 and
    whose column value changed from 0 to 1, the normalized temporal delta is
    positive infinity, not the 0 the divide-by-zero policy mandates: fillna(0)
    replaces only NaN, while float division of a nonzero numerator by zero
    produces a signed infinity. -/
theorem C2_dt_zero_yields_infinity :
    get_variable_change_over_time
      ⟨[(nm "time", [PValue.val 0, PValue.val 0]),
        (nm "x_1", [PValue.val 0, PValue.val 1]),
        (nm "dt", [PValue.nan, PValue.val 0])]⟩ (nm "x_1")
      = [PValue.val 0, PValue.pinf] ∧
    PValue.pinf ≠ PValue.val 0 := by
  constructor
  · have key : PValue.sub (PValue.val 1) (PValue.val 0) = PValue.val 1 := by
      show PValue.val (1 - 0) = PValue.val 1
      norm_num
    have h : get_variable_change_over_time
        ⟨[(nm "time", [PValue.val 0, PValue.val 0]),
          (nm "x_1", [PValue.val 0, PValue.val 1]),
          (nm "dt", [PValue.nan, PValue.val 0])]⟩ (nm "x_1") =
        [PValue.fillna0 (PValue.div (PValue.sub (PValue.val 0) PValue.nan) PValue.nan),
         PValue.fillna0 (PValue.div (PValue.sub (PValue.val 1) (PValue.val 0)) (PValue.val 0))] :=
      rfl
    rw [h, key]
    decide
  · decide

/-- C5: evaluating the three stage-2 transforms on a shared base frame.  Each
    of them returns a mutated version of the very frame it received (new
    columns assigned in place), so none of them treats the base frame as a
    read-only view, and none makes its own defensive copy: isolation exists
    only if the scheduler happens to hand each task a pickled copy. -/
theorem C5_stage2_transforms_mutate_received_frame :
    (add_velocity_features
        ⟨[(nm "time", [PValue.val 0]), (nm "timestamp", [PValue.val 0]),
          (nm "dt", [PValue.nan]), (nm "x_1", [PValue.val 1]),
          (nm "fx_1", [PValue.val 2])]⟩).1 ≠
      ⟨[(nm "time", [PValue.val 0]), (nm "timestamp", [PValue.val 0]),
        (nm "dt", [PValue.nan]), (nm "x_1", [PValue.val 1]),
        (nm "fx_1", [PValue.val 2])]⟩ ∧
    (add_total_force_features
        ⟨[(nm "time", [PValue.val 0]), (nm "timestamp", [PValue.val 0]),
          (nm "dt", [PValue.nan]), (nm "x_1", [PValue.val 1]),
          (nm "fx_1", [PValue.val 2])]⟩).1 ≠
      ⟨[(nm "time", [PValue.val 0]), (nm "timestamp", [PValue.val 0]),
        (nm "dt", [PValue.nan]), (nm "x_1", [PValue.val 1]),
        (nm "fx_1", [PValue.val 2])]⟩ ∧
    (add_position_change_features
        ⟨[(nm "time", [PValue.val 0]), (nm "timestamp", [PValue.val 0]),
          (nm "dt", [PValue.nan]), (nm "x_1", [PValue.val 1]),
          (nm "fx_1", [PValue.val 2])]⟩).1 ≠
      ⟨[(nm "time", [PValue.val 0]), (nm "timestamp", [PValue.val 0]),
        (nm "dt", [PValue.nan]), (nm "x_1", [PValue.val 1]),
        (nm "fx_1", [PValue.val 2])]⟩ := by
  refine ⟨?_, ?_, ?_⟩ <;> decide

/-- C7: on any frame whose target column and dt column are both non-empty, the
    normalized temporal delta puts exactly 0 in the first row, whatever the
    first values of the column and of dt are: the shifted previous value is
    NaN, NaN propagates through subtraction and division, and fillna(0) turns
    it into 0. -/
theorem C7_first_row_yields_zero (df : Frame) (col : Name) (x d : PValue)
    (xs ds : List PValue)
    (hc : df.getCol col = some (x :: xs)) (hd : df.getCol (nm "dt") = some (d :: ds)) :
    ∃ rest, get_variable_change_over_time df col = PValue.val 0 :: rest := by
  have h : get_variable_change_over_time df col =
      PValue.val 0 ::
        seriesFillna0 (seriesDiv (List.zipWith PValue.sub xs (x :: xs).dropLast) ds) := by
    unfold get_variable_change_over_time
    rw [hc, hd]
    show seriesFillna0 (seriesDiv
        (PValue.sub x PValue.nan :: List.zipWith PValue.sub xs (x :: xs).dropLast)
        (d :: ds)) = _
    rw [PValue.sub_nan]
    show PValue.fillna0 (PValue.div PValue.nan d) ::
        seriesFillna0 (seriesDiv (List.zipWith PValue.sub xs (x :: xs).dropLast) ds) = _
    rw [PValue.nan_div]
    rfl
  exact ⟨_, h⟩

theorem C7_first_row_yields_zero_witness :
    (⟨[(nm "dt", [PValue.pinf, PValue.val 3]),
       (nm "y_2", [PValue.val 7, PValue.val 9])]⟩ : Frame).getCol (nm "y_2") =
        some [PValue.val 7, PValue.val 9] ∧
    ∃ rest,
      get_variable_change_over_time
        ⟨[(nm "dt", [PValue.pinf, PValue.val 3]),
          (nm "y_2", [PValue.val 7, PValue.val 9])]⟩ (nm "y_2") =
        PValue.val 0 :: rest :=
  ⟨by decide,
    C7_first_row_yields_zero _ (nm "y_2") (PValue.val 7) PValue.pinf [PValue.val 9]
      [PValue.val 3] (by decide) (by decide)⟩

lemma length_ffillGo (xs : List PValue) : ∀ l, (ffillGo l xs).length = xs.length := by
  induction xs with
  | nil => intro l; rfl
  | cons x xs ih =>
    intro l
    unfold ffillGo
    by_cases hx : x = PValue.nan
    · rw [if_pos hx]
      simp [ih]
    · rw [if_neg hx]
      simp [ih]

lemma ffillGo_of_noNan (xs : List PValue) : ∀ l, PValue.nan ∉ xs → ffillGo l xs = xs := by
  induction xs with
  | nil => intro l _; rfl
  | cons x xs ih =>
    intro l h
    have hx : x ≠ PValue.nan := fun hc => h (hc ▸ List.mem_cons_self x xs)
    have hxs : PValue.nan ∉ xs := fun hc => h (List.mem_cons_of_mem x hc)
    unfold ffillGo
    rw [if_neg hx, ih (some x) hxs]

lemma noNan_ffillGo_some (xs : List PValue) :
    ∀ v, v ≠ PValue.nan → PValue.nan ∉ ffillGo (some v) xs := by
  induction xs with
  | nil => intro v _ h; exact absurd h (List.not_mem_nil _)
  | cons x xs ih =>
    intro v hv
    unfold ffillGo
    by_cases hx : x = PValue.nan
    · rw [if_pos hx]
      intro hmem
      rcases List.mem_cons.mp hmem with h | h
      · exact hv h.symm
      · exact ih v hv h
    · rw [if_neg hx]
      intro hmem
      rcases List.mem_cons.mp hmem with h | h
      · exact hx h.symm
      · exact ih x hx h

lemma ffillGo_allNan (xs : List PValue) (h : ∀ x ∈ xs, x = PValue.nan) :
    ffillGo none xs = xs := by
  induction xs with
  | nil => rfl
  | cons x xs ih =>
    have hx : x = PValue.nan := h x (List.mem_cons_self x xs)
    unfold ffillGo
    rw [if_pos hx]
    rw [ih (fun y hy => h y (List.mem_cons_of_mem x hy))]
    simp [hx, Option.getD]

lemma getLast?_ffillGo (xs : List PValue) :
    ∀ l, xs ≠ [] →
      ((∃ v ∈ xs, v ≠ PValue.nan) ∨ (∃ v, l = some v ∧ v ≠ PValue.nan)) →
      ∃ w, (ffillGo l xs).getLast? = some w ∧ w ≠ PValue.nan := by
  induction xs with
  | nil => intro l h _; exact absurd rfl h
  | cons x xs ih =>
    intro l _ hobs
    unfold ffillGo
    by_cases hx : x = PValue.nan
    · rw [if_pos hx]
      cases xs with
      | nil =>
        rcases hobs with ⟨v, hv, hvn⟩ | ⟨v, hl, hvn⟩
        · rcases List.mem_singleton.mp hv with rfl
          exact absurd hx hvn
        · exact ⟨v, by rw [hl]; rfl, hvn⟩
      | cons y ys =>
        have hne : ffillGo l (y :: ys) ≠ [] := by
          intro hc
          have := length_ffillGo (y :: ys) l
          rw [hc] at this
          simp at this
        obtain ⟨w, hw, hwn⟩ := ih l (by simp) (by
          rcases hobs with ⟨v, hv, hvn⟩ | hcarry
          · rcases List.mem_cons.mp hv with rfl | hv2
            · exact absurd hx hvn
            · exact Or.inl ⟨v, hv2, hvn⟩
          · exact Or.inr hcarry)
        refine ⟨w, ?_, hwn⟩
        rw [List.getLast?_cons, hw]
        · cases hfg : ffillGo l (y :: ys) with
          | nil => exact absurd hfg hne
          | cons a as => simp [hfg]
    · rw [if_neg hx]
      cases xs with
      | nil => exact ⟨x, rfl, hx⟩
      | cons y ys =>
        have hne : ffillGo (some x) (y :: ys) ≠ [] := by
          intro hc
          have := length_ffillGo (y :: ys) (some x)
          rw [hc] at this
          simp at this
        obtain ⟨w, hw, hwn⟩ := ih (some x) (by simp) (Or.inr ⟨x, rfl, hx⟩)
        refine ⟨w, ?_, hwn⟩
        rw [List.getLast?_cons, hw]
        cases hfg : ffillGo (some x) (y :: ys) with
        | nil => exact absurd hfg hne
        | cons a as => simp [hfg]

lemma ffill_of_noNan (xs : List PValue) (h : PValue.nan ∉ xs) : ffill xs = xs :=
  ffillGo_of_noNan xs none h

lemma bfill_of_noNan (xs : List PValue) (h : PValue.nan ∉ xs) : bfill xs = xs := by
  unfold bfill
  rw [ffill_of_noNan xs.reverse (by simpa using h), List.reverse_reverse]

lemma noNan_gapfill (xs : List PValue) (h : ∃ v ∈ xs, v ≠ PValue.nan) :
    PValue.nan ∉ bfill (ffill xs) := by
  have hne : xs ≠ [] := by
    rintro rfl
    rcases h with ⟨v, hv, _⟩
    exact absurd hv (List.not_mem_nil v)
  obtain ⟨w, hw, hwn⟩ := getLast?_ffillGo xs none hne (Or.inl h)
  have hrev : (ffill xs).reverse.head? = some w := by
    rw [List.head?_reverse]
    exact hw
  cases hcase : (ffill xs).reverse with
  | nil => rw [hcase] at hrev; cases hrev
  | cons a as =>
    rw [hcase] at hrev
    have haw : a = w := by simpa using hrev
    unfold bfill
    rw [hcase]
    intro hmem
    have hmem2 : PValue.nan ∈ ffill (a :: as) := List.mem_reverse.mp hmem
    have han : a ≠ PValue.nan := haw ▸ hwn
    unfold ffill ffillGo at hmem2
    rw [if_neg han] at hmem2
    rcases List.mem_cons.mp hmem2 with hc | hc
    · exact han hc.symm
    · exact noNan_ffillGo_some as a han hc

lemma gapfill_idem (xs : List PValue) :
    bfill (ffill (bfill (ffill xs))) = bfill (ffill xs) := by
  by_cases h : ∃ v ∈ xs, v ≠ PValue.nan
  · have hnn := noNan_gapfill xs h
    rw [ffill_of_noNan _ hnn, bfill_of_noNan _ hnn]
  · push_neg at h
    have h1 : ffill xs = xs := ffillGo_allNan xs h
    have h2 : bfill xs = xs := by
      unfold bfill ffill
      rw [ffillGo_allNan xs.reverse (by intro y hy; exact h y (List.mem_reverse.mp hy)),
        List.reverse_reverse]
    rw [h1, h2, h1, h2]

/-- C8: GapFiller (forward fill then backward fill) is idempotent on every
    frame: a second application changes nothing, column by column. -/
theorem C8_gap_filler_idempotent (f : Frame) :
    match_timestamps_with_measurements (match_timestamps_with_measurements f) =
      match_timestamps_with_measurements f := by
  unfold match_timestamps_with_measurements
  congr 1
  rw [List.map_map]
  apply List.map_congr_left
  intro p _
  show (p.1, bfill (ffill (bfill (ffill p.2)))) = (p.1, bfill (ffill p.2))
  rw [gapfill_idem]

lemma uniqueGo_mem {α : Type} [DecidableEq α] (l : List α) :
    ∀ (seen : List α) (b : α), b ∈ uniqueGo seen l ↔ b ∈ l ∧ b ∉ seen := by
  induction l with
  | nil => intro seen b; simp [uniqueGo]
  | cons a rest ih =>
    intro seen b
    unfold uniqueGo
    by_cases ha : a ∈ seen
    · rw [if_pos ha, ih]
      constructor
      · rintro ⟨hb, hbs⟩
        exact ⟨List.mem_cons_of_mem a hb, hbs⟩
      · rintro ⟨hb, hbs⟩
        rcases List.mem_cons.mp hb with rfl | hb2
        · exact absurd ha hbs
        · exact ⟨hb2, hbs⟩
    · rw [if_neg ha]
      constructor
      · intro hmem
        rcases List.mem_cons.mp hmem with rfl | h2
        · exact ⟨List.mem_cons_self _ _, ha⟩
        · obtain ⟨hb, hbs⟩ := (ih _ _).mp h2
          exact ⟨List.mem_cons_of_mem a hb, fun hc => hbs (List.mem_cons_of_mem a hc)⟩
      · rintro ⟨hb, hbs⟩
        rcases List.mem_cons.mp hb with rfl | hb2
        · exact List.mem_cons_self _ _
        · by_cases hba : b = a
          · subst hba
            exact List.mem_cons_self _ _
          · refine List.mem_cons_of_mem a ((ih _ _).mpr ⟨hb2, ?_⟩)
            intro hc
            rcases List.mem_cons.mp hc with h | h
            · exact hba h
            · exact hbs h

lemma uniqueGo_nodup {α : Type} [DecidableEq α] (l : List α) :
    ∀ seen : List α, (uniqueGo seen l).Nodup := by
  induction l with
  | nil => intro seen; exact List.nodup_nil
  | cons a rest ih =>
    intro seen
    unfold uniqueGo
    by_cases ha : a ∈ seen
    · rw [if_pos ha]
      exact ih seen
    · rw [if_neg ha]
      refine List.nodup_cons.mpr ⟨?_, ih (a :: seen)⟩
      intro hc
      exact ((uniqueGo_mem rest (a :: seen) a).mp hc).2 (List.mem_cons_self a seen)

lemma count_flatten_filter (df : List MRow) (r : MRow) :
    ∀ ks : List ℕ, ks.Nodup →
      ((ks.map (fun u => df.filter (fun x => decide (x.run_uuid = u)))).flatten).count r =
        if r.run_uuid ∈ ks then df.count r else 0 := by
  intro ks
  induction ks with
  | nil => intro _; simp
  | cons u ks ih =>
    intro hnd
    obtain ⟨hu, hks⟩ := List.nodup_cons.mp hnd
    rw [List.map_cons, List.flatten_cons, List.count_append, ih hks]
    by_cases hru : r.run_uuid = u
    · have h1 : (df.filter (fun x => decide (x.run_uuid = u))).count r = df.count r :=
        List.count_filter (by simp [hru])
      have h2 : r.run_uuid ∉ ks := hru ▸ hu
      rw [h1, if_neg h2, if_pos (by simp [hru])]
      omega
    · have h1 : (df.filter (fun x => decide (x.run_uuid = u))).count r = 0 := by
        rw [List.count_eq_zero]
        intro hc
        exact hru (by simpa using (List.mem_filter.mp hc).2)
      rw [h1]
      by_cases hmem : r.run_uuid ∈ ks
      · rw [if_pos hmem, if_pos (List.mem_cons_of_mem u hmem)]
        omega
      · rw [if_neg hmem, if_neg (by
          intro hc
          rcases List.mem_cons.mp hc with h | h
          · exact hru h
          · exact hmem h)]

/-- C9: the run partitioner is a total, disjoint partition.  Its keys are
    exactly the distinct run_uuid values, without repetition; each group is the
    order-preserving selection of the rows with exactly that run_uuid; the
    groups joined together are a permutation of the input (every input row
    appears exactly once, with multiplicity); every row has a group, and a row
    belongs to a group exactly when the group's key is its run_uuid. -/
theorem C9_run_partitioner_partitions (df : List MRow) :
    ((get_dfs_by_run_uuid df).map Prod.fst).Nodup ∧
    (∀ p ∈ get_dfs_by_run_uuid df,
      p.2 = df.filter (fun r => decide (r.run_uuid = p.1)) ∧ p.2.Sublist df) ∧
    ((get_dfs_by_run_uuid df).map Prod.snd).flatten.Perm df ∧
    (∀ r ∈ df, ∃ p ∈ get_dfs_by_run_uuid df, p.1 = r.run_uuid) ∧
    (∀ r ∈ df, ∀ p ∈ get_dfs_by_run_uuid df, (r ∈ p.2 ↔ p.1 = r.run_uuid)) := by
  refine ⟨?_, ?_, ?_, ?_, ?_⟩
  · unfold get_dfs_by_run_uuid
    rw [List.map_map]
    have : (Prod.fst ∘ fun u => (u, df.filter (fun r => decide (r.run_uuid = u)))) = id := by
      funext u
      rfl
    rw [this, List.map_id]
    exact uniqueGo_nodup _ []
  · intro p hp
    unfold get_dfs_by_run_uuid at hp
    obtain ⟨u, _, rfl⟩ := List.mem_map.mp hp
    exact ⟨rfl, List.filter_sublist df⟩
  · rw [List.perm_iff_count]
    intro r
    unfold get_dfs_by_run_uuid
    rw [List.map_map]
    have hcomp : (Prod.snd ∘ fun u => (u, df.filter (fun x => decide (x.run_uuid = u)))) =
        fun u => df.filter (fun x => decide (x.run_uuid = u)) := by
      funext u
      rfl
    rw [hcomp, count_flatten_filter df r _ (uniqueGo_nodup _ [])]
    by_cases hmem : r.run_uuid ∈ uniqueGo [] (df.map (fun x => x.run_uuid))
    · rw [if_pos hmem]
    · rw [if_neg hmem]
      have hr : r ∉ df := by
        intro hc
        exact hmem ((uniqueGo_mem _ [] _).mpr
          ⟨List.mem_map.mpr ⟨r, hc, rfl⟩, List.not_mem_nil _⟩)
      rw [Eq.comm, List.count_eq_zero]
      exact hr
  · intro r hr
    refine ⟨(r.run_uuid, df.filter (fun x => decide (x.run_uuid = r.run_uuid))), ?_, rfl⟩
    unfold get_dfs_by_run_uuid
    exact List.mem_map.mpr ⟨r.run_uuid,
      (uniqueGo_mem _ [] _).mpr ⟨List.mem_map.mpr ⟨r, hr, rfl⟩, List.not_mem_nil _⟩, rfl⟩
  · intro r hr p hp
    unfold get_dfs_by_run_uuid at hp
    obtain ⟨u, _, rfl⟩ := List.mem_map.mp hp
    simp only [List.mem_filter]
    constructor
    · rintro ⟨_, hdec⟩
      exact (of_decide_eq_true hdec).symm
    · intro hu
      exact ⟨hr, decide_eq_true hu.symm⟩

theorem C9_run_partitioner_partitions_witness :
    (⟨0, PValue.val 1, nm "x", 1, 5, nm "encoder"⟩ : MRow) ∈
      [(⟨0, PValue.val 1, nm "x", 1, 5, nm "encoder"⟩ : MRow),
       ⟨1, PValue.val 2, nm "x", 1, 7, nm "encoder"⟩,
       ⟨0, PValue.val 1, nm "x", 1, 5, nm "encoder"⟩] ∧
    ∃ p ∈ get_dfs_by_run_uuid
        [(⟨0, PValue.val 1, nm "x", 1, 5, nm "encoder"⟩ : MRow),
         ⟨1, PValue.val 2, nm "x", 1, 7, nm "encoder"⟩,
         ⟨0, PValue.val 1, nm "x", 1, 5, nm "encoder"⟩],
      p.1 = (⟨0, PValue.val 1, nm "x", 1, 5, nm "encoder"⟩ : MRow).run_uuid :=
  ⟨by decide,
    (C9_run_partitioner_partitions
        [⟨0, PValue.val 1, nm "x", 1, 5, nm "encoder"⟩,
         ⟨1, PValue.val 2, nm "x", 1, 7, nm "encoder"⟩,
         ⟨0, PValue.val 1, nm "x", 1, 5, nm "encoder"⟩]).2.2.2.1
      ⟨0, PValue.val 1, nm "x", 1, 5, nm "encoder"⟩ (by decide)⟩

/-- C10: duplicate (time, field, robot_id) triples are resolved by pivot_table
    into the arithmetic mean of the matching observed values — not by
    last-write-wins — and the resolved cell is invariant under any reordering
    of the input rows. -/
theorem C10_pivot_resolves_duplicates_by_mean (df df2 : List MRow) (t : ℚ)
    (f : Name) (rid : ℕ) (h : df.Perm df2) :
    pivotCell df t f rid = pivotCell df2 t f rid ∧
    (pivotVals df t f rid ≠ [] →
      pivotCell df t f rid =
        PValue.val ((pivotVals df t f rid).sum / (pivotVals df t f rid).length)) := by
  have hperm : (pivotVals df t f rid).Perm (pivotVals df2 t f rid) := by
    unfold pivotVals
    exact (h.filter _).filterMap _
  constructor
  · unfold pivotCell
    by_cases hv : pivotVals df t f rid = []
    · have hv2 : pivotVals df2 t f rid = [] := by
        rw [hv] at hperm
        exact hperm.nil_eq.symm
      rw [if_pos hv, if_pos hv2]
    · have hv2 : pivotVals df2 t f rid ≠ [] := by
        intro hc
        rw [hc] at hperm
        exact hv hperm.eq_nil
      rw [if_neg hv, if_neg hv2, hperm.sum_eq, hperm.length_eq]
  · intro hv
    unfold pivotCell
    rw [if_neg hv]

theorem C10_pivot_resolves_duplicates_by_mean_witness :
    ([(⟨0, PValue.val 1, nm "x", 1, 5, nm "encoder"⟩ : MRow),
      ⟨0, PValue.val 2, nm "x", 1, 5, nm "encoder"⟩].Perm
      [(⟨0, PValue.val 2, nm "x", 1, 5, nm "encoder"⟩ : MRow),
       ⟨0, PValue.val 1, nm "x", 1, 5, nm "encoder"⟩]) ∧
    pivotCell
        [(⟨0, PValue.val 1, nm "x", 1, 5, nm "encoder"⟩ : MRow),
         ⟨0, PValue.val 2, nm "x", 1, 5, nm "encoder"⟩] 0 (nm "x") 1 =
      pivotCell
        [(⟨0, PValue.val 2, nm "x", 1, 5, nm "encoder"⟩ : MRow),
         ⟨0, PValue.val 1, nm "x", 1, 5, nm "encoder"⟩] 0 (nm "x") 1 :=
  ⟨by decide,
    (C10_pivot_resolves_duplicates_by_mean
        [⟨0, PValue.val 1, nm "x", 1, 5, nm "encoder"⟩,
         ⟨0, PValue.val 2, nm "x", 1, 5, nm "encoder"⟩]
        [⟨0, PValue.val 2, nm "x", 1, 5, nm "encoder"⟩,
         ⟨0, PValue.val 1, nm "x", 1, 5, nm "encoder"⟩] 0 (nm "x") 1 (by decide)).1⟩

lemma sum_sq_nonneg_eq_zero_iff (l : List ℚ) (h : ∀ x ∈ l, 0 ≤ x) :
    (l.sum = 0 ↔ ∀ x ∈ l, x = 0) := by
  induction l with
  | nil => simp
  | cons x xs ih =>
    have hx : 0 ≤ x := h x (List.mem_cons_self x xs)
    have hxs : ∀ y ∈ xs, 0 ≤ y := fun y hy => h y (List.mem_cons_of_mem x hy)
    have hs : 0 ≤ xs.sum := List.sum_nonneg hxs
    rw [List.sum_cons]
    constructor
    · intro h0
      have hx0 : x = 0 := by linarith
      have hs0 : xs.sum = 0 := by linarith
      intro y hy
      rcases List.mem_cons.mp hy with rfl | hy2
      · exact hx0
      · exact ((ih hxs).mp hs0) y hy2
    · intro hall
      have hx0 : x = 0 := hall x (List.mem_cons_self x xs)
      have hs0 : xs.sum = 0 := (ih hxs).mpr (fun y hy => hall y (List.mem_cons_of_mem x hy))
      rw [hx0, hs0, add_zero]

lemma foldl_skipAdd_vals (df : Frame) (i : ℕ) (qs : Name → ℚ) :
    ∀ (C : List Name) (acc : ℚ), (∀ c ∈ C, cellAt df c i = PValue.val (qs c)) →
      (C.map (fun c => PValue.sq (cellAt df c i))).foldl PValue.skipAdd (PValue.val acc) =
        PValue.val (acc + (C.map (fun c => qs c * qs c)).sum) := by
  intro C
  induction C with
  | nil => intro acc _; simp
  | cons c C ih =>
    intro acc hq
    have hc : cellAt df c i = PValue.val (qs c) := hq c (List.mem_cons_self c C)
    rw [List.map_cons, List.foldl_cons, hc]
    show (C.map (fun c => PValue.sq (cellAt df c i))).foldl PValue.skipAdd
        (PValue.val (acc + qs c * qs c)) = _
    rw [ih (acc + qs c * qs c) (fun d hd => hq d (List.mem_cons_of_mem c hd))]
    rw [List.map_cons, List.sum_cons]
    congr 1
    ring

lemma interp_pvSqrt_of_nonneg (S : ℚ) (h : 0 ≤ S) :
    (PValue.pvSqrt (PValue.val S)).interp = some (Real.sqrt (S : ℝ)) := by
  have hdef : PValue.pvSqrt (PValue.val S) =
      if S.num < 0 then PValue.nan else if S = 0 then PValue.val 0 else PValue.root S := rfl
  rw [hdef, if_neg (by rw [Int.not_lt]; exact Rat.num_nonneg.mpr h)]
  by_cases h0 : S = 0
  · rw [if_pos h0, h0]
    unfold PValue.interp
    norm_num
  · rw [if_neg h0]
    rfl

/-- C6: on any row whose cells in the non-empty column list C are all observed
    rationals, get_vector_total produces a cell whose real value is exactly the
    square root of the sum of the squares of those cells; that value is
    non-negative, and is 0 exactly when every cell in C is 0 on that row.  The
    output has one entry per frame row. -/
theorem C6_vector_magnitude_sqrt_sum_squares (df : Frame) (C : List Name)
    (qs : Name → ℚ) (i : ℕ) (hC : C ≠ [])
    (hq : ∀ c ∈ C, cellAt df c i = PValue.val (qs c)) (hi : i < df.nRows) :
    (get_vector_total df C).length = df.nRows ∧
    ∃ r : ℝ, ((get_vector_total df C).getD i PValue.nan).interp = some r ∧
      r = Real.sqrt (((C.map (fun c => qs c * qs c)).sum : ℚ) : ℝ) ∧
      0 ≤ r ∧
      (r = 0 ↔ ∀ c ∈ C, qs c = 0) := by
  have hlen : (get_vector_total df C).length = df.nRows := by
    unfold get_vector_total
    rw [List.length_map, List.length_range]
  refine ⟨hlen, ?_⟩
  have hsqnn : ∀ x ∈ C.map (fun c => qs c * qs c), 0 ≤ x := by
    intro x hx
    obtain ⟨c, _, rfl⟩ := List.mem_map.mp hx
    exact mul_self_nonneg _
  have hS : 0 ≤ (C.map (fun c => qs c * qs c)).sum := List.sum_nonneg hsqnn
  have hval : (get_vector_total df C).getD i PValue.nan =
      PValue.pvSqrt (PValue.val ((C.map (fun c => qs c * qs c)).sum)) := by
    unfold get_vector_total
    rw [List.getD_eq_getElem?_getD, List.getElem?_map, List.getElem?_range hi]
    show PValue.pvSqrt ((C.map (fun c => PValue.sq (cellAt df c i))).foldl
        PValue.skipAdd (PValue.val 0)) = _
    rw [show (PValue.val 0) = PValue.val (0 : ℚ) from rfl, foldl_skipAdd_vals df i qs C 0 hq,
      zero_add]
  refine ⟨Real.sqrt (((C.map (fun c => qs c * qs c)).sum : ℚ) : ℝ), ?_, rfl, Real.sqrt_nonneg _, ?_⟩
  · rw [hval]
    exact interp_pvSqrt_of_nonneg _ hS
  · rw [Real.sqrt_eq_zero (by exact_mod_cast hS)]
    rw [show ((((C.map (fun c => qs c * qs c)).sum : ℚ) : ℝ) = 0) ↔
        ((C.map (fun c => qs c * qs c)).sum = 0) from Rat.cast_eq_zero]
    rw [sum_sq_nonneg_eq_zero_iff _ hsqnn]
    constructor
    · intro hall c hc
      exact mul_self_eq_zero.mp (hall _ (List.mem_map.mpr ⟨c, hc, rfl⟩))
    · intro hall x hx
      obtain ⟨c, hc, rfl⟩ := List.mem_map.mp hx
      rw [hall c hc, mul_zero]

theorem C6_vector_magnitude_sqrt_sum_squares_witness :
    (∀ c ∈ [nm "x_1", nm "y_1"],
      cellAt ⟨[(nm "x_1", [PValue.val 3]), (nm "y_1", [PValue.val 4])]⟩ c 0 =
        PValue.val (if c = nm "x_1" then (3 : ℚ) else 4)) ∧
    ((get_vector_total ⟨[(nm "x_1", [PValue.val 3]), (nm "y_1", [PValue.val 4])]⟩
        [nm "x_1", nm "y_1"]).length =
      (⟨[(nm "x_1", [PValue.val 3]), (nm "y_1", [PValue.val 4])]⟩ : Frame).nRows ∧
     ∃ r : ℝ,
       ((get_vector_total ⟨[(nm "x_1", [PValue.val 3]), (nm "y_1", [PValue.val 4])]⟩
           [nm "x_1", nm "y_1"]).getD 0 PValue.nan).interp = some r ∧
       r = Real.sqrt
         ((([nm "x_1", nm "y_1"].map (fun c =>
             (if c = nm "x_1" then (3 : ℚ) else 4) * (if c = nm "x_1" then (3 : ℚ) else 4))).sum
           : ℚ) : ℝ) ∧
       0 ≤ r ∧
       (r = 0 ↔ ∀ c ∈ [nm "x_1", nm "y_1"], (if c = nm "x_1" then (3 : ℚ) else 4) = 0)) :=
  ⟨by decide,
    C6_vector_magnitude_sqrt_sum_squares
      ⟨[(nm "x_1", [PValue.val 3]), (nm "y_1", [PValue.val 4])]⟩
      [nm "x_1", nm "y_1"] (fun c => if c = nm "x_1" then (3 : ℚ) else 4) 0
      (by decide) (by decide) (by decide)⟩

lemma assoc_find (l : List (Name × List PValue)) (hnd : (l.map Prod.fst).Nodup)
    {p : Name × List PValue} (hp : p ∈ l) :
    l.find? (fun q => decide (q.1 = p.1)) = some p := by
  induction l with
  | nil => exact absurd hp (List.not_mem_nil p)
  | cons q l ih =>
    rw [List.map_cons, List.nodup_cons] at hnd
    rcases List.mem_cons.mp hp with rfl | hp2
    · rw [List.find?_cons_of_pos _ (by simp)]
    · have hne : ¬(q.1 = p.1) := by
        intro hc
        exact hnd.1 (hc ▸ List.mem_map.mpr ⟨p, hp2, rfl⟩)
      rw [List.find?_cons_of_neg _ (by simpa using hne)]
      exact ih hnd.2 hp2

lemma getCol_mem_nodup (f : Frame) (hnd : f.names.Nodup) {p : Name × List PValue}
    (hp : p ∈ f.cols) : f.getCol p.1 = some p.2 := by
  unfold Frame.getCol
  rw [assoc_find f.cols hnd hp]
  rfl

lemma getCol_eq_none (f : Frame) (c : Name) (h : c ∉ f.names) : f.getCol c = none := by
  unfold Frame.getCol
  rw [List.find?_eq_none.mpr ?_]
  · rfl
  · intro x hx
    simp only [decide_eq_true_eq]
    intro hc
    exact h (hc ▸ List.mem_map.mpr ⟨x, hx, rfl⟩)

lemma getCol_some_mem (f : Frame) (c : Name) (vs : List PValue)
    (h : f.getCol c = some vs) : c ∈ f.names := by
  unfold Frame.getCol at h
  cases hf : f.cols.find? (fun q => decide (q.1 = c)) with
  | none => rw [hf] at h; cases h
  | some q =>
    have hq := List.find?_some hf
    have hmem := List.mem_of_find?_eq_some hf
    simp only [decide_eq_true_eq] at hq
    exact hq ▸ List.mem_map.mpr ⟨q, hmem, rfl⟩

lemma getCol_mem_exists (f : Frame) (c : Name) (h : c ∈ f.names) :
    ∃ vs, f.getCol c = some vs := by
  obtain ⟨p, hp, hpc⟩ := List.mem_map.mp h
  unfold Frame.getCol
  cases hf : f.cols.find? (fun q => decide (q.1 = c)) with
  | none =>
    rw [List.find?_eq_none] at hf
    exact absurd (by simpa using hpc) (by simpa using hf p hp)
  | some q => exact ⟨q.2, rfl⟩

lemma setCol_not_mem (f : Frame) (c : Name) (vs : List PValue) (h : c ∉ f.names) :
    f.setCol c vs = ⟨f.cols ++ [(c, vs)]⟩ := by
  unfold Frame.setCol Frame.hasCol
  rw [getCol_eq_none f c h]
  rfl

lemma getCol_mk_append_left (l e : List (Name × List PValue)) (c : Name)
    (vs : List PValue) (h : (⟨l⟩ : Frame).getCol c = some vs) :
    (⟨l ++ e⟩ : Frame).getCol c = some vs := by
  unfold Frame.getCol at h ⊢
  rw [List.find?_append]
  cases hf : l.find? (fun q => decide (q.1 = c)) with
  | none => rw [hf] at h; cases h
  | some q =>
    rw [hf] at h
    simpa using h

lemma getCol_mk_append_right (l e : List (Name × List PValue)) (c : Name)
    (h : c ∉ (⟨l⟩ : Frame).names) :
    (⟨l ++ e⟩ : Frame).getCol c = (⟨e⟩ : Frame).getCol c := by
  unfold Frame.getCol
  rw [List.find?_append]
  have hnone : l.find? (fun q => decide (q.1 = c)) = none := by
    rw [List.find?_eq_none]
    intro x hx
    simp only [decide_eq_true_eq]
    intro hc
    exact h (hc ▸ List.mem_map.mpr ⟨x, hx, rfl⟩)
  rw [hnone]
  rfl

lemma getCol_mk_append_single_ne (l : List (Name × List PValue)) (a : Name)
    (vs : List PValue) (c : Name) (h : c ≠ a) :
    (⟨l ++ [(a, vs)]⟩ : Frame).getCol c = (⟨l⟩ : Frame).getCol c := by
  unfold Frame.getCol
  rw [List.find?_append]
  cases hf : l.find? (fun q => decide (q.1 = c)) with
  | none =>
    have : [(a, vs)].find? (fun q => decide (q.1 = c)) = none := by
      rw [List.find?_eq_none]
      intro x hx
      simp only [List.mem_singleton] at hx
      subst hx
      simpa using fun hc => h hc.symm
    rw [this]
    rfl
  | some q => rfl

lemma names_mk_append (l e : List (Name × List PValue)) :
    (⟨l ++ e⟩ : Frame).names = (⟨l⟩ : Frame).names ++ (⟨e⟩ : Frame).names := by
  simp [Frame.names]

lemma nRows_mk_append (l e : List (Name × List PValue)) (h : l ≠ []) :
    (⟨l ++ e⟩ : Frame).nRows = (⟨l⟩ : Frame).nRows := by
  cases l with
  | nil => exact absurd rfl h
  | cons q l2 => rfl

lemma nRows_of_lengths (f : Frame) (n : ℕ) (hlen : ∀ p ∈ f.cols, p.2.length = n)
    (hne : f.cols ≠ []) : f.nRows = n := by
  cases hc : f.cols with
  | nil => exact absurd hc hne
  | cons q l =>
    unfold Frame.nRows
    rw [hc]
    exact hlen q (hc ▸ List.mem_cons_self q l)

lemma select_names (f : Frame) (cs : List Name) : (f.select cs).names = cs := by
  unfold Frame.select Frame.names
  rw [List.map_map]
  have hid : (Prod.fst ∘ fun c => (c, (f.getCol c).getD [])) = id := by
    funext c
    rfl
  rw [hid, List.map_id]

lemma select_getCol (f : Frame) (cs : List Name) (c : Name) (vs : List PValue)
    (hnd : cs.Nodup) (hc : c ∈ cs) (h : f.getCol c = some vs) :
    (f.select cs).getCol c = some vs := by
  have hpair : (c, vs) ∈ (f.select cs).cols :=
    List.mem_map.mpr ⟨c, hc, by rw [h]; rfl⟩
  exact getCol_mem_nodup (f.select cs) (by rw [select_names]; exact hnd) hpair

lemma gvcot_congr (g g2 : Frame) (c : Name) (h1 : g2.getCol c = g.getCol c)
    (h2 : g2.getCol (nm "dt") = g.getCol (nm "dt")) :
    get_variable_change_over_time g2 c = get_variable_change_over_time g c := by
  unfold get_variable_change_over_time
  rw [h1, h2]

lemma posSeries_congr (g g2 : Frame) (c : Name) (h1 : g2.getCol c = g.getCol c) :
    posSeries g2 c = posSeries g c := by
  unfold posSeries
  rw [h1]

lemma gvt_congr (g g2 : Frame) (cols : List Name) (hn : g2.nRows = g.nRows)
    (h : ∀ c ∈ cols, g2.getCol c = g.getCol c) :
    get_vector_total g2 cols = get_vector_total g cols := by
  unfold get_vector_total
  rw [hn]
  apply List.map_congr_left
  intro i _
  congr 1
  congr 1
  apply List.map_congr_left
  intro c hc
  unfold cellAt
  rw [h c hc]

lemma length_shift1 (xs : List PValue) : (shift1 xs).length = xs.length := by
  cases xs with
  | nil => rfl
  | cons x l => simp [shift1]

lemma length_gvcot (g : Frame) (c : Name) (n : ℕ) (vs ds : List PValue)
    (hc : g.getCol c = some vs) (hvs : vs.length = n)
    (hd : g.getCol (nm "dt") = some ds) (hds : ds.length = n) :
    (get_variable_change_over_time g c).length = n := by
  unfold get_variable_change_over_time seriesFillna0 seriesDiv seriesSub
  rw [hc, hd]
  simp [List.length_zipWith, length_shift1, hvs, hds]

lemma length_posSeries (g : Frame) (c : Name) (n : ℕ) (vs : List PValue)
    (hc : g.getCol c = some vs) (hvs : vs.length = n) :
    (posSeries g c).length = n := by
  unfold posSeries seriesFillna0 seriesSub
  rw [hc]
  simp [List.length_zipWith, length_shift1, hvs]

lemma length_gvt (g : Frame) (cols : List Name) :
    (get_vector_total g cols).length = g.nRows := by
  simp [get_vector_total]

lemma map_range_getD (xs : List PValue) (n : ℕ) (h : xs.length = n) :
    (List.range n).map (fun i => xs.getD i PValue.nan) = xs := by
  apply List.ext_getElem
  · simp [h]
  · intro k h1 h2
    rw [List.getElem_map, List.getElem_range]
    exact List.getD_eq_getElem xs PValue.nan h2

lemma startsXYZ_shape (c : Name) (h : startsXYZ c = true) :
    ∃ rest, c = 'x' :: rest ∨ c = 'y' :: rest ∨ c = 'z' :: rest := by
  rw [startsXYZ.eq_def] at h
  split at h
  · exact ⟨_, Or.inl rfl⟩
  · exact ⟨_, Or.inr (Or.inl rfl)⟩
  · exact ⟨_, Or.inr (Or.inr rfl)⟩
  · cases h

lemma startsFXYZ_shape (c : Name) (h : startsFXYZ c = true) :
    ∃ rest, c = 'f' :: 'x' :: rest ∨ c = 'f' :: 'y' :: rest ∨ c = 'f' :: 'z' :: rest := by
  rw [startsFXYZ.eq_def] at h
  split at h
  · exact ⟨_, Or.inl rfl⟩
  · exact ⟨_, Or.inr (Or.inl rfl)⟩
  · exact ⟨_, Or.inr (Or.inr rfl)⟩
  · cases h

lemma startsVXYZ_shape (c : Name) (h : startsVXYZ c = true) :
    ∃ rest, c = 'v' :: 'x' :: rest ∨ c = 'v' :: 'y' :: rest ∨ c = 'v' :: 'z' :: rest := by
  rw [startsVXYZ.eq_def] at h
  split at h
  · exact ⟨_, Or.inl rfl⟩
  · exact ⟨_, Or.inr (Or.inl rfl)⟩
  · exact ⟨_, Or.inr (Or.inr rfl)⟩
  · cases h

lemma endsOne_not_endsTwo (c : Name) (h : endsOne c = true) : endsTwo c = false := by
  unfold endsOne at h
  unfold endsTwo
  rw [of_decide_eq_true h]
  decide

lemma force_rename_id (c : Name) (h : startsFXYZ c = true) : 'f' :: c.drop 1 = c := by
  obtain ⟨rest, h1 | h1 | h1⟩ := startsFXYZ_shape c h <;> subst h1 <;> rfl

lemma forceLoop_spec : ∀ (pending f1 f2 : List Name),
    forceLoop pending f1 f2 =
      (f1 ++ (pending.filter (fun c => startsFXYZ c && endsOne ('f' :: c.drop 1))).map
          (fun c => 'f' :: c.drop 1),
       f2 ++ (pending.filter (fun c => startsFXYZ c && endsTwo ('f' :: c.drop 1))).map
          (fun c => 'f' :: c.drop 1)) := by
  intro pending
  induction pending with
  | nil => intro f1 f2; simp [forceLoop]
  | cons c rest ih =>
    intro f1 f2
    rw [List.filter_cons, List.filter_cons]
    by_cases hs : startsFXYZ c = true
    · by_cases h1 : endsOne ('f' :: c.drop 1) = true
      · have h2 : endsTwo ('f' :: c.drop 1) = false := endsOne_not_endsTwo _ h1
        have step : forceLoop (c :: rest) f1 f2 = forceLoop rest (f1 ++ ['f' :: c.drop 1]) f2 := by
          simp only [forceLoop]
          rw [if_pos hs, if_pos h1]
        rw [step, ih,
          if_pos (show (startsFXYZ c && endsOne ('f' :: c.drop 1)) = true by rw [hs, h1]; rfl),
          if_neg (show ¬(startsFXYZ c && endsTwo ('f' :: c.drop 1)) = true by
            rw [Bool.and_eq_true]
            rintro ⟨h3, h4⟩
            rw [h2] at h4
            cases h4),
          List.map_cons, List.append_assoc]
        rfl
      · by_cases h2 : endsTwo ('f' :: c.drop 1) = true
        · have step : forceLoop (c :: rest) f1 f2 =
              forceLoop rest f1 (f2 ++ ['f' :: c.drop 1]) := by
            simp only [forceLoop]
            rw [if_pos hs, if_neg h1, if_pos h2]
          rw [step, ih,
            if_neg (show ¬(startsFXYZ c && endsOne ('f' :: c.drop 1)) = true by
              rw [Bool.and_eq_true]
              rintro ⟨h3, h4⟩
              exact h1 h4),
            if_pos (show (startsFXYZ c && endsTwo ('f' :: c.drop 1)) = true by rw [hs, h2]; rfl),
            List.map_cons, List.append_assoc]
          rfl
        · have step : forceLoop (c :: rest) f1 f2 = forceLoop rest f1 f2 := by
            simp only [forceLoop]
            rw [if_pos hs, if_neg h1, if_neg h2]
          rw [step, ih,
            if_neg (show ¬(startsFXYZ c && endsOne ('f' :: c.drop 1)) = true by
              rw [Bool.and_eq_true]
              rintro ⟨h3, h4⟩
              exact h1 h4),
            if_neg (show ¬(startsFXYZ c && endsTwo ('f' :: c.drop 1)) = true by
              rw [Bool.and_eq_true]
              rintro ⟨h3, h4⟩
              exact h2 h4)]
    · have step : forceLoop (c :: rest) f1 f2 = forceLoop rest f1 f2 := by
        simp only [forceLoop]
        rw [if_neg hs]
      rw [step, ih,
        if_neg (show ¬(startsFXYZ c && endsOne ('f' :: c.drop 1)) = true by
          rw [Bool.and_eq_true]
          rintro ⟨h3, h4⟩
          exact hs h3),
        if_neg (show ¬(startsFXYZ c && endsTwo ('f' :: c.drop 1)) = true by
          rw [Bool.and_eq_true]
          rintro ⟨h3, h4⟩
          exact hs h3)]

lemma getCol_length (f : Frame) (n : ℕ) (hlen : ∀ p ∈ f.cols, p.2.length = n)
    (c : Name) (vs : List PValue) (h : f.getCol c = some vs) : vs.length = n := by
  unfold Frame.getCol at h
  cases hf : f.cols.find? (fun q => decide (q.1 = c)) with
  | none => rw [hf] at h; cases h
  | some q =>
    rw [hf] at h
    have hq : q.2 = vs := by simpa using h
    exact hq ▸ hlen q (List.mem_of_find?_eq_some hf)

lemma getCol_single (a : Name) (vs : List PValue) :
    (⟨[(a, vs)]⟩ : Frame).getCol a = some vs := by
  simp [Frame.getCol]

lemma cols_ne_nil_of_mem (f : Frame) (c : Name) (h : c ∈ f.names) : f.cols ≠ [] := by
  intro hc
  unfold Frame.names at h
  rw [hc] at h
  exact List.not_mem_nil c h

lemma force_groups_one (names : List Name) :
    (names.filter (fun c => startsFXYZ c && endsOne ('f' :: c.drop 1))).map
        (fun c => 'f' :: c.drop 1) =
      names.filter (fun c => startsFXYZ c && endsOne c) := by
  have h1 : names.filter (fun c => startsFXYZ c && endsOne ('f' :: c.drop 1)) =
      names.filter (fun c => startsFXYZ c && endsOne c) := by
    apply List.filter_congr
    intro c _
    cases hb : startsFXYZ c
    · rw [Bool.false_and, Bool.false_and]
    · rw [force_rename_id c hb]
  rw [h1]
  rw [List.map_congr_left (fun c hc =>
    force_rename_id c (by
      have := List.of_mem_filter hc
      rw [Bool.and_eq_true] at this
      exact this.1))]
  exact List.map_id _

lemma force_groups_two (names : List Name) :
    (names.filter (fun c => startsFXYZ c && endsTwo ('f' :: c.drop 1))).map
        (fun c => 'f' :: c.drop 1) =
      names.filter (fun c => startsFXYZ c && endsTwo c) := by
  have h1 : names.filter (fun c => startsFXYZ c && endsTwo ('f' :: c.drop 1)) =
      names.filter (fun c => startsFXYZ c && endsTwo c) := by
    apply List.filter_congr
    intro c _
    cases hb : startsFXYZ c
    · rw [Bool.false_and, Bool.false_and]
    · rw [force_rename_id c hb]
  rw [h1]
  rw [List.map_congr_left (fun c hc =>
    force_rename_id c (by
      have := List.of_mem_filter hc
      rw [Bool.and_eq_true] at this
      exact this.1))]
  exact List.map_id _

lemma select_facts (gF : Frame) (n : ℕ) (sel : List Name)
    (hnd : sel.Nodup)
    (hcols : ∀ c ∈ sel, ∃ vs, gF.getCol c = some vs ∧ vs.length = n) :
    (gF.select sel).names = sel ∧
    (∀ p ∈ (gF.select sel).cols, p.2.length = n) ∧
    (∀ c ∈ sel, (gF.select sel).getCol c = gF.getCol c) ∧
    (gF.select sel).names.Nodup := by
  refine ⟨select_names gF sel, ?_, ?_, ?_⟩
  · intro p hp
    obtain ⟨c, hc, rfl⟩ := List.mem_map.mp hp
    obtain ⟨vs, hvs, hlen⟩ := hcols c hc
    simpa [hvs] using hlen
  · intro c hc
    obtain ⟨vs, hvs, _⟩ := hcols c hc
    rw [select_getCol gF sel c vs hnd hc hvs, hvs]
  · rw [select_names]
    exact hnd

lemma setCol_fresh (g : Frame) (a : Name) (vs : List PValue) (ha : a ∉ g.names) :
    g.setCol a vs = ⟨g.cols ++ [(a, vs)]⟩ ∧
    (∀ c, c ≠ a → (g.setCol a vs).getCol c = g.getCol c) ∧
    (g.setCol a vs).getCol a = some vs ∧
    (g.setCol a vs).names = g.names ++ [a] ∧
    (g.cols ≠ [] → (g.setCol a vs).nRows = g.nRows) := by
  have he := setCol_not_mem g a vs ha
  refine ⟨he, ?_, ?_, ?_, ?_⟩
  · intro c hc
    rw [he]
    exact getCol_mk_append_single_ne _ _ _ _ hc
  · rw [he, getCol_mk_append_right _ _ _ ha]
    exact getCol_single a vs
  · rw [he, names_mk_append]
    simp [Frame.names]
  · intro hne
    rw [he]
    exact nRows_mk_append _ _ hne

lemma setCol_fresh_nodup (g : Frame) (a : Name) (vs : List PValue) (ha : a ∉ g.names)
    (hnd : g.names.Nodup) : (g.setCol a vs).names.Nodup := by
  rw [(setCol_fresh g a vs ha).2.2.2.1]
  refine List.Nodup.append hnd (List.nodup_singleton a) ?_
  intro c hc hc2
  rw [List.mem_singleton] at hc2
  subst hc2
  exact ha hc

lemma setCol_fresh_lengths (g : Frame) (a : Name) (vs : List PValue) (n : ℕ)
    (ha : a ∉ g.names) (hlen : ∀ p ∈ g.cols, p.2.length = n) (hvs : vs.length = n) :
    ∀ p ∈ (g.setCol a vs).cols, p.2.length = n := by
  rw [(setCol_fresh g a vs ha).1]
  intro p hp
  rcases List.mem_append.mp hp with h | h
  · exact hlen p h
  · rw [List.mem_singleton] at h
    subst h
    exact hvs

lemma add_total_force_spec (g : Frame) (n : ℕ) (t : List PValue)
    (hlen : ∀ p ∈ g.cols, p.2.length = n)
    (hnd : g.names.Nodup)
    (ht : g.getCol (nm "time") = some t)
    (hf1 : nm "f1" ∉ g.names) (hf2 : nm "f2" ∉ g.names) :
    (add_total_force_features g).2.names =
      nm "time" :: ((forceGroupOne g ++ (if forceGroupOne g = [] then [] else [nm "f1"])) ++
        (forceGroupTwo g ++ (if forceGroupTwo g = [] then [] else [nm "f2"]))) ∧
    (∀ c ∈ forceGroupOne g ++ forceGroupTwo g,
      (add_total_force_features g).2.getCol c = g.getCol c) ∧
    (forceGroupOne g ≠ [] →
      (add_total_force_features g).2.getCol (nm "f1") =
        some (get_vector_total g (forceGroupOne g))) ∧
    (forceGroupTwo g ≠ [] →
      (add_total_force_features g).2.getCol (nm "f2") =
        some (get_vector_total g (forceGroupTwo g))) ∧
    (add_total_force_features g).2.getCol (nm "time") = some t ∧
    (∀ p ∈ (add_total_force_features g).2.cols, p.2.length = n) ∧
    (add_total_force_features g).2.names.Nodup := by
  have hgne : g.cols ≠ [] := cols_ne_nil_of_mem g (nm "time") (getCol_some_mem g _ t ht)
  have hrows : g.nRows = n := nRows_of_lengths g n hlen hgne
  have htlen : t.length = n := getCol_length g n hlen _ t ht
  have hF1sub : ∀ c ∈ forceGroupOne g,
      c ∈ g.names ∧ startsFXYZ c = true ∧ endsOne c = true := by
    intro c hc
    have h1 := List.mem_filter.mp hc
    have h2 := h1.2
    rw [Bool.and_eq_true] at h2
    exact ⟨h1.1, h2.1, h2.2⟩
  have hF2sub : ∀ c ∈ forceGroupTwo g,
      c ∈ g.names ∧ startsFXYZ c = true ∧ endsTwo c = true := by
    intro c hc
    have h1 := List.mem_filter.mp hc
    have h2 := h1.2
    rw [Bool.and_eq_true] at h2
    exact ⟨h1.1, h2.1, h2.2⟩
  have htimeF1 : nm "time" ∉ forceGroupOne g := by
    intro hc
    exact absurd (hF1sub _ hc).2.1 (by decide)
  have htimeF2 : nm "time" ∉ forceGroupTwo g := by
    intro hc
    exact absurd (hF2sub _ hc).2.1 (by decide)
  have hf1F1 : nm "f1" ∉ forceGroupOne g := by
    intro hc
    exact absurd (hF1sub _ hc).2.1 (by decide)
  have hf1F2 : nm "f1" ∉ forceGroupTwo g := by
    intro hc
    exact absurd (hF2sub _ hc).2.1 (by decide)
  have hf2F1 : nm "f2" ∉ forceGroupOne g := by
    intro hc
    exact absurd (hF1sub _ hc).2.1 (by decide)
  have hf2F2 : nm "f2" ∉ forceGroupTwo g := by
    intro hc
    exact absurd (hF2sub _ hc).2.1 (by decide)
  have hdisj : List.Disjoint (forceGroupOne g) (forceGroupTwo g) := by
    intro c h1 h2
    have e2 := (hF2sub c h2).2.2
    rw [endsOne_not_endsTwo c (hF1sub c h1).2.2] at e2
    cases e2
  have hnd1 : (forceGroupOne g).Nodup := hnd.filter _
  have hnd2 : (forceGroupTwo g).Nodup := hnd.filter _
  have hr : forceLoop g.names [] [] = (forceGroupOne g, forceGroupTwo g) := by
    rw [forceLoop_spec, List.nil_append, List.nil_append, force_groups_one, force_groups_two]
    rfl
  have hgetF1 : ∀ c ∈ forceGroupOne g, ∃ vs, g.getCol c = some vs ∧ vs.length = n := by
    intro c hc
    obtain ⟨vs, hvs⟩ := getCol_mem_exists g c (hF1sub c hc).1
    exact ⟨vs, hvs, getCol_length g n hlen c vs hvs⟩
  have hgetF2 : ∀ c ∈ forceGroupTwo g, ∃ vs, g.getCol c = some vs ∧ vs.length = n := by
    intro c hc
    obtain ⟨vs, hvs⟩ := getCol_mem_exists g c (hF2sub c hc).1
    exact ⟨vs, hvs, getCol_length g n hlen c vs hvs⟩
  by_cases hF1 : forceGroupOne g = []
  · by_cases hF2 : forceGroupTwo g = []
    · have hout : (add_total_force_features g).2 = g.select [nm "time"] := by
        simp [add_total_force_features, hr, hF1, hF2]
      obtain ⟨hsn, hsl, hsg, hsnd⟩ := select_facts g n [nm "time"] (by decide)
        (by
          intro c hc
          rw [List.mem_singleton] at hc
          subst hc
          exact ⟨t, ht, htlen⟩)
      rw [hout]
      refine ⟨?_, ?_, fun hc => absurd hF1 hc, fun hc => absurd hF2 hc, ?_, hsl, hsnd⟩
      · rw [hsn, hF1, hF2]
        simp
      · intro c hc
        rw [hF1, hF2] at hc
        cases hc
      · rw [hsg (nm "time") (by decide)]
        exact ht
    · have hm2 : (get_vector_total g (forceGroupTwo g)).length = n := by
        rw [length_gvt, hrows]
      obtain ⟨heq2, hget2, hself2, hnames2, hrows2⟩ :=
        setCol_fresh g (nm "f2") (get_vector_total g (forceGroupTwo g)) hf2
      have hout : (add_total_force_features g).2 =
          (g.setCol (nm "f2") (get_vector_total g (forceGroupTwo g))).select
            (nm "time" :: forceGroupTwo g ++ [nm "f2"]) := by
        simp [add_total_force_features, hr, hF1, hF2]
      have hselnd : (nm "time" :: forceGroupTwo g ++ [nm "f2"]).Nodup := by
        refine List.nodup_cons.mpr ⟨?_, ?_⟩
        · intro hc
          rcases List.mem_append.mp hc with h | h
          · exact htimeF2 h
          · rw [List.mem_singleton] at h
            exact absurd h (by decide)
        · refine List.Nodup.append hnd2 (List.nodup_singleton _) ?_
          intro c hc hc2
          rw [List.mem_singleton] at hc2
          subst hc2
          exact hf2F2 hc
      have hcols : ∀ c ∈ nm "time" :: forceGroupTwo g ++ [nm "f2"],
          ∃ vs, (g.setCol (nm "f2") (get_vector_total g (forceGroupTwo g))).getCol c =
            some vs ∧ vs.length = n := by
        intro c hc
        rcases List.mem_cons.mp hc with rfl | hc2
        · exact ⟨t, by rw [hget2 _ (by decide)]; exact ht, htlen⟩
        · rcases List.mem_append.mp hc2 with h | h
          · obtain ⟨vs, hvs, hl⟩ := hgetF2 c h
            have hne : c ≠ nm "f2" := by
              intro hcc
              exact hf2 (hcc ▸ (hF2sub c h).1)
            refine ⟨vs, ?_, hl⟩
            rw [hget2 c hne]
            exact hvs
          · rw [List.mem_singleton] at h
            subst h
            exact ⟨_, hself2, hm2⟩
      obtain ⟨hsn, hsl, hsg, hsnd⟩ := select_facts _ n _ hselnd hcols
      rw [hout]
      refine ⟨?_, ?_, fun hc => absurd hF1 hc, ?_, ?_, hsl, hsnd⟩
      · rw [hsn, hF1, if_pos rfl, if_neg hF2]
        simp
      · intro c hc
        rw [hF1, List.nil_append] at hc
        have hne : c ≠ nm "f2" := by
          intro hcc
          exact hf2 (hcc ▸ (hF2sub c hc).1)
        rw [hsg c (List.mem_cons_of_mem _ (List.mem_append_left _ hc)), hget2 c hne]
      · intro _
        rw [hsg (nm "f2") (List.mem_cons_of_mem _ (List.mem_append_right _ (by decide)))]
        exact hself2
      · rw [hsg (nm "time") (List.mem_cons_self _ _), hget2 _ (by decide)]
        exact ht
  · have hm1 : (get_vector_total g (forceGroupOne g)).length = n := by
      rw [length_gvt, hrows]
    obtain ⟨heq1, hget1, hself1, hnames1, hrows1⟩ :=
      setCol_fresh g (nm "f1") (get_vector_total g (forceGroupOne g)) hf1
    have hg1ne : (g.setCol (nm "f1") (get_vector_total g (forceGroupOne g))).cols ≠ [] := by
      rw [heq1]
      intro hc
      exact hgne (List.append_eq_nil.mp hc).1
    have hg1F2get : ∀ c ∈ forceGroupTwo g,
        (g.setCol (nm "f1") (get_vector_total g (forceGroupOne g))).getCol c = g.getCol c := by
      intro c hc
      refine hget1 c ?_
      intro hcc
      exact hf1 (hcc ▸ (hF2sub c hc).1)
    by_cases hF2 : forceGroupTwo g = []
    · have hout : (add_total_force_features g).2 =
          (g.setCol (nm "f1") (get_vector_total g (forceGroupOne g))).select
            (nm "time" :: forceGroupOne g ++ [nm "f1"]) := by
        simp [add_total_force_features, hr, hF1, hF2]
      have hselnd : (nm "time" :: forceGroupOne g ++ [nm "f1"]).Nodup := by
        refine List.nodup_cons.mpr ⟨?_, ?_⟩
        · intro hc
          rcases List.mem_append.mp hc with h | h
          · exact htimeF1 h
          · rw [List.mem_singleton] at h
            exact absurd h (by decide)
        · refine List.Nodup.append hnd1 (List.nodup_singleton _) ?_
          intro c hc hc2
          rw [List.mem_singleton] at hc2
          subst hc2
          exact hf1F1 hc
      have hcols : ∀ c ∈ nm "time" :: forceGroupOne g ++ [nm "f1"],
          ∃ vs, (g.setCol (nm "f1") (get_vector_total g (forceGroupOne g))).getCol c =
            some vs ∧ vs.length = n := by
        intro c hc
        rcases List.mem_cons.mp hc with rfl | hc2
        · exact ⟨t, by rw [hget1 _ (by decide)]; exact ht, htlen⟩
        · rcases List.mem_append.mp hc2 with h | h
          · have hne : c ≠ nm "f1" := by
              intro hcc
              exact hf1 (hcc ▸ (hF1sub c h).1)
            obtain ⟨vs, hvs, hl⟩ := hgetF1 c h
            refine ⟨vs, ?_, hl⟩
            rw [hget1 c hne]
            exact hvs
          · rw [List.mem_singleton] at h
            subst h
            exact ⟨_, hself1, hm1⟩
      obtain ⟨hsn, hsl, hsg, hsnd⟩ := select_facts _ n _ hselnd hcols
      rw [hout]
      refine ⟨?_, ?_, ?_, fun hc => absurd hF2 hc, ?_, hsl, hsnd⟩
      · rw [hsn, hF2, if_pos rfl, if_neg hF1]
        simp
      · intro c hc
        rw [hF2, List.append_nil] at hc
        have hne : c ≠ nm "f1" := by
          intro hcc
          exact hf1 (hcc ▸ (hF1sub c hc).1)
        rw [hsg c (List.mem_cons_of_mem _ (List.mem_append_left _ hc)), hget1 c hne]
      · intro _
        rw [hsg (nm "f1") (List.mem_cons_of_mem _ (List.mem_append_right _ (by decide)))]
        exact hself1
      · rw [hsg (nm "time") (List.mem_cons_self _ _), hget1 _ (by decide)]
        exact ht
    · have hmc : get_vector_total
          (g.setCol (nm "f1") (get_vector_total g (forceGroupOne g))) (forceGroupTwo g) =
          get_vector_total g (forceGroupTwo g) := by
        refine gvt_congr g _ (forceGroupTwo g) ?_ hg1F2get
        exact hrows1 hgne
      have hm2 : (get_vector_total g (forceGroupTwo g)).length = n := by
        rw [length_gvt, hrows]
      have hf2g1 : nm "f2" ∉
          (g.setCol (nm "f1") (get_vector_total g (forceGroupOne g))).names := by
        rw [hnames1]
        intro hc
        rcases List.mem_append.mp hc with h | h
        · exact hf2 h
        · rw [List.mem_singleton] at h
          exact absurd h (by decide)
      obtain ⟨heq2, hget2, hself2, hnames2, hrows2⟩ :=
        setCol_fresh (g.setCol (nm "f1") (get_vector_total g (forceGroupOne g)))
          (nm "f2") (get_vector_total g (forceGroupTwo g)) hf2g1
      have hout : (add_total_force_features g).2 =
          ((g.setCol (nm "f1") (get_vector_total g (forceGroupOne g))).setCol
              (nm "f2") (get_vector_total g (forceGroupTwo g))).select
            (nm "time" :: (forceGroupOne g ++ [nm "f1"]) ++ (forceGroupTwo g ++ [nm "f2"])) := by
        simp [add_total_force_features, hr, hF1, hF2, hmc]
      have hselnd :
          (nm "time" :: (forceGroupOne g ++ [nm "f1"]) ++
            (forceGroupTwo g ++ [nm "f2"])).Nodup := by
        refine List.nodup_cons.mpr ⟨?_, ?_⟩
        · intro hc
          rcases List.mem_append.mp hc with h | h
          · rcases List.mem_append.mp h with h2 | h2
            · exact htimeF1 h2
            · rw [List.mem_singleton] at h2
              exact absurd h2 (by decide)
          · rcases List.mem_append.mp h with h2 | h2
            · exact htimeF2 h2
            · rw [List.mem_singleton] at h2
              exact absurd h2 (by decide)
        · refine List.Nodup.append ?_ ?_ ?_
          · refine List.Nodup.append hnd1 (List.nodup_singleton _) ?_
            intro c hc hc2
            rw [List.mem_singleton] at hc2
            subst hc2
            exact hf1F1 hc
          · refine List.Nodup.append hnd2 (List.nodup_singleton _) ?_
            intro c hc hc2
            rw [List.mem_singleton] at hc2
            subst hc2
            exact hf2F2 hc
          · intro c hc hc2
            rcases List.mem_append.mp hc with h | h
            · rcases List.mem_append.mp hc2 with h2 | h2
              · exact hdisj h h2
              · rw [List.mem_singleton] at h2
                subst h2
                exact hf2F1 h
            · rw [List.mem_singleton] at h
              subst h
              rcases List.mem_append.mp hc2 with h2 | h2
              · exact hf1F2 h2
              · rw [List.mem_singleton] at h2
                exact absurd h2 (by decide)
      have hcols : ∀ c ∈
          nm "time" :: (forceGroupOne g ++ [nm "f1"]) ++ (forceGroupTwo g ++ [nm "f2"]),
          ∃ vs, ((g.setCol (nm "f1") (get_vector_total g (forceGroupOne g))).setCol
              (nm "f2") (get_vector_total g (forceGroupTwo g))).getCol c =
            some vs ∧ vs.length = n := by
        intro c hc
        rcases List.mem_cons.mp hc with rfl | hc2
        · refine ⟨t, ?_, htlen⟩
          rw [hget2 _ (by decide), hget1 _ (by decide)]
          exact ht
        · rcases List.mem_append.mp hc2 with h | h
          · rcases List.mem_append.mp h with h2 | h2
            · have hne1 : c ≠ nm "f1" := by
                intro hcc
                exact hf1 (hcc ▸ (hF1sub c h2).1)
              have hne2 : c ≠ nm "f2" := by
                intro hcc
                exact hf2 (hcc ▸ (hF1sub c h2).1)
              obtain ⟨vs, hvs, hl⟩ := hgetF1 c h2
              refine ⟨vs, ?_, hl⟩
              rw [hget2 c hne2, hget1 c hne1]
              exact hvs
            · rw [List.mem_singleton] at h2
              subst h2
              refine ⟨_, ?_, hm1⟩
              rw [hget2 _ (by decide)]
              exact hself1
          · rcases List.mem_append.mp h with h2 | h2
            · have hne1 : c ≠ nm "f1" := by
                intro hcc
                exact hf1 (hcc ▸ (hF2sub c h2).1)
              have hne2 : c ≠ nm "f2" := by
                intro hcc
                exact hf2 (hcc ▸ (hF2sub c h2).1)
              obtain ⟨vs, hvs, hl⟩ := hgetF2 c h2
              refine ⟨vs, ?_, hl⟩
              rw [hget2 c hne2, hget1 c hne1]
              exact hvs
            · rw [List.mem_singleton] at h2
              subst h2
              exact ⟨_, hself2, hm2⟩
      obtain ⟨hsn, hsl, hsg, hsnd⟩ := select_facts _ n _ hselnd hcols
      rw [hout]
      refine ⟨?_, ?_, ?_, ?_, ?_, hsl, hsnd⟩
      · rw [hsn, if_neg hF1, if_neg hF2]
        simp
      · intro c hc
        rcases List.mem_append.mp hc with h | h
        · have hne1 : c ≠ nm "f1" := by
            intro hcc
            exact hf1 (hcc ▸ (hF1sub c h).1)
          have hne2 : c ≠ nm "f2" := by
            intro hcc
            exact hf2 (hcc ▸ (hF1sub c h).1)
          rw [hsg c (List.mem_cons_of_mem _
              (List.mem_append_left _ (List.mem_append_left _ h))),
            hget2 c hne2, hget1 c hne1]
        · have hne1 : c ≠ nm "f1" := by
            intro hcc
            exact hf1 (hcc ▸ (hF2sub c h).1)
          have hne2 : c ≠ nm "f2" := by
            intro hcc
            exact hf2 (hcc ▸ (hF2sub c h).1)
          rw [hsg c (List.mem_cons_of_mem _
              (List.mem_append_right _ (List.mem_append_left _ h))),
            hget2 c hne2, hget1 c hne1]
      · intro _
        rw [hsg (nm "f1") (List.mem_cons_of_mem _
            (List.mem_append_left _ (List.mem_append_right _ (by decide)))),
          hget2 _ (by decide)]
        exact hself1
      · intro _
        rw [hsg (nm "f2") (List.mem_cons_of_mem _
            (List.mem_append_right _ (List.mem_append_right _ (by decide))))]
        exact hself2
      · rw [hsg (nm "time") (List.mem_cons_self _ _), hget2 _ (by decide),
          hget1 _ (by decide)]
        exact ht

/-- C4, counterexample to the claim as stated: the code's cur_fcol is
    'f' + str(col)[1:], which on a column beginning with f is the identity: on
    fx_1 it keeps the axis letter x instead of stripping it, the output
    contains the matched column under its original name fx_1, and the
    stripped name f_1 never appears. -/
theorem C4_rename_counterexample :
    ('f' :: (nm "fx_1").drop 1) = nm "fx_1" ∧
    nm "fx_1" ≠ nm "f_1" ∧
    (add_total_force_features
        ⟨[(nm "time", [PValue.val 0]), (nm "fx_1", [PValue.val 3]),
          (nm "fy_1", [PValue.val 4])]⟩).2.names =
      [nm "time", nm "fx_1", nm "fy_1", nm "f1"] ∧
    nm "f_1" ∉ (add_total_force_features
        ⟨[(nm "time", [PValue.val 0]), (nm "fx_1", [PValue.val 3]),
          (nm "fy_1", [PValue.val 4])]⟩).2.names := by
  refine ⟨by decide, by decide, by decide, by decide⟩

/-- C4 (amended): every column beginning with fx/fy/fz is processed under the
    name 'f' ++ (name minus its first character), which is the original name
    unchanged — the axis letter is kept, not stripped; the matched columns are
    grouped by trailing digit 1/2, each non-empty group gets a magnitude
    column f1/f2 equal to get_vector_total (the row-wise Euclidean norm) of
    the group's columns, and the transform's output retains exactly the time
    column plus the matched and derived force columns, with the matched
    columns' values unchanged. -/
theorem C4_force_magnitude_transform (g : Frame) (n : ℕ) (t : List PValue)
    (hlen : ∀ p ∈ g.cols, p.2.length = n)
    (hnd : g.names.Nodup)
    (ht : g.getCol (nm "time") = some t)
    (hf1 : nm "f1" ∉ g.names) (hf2 : nm "f2" ∉ g.names) :
    (∀ c ∈ g.names, startsFXYZ c = true → 'f' :: c.drop 1 = c) ∧
    (add_total_force_features g).2.names =
      nm "time" :: ((forceGroupOne g ++ (if forceGroupOne g = [] then [] else [nm "f1"])) ++
        (forceGroupTwo g ++ (if forceGroupTwo g = [] then [] else [nm "f2"]))) ∧
    (∀ c ∈ forceGroupOne g ++ forceGroupTwo g,
      (add_total_force_features g).2.getCol c = g.getCol c) ∧
    (forceGroupOne g ≠ [] →
      (add_total_force_features g).2.getCol (nm "f1") =
        some (get_vector_total g (forceGroupOne g))) ∧
    (forceGroupTwo g ≠ [] →
      (add_total_force_features g).2.getCol (nm "f2") =
        some (get_vector_total g (forceGroupTwo g))) ∧
    (add_total_force_features g).2.getCol (nm "time") = some t := by
  obtain ⟨h1, h2, h3, h4, h5, _, _⟩ := add_total_force_spec g n t hlen hnd ht hf1 hf2
  exact ⟨fun c _ hc => force_rename_id c hc, h1, h2, h3, h4, h5⟩

theorem C4_force_magnitude_transform_witness :
    ((⟨[(nm "time", [PValue.val 0]), (nm "fx_1", [PValue.val 3]),
        (nm "fy_1", [PValue.val 4])]⟩ : Frame).getCol (nm "time") = some [PValue.val 0]) ∧
    (∀ c ∈ (⟨[(nm "time", [PValue.val 0]), (nm "fx_1", [PValue.val 3]),
        (nm "fy_1", [PValue.val 4])]⟩ : Frame).names,
      startsFXYZ c = true → 'f' :: c.drop 1 = c) :=
  ⟨by decide,
    (C4_force_magnitude_transform
      ⟨[(nm "time", [PValue.val 0]), (nm "fx_1", [PValue.val 3]),
        (nm "fy_1", [PValue.val 4])]⟩ 1 [PValue.val 0]
      (by decide) (by decide) (by decide) (by decide) (by decide)).1⟩

lemma ne_of_true_false (p : Name → Bool) (c d : Name) (h : p c = true) (hd : p d = false) :
    c ≠ d := by
  intro hc
  rw [hc, hd] at h
  cases h

lemma velLoop_spec : ∀ (pending : List Name) (g : Frame) (v1 v2 : List Name),
    pending.Nodup →
    (∀ c ∈ pending, startsXYZ c = true → ('v' :: c) ∉ g.names) →
    velLoop pending g v1 v2 =
      (⟨g.cols ++ (pending.filter (fun c => startsXYZ c)).map
          (fun c => ('v' :: c, get_variable_change_over_time g c))⟩,
       v1 ++ (pending.filter (fun c => startsXYZ c && endsOne ('v' :: c))).map
          (fun c => 'v' :: c),
       v2 ++ (pending.filter (fun c => startsXYZ c && endsTwo ('v' :: c))).map
          (fun c => 'v' :: c)) := by
  intro pending
  induction pending with
  | nil =>
    intro g v1 v2 _ _
    simp [velLoop]
  | cons c rest ih =>
    intro g v1 v2 hnd hfresh
    obtain ⟨hc_rest, hnd_rest⟩ := List.nodup_cons.mp hnd
    rw [List.filter_cons, List.filter_cons, List.filter_cons]
    by_cases hs : startsXYZ c = true
    · have hvc_fresh : ('v' :: c) ∉ g.names := hfresh c (List.mem_cons_self c rest) hs
      obtain ⟨heq, hget, hself, hnames, hrowsp⟩ :=
        setCol_fresh g ('v' :: c) (get_variable_change_over_time g c) hvc_fresh
      have hfresh_rest : ∀ d ∈ rest, startsXYZ d = true →
          ('v' :: d) ∉ (g.setCol ('v' :: c) (get_variable_change_over_time g c)).names := by
        intro d hd hds
        rw [hnames]
        intro hmem
        rcases List.mem_append.mp hmem with h | h
        · exact hfresh d (List.mem_cons_of_mem c hd) hds h
        · rw [List.mem_singleton, List.cons_eq_cons] at h
          exact hc_rest (h.2 ▸ hd)
      have hmapeq : (rest.filter (fun d => startsXYZ d)).map
            (fun d => ('v' :: d, get_variable_change_over_time
              (g.setCol ('v' :: c) (get_variable_change_over_time g c)) d)) =
          (rest.filter (fun d => startsXYZ d)).map
            (fun d => ('v' :: d, get_variable_change_over_time g d)) := by
        apply List.map_congr_left
        intro d hd
        have hds : startsXYZ d = true := List.of_mem_filter hd
        have hne1 : d ≠ 'v' :: c := ne_of_true_false startsXYZ d ('v' :: c) hds rfl
        have hne2 : nm "dt" ≠ 'v' :: c :=
          ne_of_true_false (fun x => decide (x.head? = some 'd')) (nm "dt") ('v' :: c) rfl rfl
        rw [gvcot_congr g _ d (hget d hne1) (hget _ hne2)]
      by_cases h1 : endsOne ('v' :: c) = true
      · have h2 : endsTwo ('v' :: c) = false := endsOne_not_endsTwo _ h1
        have step : velLoop (c :: rest) g v1 v2 =
            velLoop rest (g.setCol ('v' :: c) (get_variable_change_over_time g c))
              (v1 ++ ['v' :: c]) v2 := by
          simp only [velLoop]
          rw [if_pos hs, if_pos h1]
        rw [step, ih _ _ _ hnd_rest hfresh_rest, hmapeq,
          if_pos hs,
          if_pos (show (startsXYZ c && endsOne ('v' :: c)) = true by rw [hs, h1]; rfl),
          if_neg (show ¬(startsXYZ c && endsTwo ('v' :: c)) = true by
            rw [Bool.and_eq_true]
            rintro ⟨h3, h4⟩
            rw [h2] at h4
            cases h4)]
        rw [heq]
        simp
      · by_cases h2 : endsTwo ('v' :: c) = true
        · have step : velLoop (c :: rest) g v1 v2 =
              velLoop rest (g.setCol ('v' :: c) (get_variable_change_over_time g c))
                v1 (v2 ++ ['v' :: c]) := by
            simp only [velLoop]
            rw [if_pos hs, if_neg h1, if_pos h2]
          rw [step, ih _ _ _ hnd_rest hfresh_rest, hmapeq,
            if_pos hs,
            if_neg (show ¬(startsXYZ c && endsOne ('v' :: c)) = true by
              rw [Bool.and_eq_true]
              rintro ⟨h3, h4⟩
              exact h1 h4),
            if_pos (show (startsXYZ c && endsTwo ('v' :: c)) = true by rw [hs, h2]; rfl)]
          rw [heq]
          simp
        · have step : velLoop (c :: rest) g v1 v2 =
              velLoop rest (g.setCol ('v' :: c) (get_variable_change_over_time g c)) v1 v2 := by
            simp only [velLoop]
            rw [if_pos hs, if_neg h1, if_neg h2]
          rw [step, ih _ _ _ hnd_rest hfresh_rest, hmapeq,
            if_pos hs,
            if_neg (show ¬(startsXYZ c && endsOne ('v' :: c)) = true by
              rw [Bool.and_eq_true]
              rintro ⟨h3, h4⟩
              exact h1 h4),
            if_neg (show ¬(startsXYZ c && endsTwo ('v' :: c)) = true by
              rw [Bool.and_eq_true]
              rintro ⟨h3, h4⟩
              exact h2 h4)]
          rw [heq]
          simp
    · have step : velLoop (c :: rest) g v1 v2 = velLoop rest g v1 v2 := by
        simp only [velLoop]
        rw [if_neg hs]
      have hfresh_rest : ∀ d ∈ rest, startsXYZ d = true → ('v' :: d) ∉ g.names :=
        fun d hd hds => hfresh d (List.mem_cons_of_mem c hd) hds
      rw [step, ih _ _ _ hnd_rest hfresh_rest,
        if_neg (show ¬startsXYZ c = true from hs),
        if_neg (show ¬(startsXYZ c && endsOne ('v' :: c)) = true by
          rw [Bool.and_eq_true]
          rintro ⟨h3, h4⟩
          exact hs h3),
        if_neg (show ¬(startsXYZ c && endsTwo ('v' :: c)) = true by
          rw [Bool.and_eq_true]
          rintro ⟨h3, h4⟩
          exact hs h3)]

lemma posLoop_spec : ∀ (pending : List Name) (g : Frame) (d1 d2 : List Name),
    pending.Nodup →
    (∀ c ∈ pending, startsXYZ c = true → ('d' :: c) ∉ g.names) →
    posLoop pending g d1 d2 =
      (⟨g.cols ++ (pending.filter (fun c => startsXYZ c)).map
          (fun c => ('d' :: c, posSeries g c))⟩,
       d1 ++ (pending.filter (fun c => startsXYZ c && endsOne ('d' :: c))).map
          (fun c => 'd' :: c),
       d2 ++ (pending.filter (fun c => startsXYZ c && endsTwo ('d' :: c))).map
          (fun c => 'd' :: c)) := by
  intro pending
  induction pending with
  | nil =>
    intro g d1 d2 _ _
    simp [posLoop]
  | cons c rest ih =>
    intro g d1 d2 hnd hfresh
    obtain ⟨hc_rest, hnd_rest⟩ := List.nodup_cons.mp hnd
    rw [List.filter_cons, List.filter_cons, List.filter_cons]
    by_cases hs : startsXYZ c = true
    · have hvc_fresh : ('d' :: c) ∉ g.names := hfresh c (List.mem_cons_self c rest) hs
      obtain ⟨heq, hget, hself, hnames, hrowsp⟩ :=
        setCol_fresh g ('d' :: c) (posSeries g c) hvc_fresh
      have hfresh_rest : ∀ d ∈ rest, startsXYZ d = true →
          ('d' :: d) ∉ (g.setCol ('d' :: c) (posSeries g c)).names := by
        intro d hd hds
        rw [hnames]
        intro hmem
        rcases List.mem_append.mp hmem with h | h
        · exact hfresh d (List.mem_cons_of_mem c hd) hds h
        · rw [List.mem_singleton, List.cons_eq_cons] at h
          exact hc_rest (h.2 ▸ hd)
      have hmapeq : (rest.filter (fun d => startsXYZ d)).map
            (fun d => ('d' :: d, posSeries (g.setCol ('d' :: c) (posSeries g c)) d)) =
          (rest.filter (fun d => startsXYZ d)).map
            (fun d => ('d' :: d, posSeries g d)) := by
        apply List.map_congr_left
        intro d hd
        have hds : startsXYZ d = true := List.of_mem_filter hd
        have hne1 : d ≠ 'd' :: c := ne_of_true_false startsXYZ d ('d' :: c) hds rfl
        rw [posSeries_congr g _ d (hget d hne1)]
      by_cases h1 : endsOne ('d' :: c) = true
      · have h2 : endsTwo ('d' :: c) = false := endsOne_not_endsTwo _ h1
        have step : posLoop (c :: rest) g d1 d2 =
            posLoop rest (g.setCol ('d' :: c) (posSeries g c)) (d1 ++ ['d' :: c]) d2 := by
          simp only [posLoop]
          rw [if_pos hs, if_pos h1]
        rw [step, ih _ _ _ hnd_rest hfresh_rest, hmapeq,
          if_pos hs,
          if_pos (show (startsXYZ c && endsOne ('d' :: c)) = true by rw [hs, h1]; rfl),
          if_neg (show ¬(startsXYZ c && endsTwo ('d' :: c)) = true by
            rw [Bool.and_eq_true]
            rintro ⟨h3, h4⟩
            rw [h2] at h4
            cases h4)]
        rw [heq]
        simp
      · by_cases h2 : endsTwo ('d' :: c) = true
        · have step : posLoop (c :: rest) g d1 d2 =
              posLoop rest (g.setCol ('d' :: c) (posSeries g c)) d1 (d2 ++ ['d' :: c]) := by
            simp only [posLoop]
            rw [if_pos hs, if_neg h1, if_pos h2]
          rw [step, ih _ _ _ hnd_rest hfresh_rest, hmapeq,
            if_pos hs,
            if_neg (show ¬(startsXYZ c && endsOne ('d' :: c)) = true by
              rw [Bool.and_eq_true]
              rintro ⟨h3, h4⟩
              exact h1 h4),
            if_pos (show (startsXYZ c && endsTwo ('d' :: c)) = true by rw [hs, h2]; rfl)]
          rw [heq]
          simp
        · have step : posLoop (c :: rest) g d1 d2 =
              posLoop rest (g.setCol ('d' :: c) (posSeries g c)) d1 d2 := by
            simp only [posLoop]
            rw [if_pos hs, if_neg h1, if_neg h2]
          rw [step, ih _ _ _ hnd_rest hfresh_rest, hmapeq,
            if_pos hs,
            if_neg (show ¬(startsXYZ c && endsOne ('d' :: c)) = true by
              rw [Bool.and_eq_true]
              rintro ⟨h3, h4⟩
              exact h1 h4),
            if_neg (show ¬(startsXYZ c && endsTwo ('d' :: c)) = true by
              rw [Bool.and_eq_true]
              rintro ⟨h3, h4⟩
              exact h2 h4)]
          rw [heq]
          simp
    · have step : posLoop (c :: rest) g d1 d2 = posLoop rest g d1 d2 := by
        simp only [posLoop]
        rw [if_neg hs]
      have hfresh_rest : ∀ d ∈ rest, startsXYZ d = true → ('d' :: d) ∉ g.names :=
        fun d hd hds => hfresh d (List.mem_cons_of_mem c hd) hds
      rw [step, ih _ _ _ hnd_rest hfresh_rest,
        if_neg (show ¬startsXYZ c = true from hs),
        if_neg (show ¬(startsXYZ c && endsOne ('d' :: c)) = true by
          rw [Bool.and_eq_true]
          rintro ⟨h3, h4⟩
          exact hs h3),
        if_neg (show ¬(startsXYZ c && endsTwo ('d' :: c)) = true by
          rw [Bool.and_eq_true]
          rintro ⟨h3, h4⟩
          exact hs h3)]

lemma vdrop_inj (c d : Name) (hc : startsVXYZ c = true) (hd : startsVXYZ d = true)
    (h : c.drop 1 = d.drop 1) : c = d := by
  obtain ⟨r1, hc1 | hc1 | hc1⟩ := startsVXYZ_shape c hc <;>
    obtain ⟨r2, hd1 | hd1 | hd1⟩ := startsVXYZ_shape d hd <;>
      subst hc1 <;> subst hd1 <;> simp_all

lemma accLoop_spec : ∀ (pending : List Name) (g : Frame) (a1 a2 : List Name),
    pending.Nodup →
    (∀ c ∈ pending, startsVXYZ c = true → ('a' :: c.drop 1) ∉ g.names) →
    accLoop pending g a1 a2 =
      (⟨g.cols ++ (pending.filter (fun c => startsVXYZ c)).map
          (fun c => ('a' :: c.drop 1, get_variable_change_over_time g c))⟩,
       a1 ++ (pending.filter (fun c => startsVXYZ c && endsOne ('a' :: c.drop 1))).map
          (fun c => 'a' :: c.drop 1),
       a2 ++ (pending.filter (fun c => startsVXYZ c && endsTwo ('a' :: c.drop 1))).map
          (fun c => 'a' :: c.drop 1)) := by
  intro pending
  induction pending with
  | nil =>
    intro g a1 a2 _ _
    simp [accLoop]
  | cons c rest ih =>
    intro g a1 a2 hnd hfresh
    obtain ⟨hc_rest, hnd_rest⟩ := List.nodup_cons.mp hnd
    rw [List.filter_cons, List.filter_cons, List.filter_cons]
    by_cases hs : startsVXYZ c = true
    · have hvc_fresh : ('a' :: c.drop 1) ∉ g.names :=
        hfresh c (List.mem_cons_self c rest) hs
      obtain ⟨heq, hget, hself, hnames, hrowsp⟩ :=
        setCol_fresh g ('a' :: c.drop 1) (get_variable_change_over_time g c) hvc_fresh
      have hfresh_rest : ∀ d ∈ rest, startsVXYZ d = true →
          ('a' :: d.drop 1) ∉
            (g.setCol ('a' :: c.drop 1) (get_variable_change_over_time g c)).names := by
        intro d hd hds
        rw [hnames]
        intro hmem
        rcases List.mem_append.mp hmem with h | h
        · exact hfresh d (List.mem_cons_of_mem c hd) hds h
        · rw [List.mem_singleton, List.cons_eq_cons] at h
          exact hc_rest ((vdrop_inj c d hs hds h.2.symm) ▸ hd)
      have hmapeq : (rest.filter (fun d => startsVXYZ d)).map
            (fun d => ('a' :: d.drop 1, get_variable_change_over_time
              (g.setCol ('a' :: c.drop 1) (get_variable_change_over_time g c)) d)) =
          (rest.filter (fun d => startsVXYZ d)).map
            (fun d => ('a' :: d.drop 1, get_variable_change_over_time g d)) := by
        apply List.map_congr_left
        intro d hd
        have hds : startsVXYZ d = true := List.of_mem_filter hd
        have hne1 : d ≠ 'a' :: c.drop 1 := ne_of_true_false startsVXYZ d ('a' :: c.drop 1) hds rfl
        have hne2 : nm "dt" ≠ 'a' :: c.drop 1 :=
          ne_of_true_false (fun x => decide (x.head? = some 'd')) (nm "dt") ('a' :: c.drop 1) rfl rfl
        rw [gvcot_congr g _ d (hget d hne1) (hget _ hne2)]
      by_cases h1 : endsOne ('a' :: c.drop 1) = true
      · have h2 : endsTwo ('a' :: c.drop 1) = false := endsOne_not_endsTwo _ h1
        have step : accLoop (c :: rest) g a1 a2 =
            accLoop rest (g.setCol ('a' :: c.drop 1) (get_variable_change_over_time g c))
              (a1 ++ ['a' :: c.drop 1]) a2 := by
          simp only [accLoop]
          rw [if_pos hs, if_pos h1]
        rw [step, ih _ _ _ hnd_rest hfresh_rest, hmapeq,
          if_pos hs,
          if_pos (show (startsVXYZ c && endsOne ('a' :: c.drop 1)) = true by rw [hs, h1]; rfl),
          if_neg (show ¬(startsVXYZ c && endsTwo ('a' :: c.drop 1)) = true by
            rw [Bool.and_eq_true]
            rintro ⟨h3, h4⟩
            rw [h2] at h4
            cases h4)]
        rw [heq]
        simp
      · by_cases h2 : endsTwo ('a' :: c.drop 1) = true
        · have step : accLoop (c :: rest) g a1 a2 =
              accLoop rest (g.setCol ('a' :: c.drop 1) (get_variable_change_over_time g c))
                a1 (a2 ++ ['a' :: c.drop 1]) := by
            simp only [accLoop]
            rw [if_pos hs, if_neg h1, if_pos h2]
          rw [step, ih _ _ _ hnd_rest hfresh_rest, hmapeq,
            if_pos hs,
            if_neg (show ¬(startsVXYZ c && endsOne ('a' :: c.drop 1)) = true by
              rw [Bool.and_eq_true]
              rintro ⟨h3, h4⟩
              exact h1 h4),
            if_pos (show (startsVXYZ c && endsTwo ('a' :: c.drop 1)) = true by
              rw [hs, h2]; rfl)]
          rw [heq]
          simp
        · have step : accLoop (c :: rest) g a1 a2 =
              accLoop rest (g.setCol ('a' :: c.drop 1) (get_variable_change_over_time g c))
                a1 a2 := by
            simp only [accLoop]
            rw [if_pos hs, if_neg h1, if_neg h2]
          rw [step, ih _ _ _ hnd_rest hfresh_rest, hmapeq,
            if_pos hs,
            if_neg (show ¬(startsVXYZ c && endsOne ('a' :: c.drop 1)) = true by
              rw [Bool.and_eq_true]
              rintro ⟨h3, h4⟩
              exact h1 h4),
            if_neg (show ¬(startsVXYZ c && endsTwo ('a' :: c.drop 1)) = true by
              rw [Bool.and_eq_true]
              rintro ⟨h3, h4⟩
              exact h2 h4)]
          rw [heq]
          simp
    · have step : accLoop (c :: rest) g a1 a2 = accLoop rest g a1 a2 := by
        simp only [accLoop]
        rw [if_neg hs]
      have hfresh_rest : ∀ d ∈ rest, startsVXYZ d = true → ('a' :: d.drop 1) ∉ g.names :=
        fun d hd hds => hfresh d (List.mem_cons_of_mem c hd) hds
      rw [step, ih _ _ _ hnd_rest hfresh_rest,
        if_neg (show ¬startsVXYZ c = true from hs),
        if_neg (show ¬(startsVXYZ c && endsOne ('a' :: c.drop 1)) = true by
          rw [Bool.and_eq_true]
          rintro ⟨h3, h4⟩
          exact hs h3),
        if_neg (show ¬(startsVXYZ c && endsTwo ('a' :: c.drop 1)) = true by
          rw [Bool.and_eq_true]
          rintro ⟨h3, h4⟩
          exact hs h3)]

lemma filter_eq_range (n i : ℕ) (hi : i < n) :
    (List.range n).filter (fun j => decide (j = i)) = [i] := by
  induction n with
  | zero => cases hi
  | succ m ih =>
    rw [List.range_succ, List.filter_append]
    by_cases him : i < m
    · rw [ih him]
      have : [m].filter (fun j => decide (j = i)) = [] := by
        simp only [List.filter_cons, List.filter_nil]
        rw [if_neg (by simp; omega)]
      rw [this]
      rfl
    · have hieq : i = m := by omega
      subst hieq
      have h1 : (List.range i).filter (fun j => decide (j = i)) = [] := by
        rw [List.filter_eq_nil_iff]
        intro j hj
        simp only [decide_eq_true_eq]
        have := List.mem_range.mp hj
        omega
      rw [h1]
      simp

lemma filter_range_single (n i : ℕ) (hi : i < n) (q : ℕ → Bool)
    (hq : ∀ j, j < n → (q j = true ↔ j = i)) :
    (List.range n).filter q = [i] := by
  have : (List.range n).filter q = (List.range n).filter (fun j => decide (j = i)) := by
    apply List.filter_congr
    intro j hj
    have hjn := List.mem_range.mp hj
    rw [Bool.eq_iff_iff]
    rw [hq j hjn]
    simp
  rw [this]
  exact filter_eq_range n i hi

lemma flatten_map_singleton {α β : Type} (l : List α) (f : α → β) :
    (l.map (fun i => [f i])).flatten = l.map f := by
  induction l with
  | nil => rfl
  | cons x xs ih => simp [ih]

lemma matchPairs_diag (a b : Frame) (ks : List Name) (n : ℕ)
    (hna : a.nRows = n) (hnb : b.nRows = n)
    (hkey : ∀ i, i < n → keyAt a ks i = keyAt b ks i)
    (hinj : ∀ i j, i < n → j < n → keyAt a ks i = keyAt b ks j → i = j) :
    matchPairs a b ks = (List.range n).map (fun i => (i, i)) := by
  unfold matchPairs
  rw [hna, hnb]
  have hpt : ∀ i ∈ List.range n, ((List.range n).filter
      (fun j => decide (keyAt a ks i = keyAt b ks j))).map (fun j => (i, j)) = [(i, i)] := by
    intro i hi
    have hi2 : i < n := List.mem_range.mp hi
    rw [filter_range_single n i hi2 _ ?_]
    · rfl
    · intro j hj
      constructor
      · intro hq
        exact (hinj i j hi2 hj (of_decide_eq_true hq)).symm
      · rintro rfl
        exact decide_eq_true (hkey j hi2)
  rw [List.flatMap]
  rw [List.map_congr_left hpt]
  exact flatten_map_singleton _ _

lemma find?_filter_keep (l : List (Name × List PValue)) (Q : Name × List PValue → Bool)
    (c : Name) (h : ∀ p ∈ l, p.1 = c → Q p = true) :
    (l.filter Q).find? (fun q => decide (q.1 = c)) = l.find? (fun q => decide (q.1 = c)) := by
  induction l with
  | nil => rfl
  | cons p l ih =>
    rw [List.filter_cons]
    by_cases hpc : p.1 = c
    · rw [if_pos (h p (List.mem_cons_self p l) hpc)]
      rw [List.find?_cons_of_pos _ (by simp [hpc]), List.find?_cons_of_pos _ (by simp [hpc])]
    · have hrec := ih (fun q hq => h q (List.mem_cons_of_mem p hq))
      by_cases hQ : Q p = true
      · rw [if_pos hQ]
        rw [List.find?_cons_of_neg _ (by simp [hpc]), List.find?_cons_of_neg _ (by simp [hpc])]
        exact hrec
      · rw [if_neg hQ]
        rw [List.find?_cons_of_neg _ (by simp [hpc])]
        exact hrec

lemma getCol_filter_keep (l : List (Name × List PValue)) (Q : Name × List PValue → Bool)
    (c : Name) (h : ∀ p ∈ l, p.1 = c → Q p = true) :
    (⟨l.filter Q⟩ : Frame).getCol c = (⟨l⟩ : Frame).getCol c := by
  unfold Frame.getCol
  rw [find?_filter_keep l Q c h]

lemma merge_spec (a b : Frame) (n : ℕ) (t : List PValue)
    (hna : ∀ p ∈ a.cols, p.2.length = n)
    (hnb : ∀ p ∈ b.cols, p.2.length = n)
    (hnda : a.names.Nodup) (hndb : b.names.Nodup)
    (hta : a.getCol (nm "time") = some t) (htb : b.getCol (nm "time") = some t)
    (htn : t.Nodup) (htlen : t.length = n)
    (hrowsa : a.nRows = n) (hrowsb : b.nRows = n)
    (hcommon : ∀ c ∈ a.names, c ∈ b.names → a.getCol c = b.getCol c) :
    merge a b = ⟨a.cols ++ b.cols.filter (fun p => decide (¬ p.1 ∈ a.names))⟩ := by
  have htks : nm "time" ∈ a.names.filter (fun c => decide (c ∈ b.names)) := by
    rw [List.mem_filter]
    exact ⟨getCol_some_mem a _ t hta, decide_eq_true (getCol_some_mem b _ t htb)⟩
  have hkseq : ∀ c ∈ a.names.filter (fun c => decide (c ∈ b.names)),
      a.getCol c = b.getCol c := by
    intro c hc
    have h1 := List.mem_filter.mp hc
    exact hcommon c h1.1 (of_decide_eq_true h1.2)
  have hkey : ∀ i, i < n →
      keyAt a (a.names.filter (fun c => decide (c ∈ b.names))) i =
        keyAt b (a.names.filter (fun c => decide (c ∈ b.names))) i := by
    intro i _
    unfold keyAt
    apply List.map_congr_left
    intro c hc
    unfold cellAt
    rw [hkseq c hc]
  have hinj : ∀ i j, i < n → j < n →
      keyAt a (a.names.filter (fun c => decide (c ∈ b.names))) i =
        keyAt b (a.names.filter (fun c => decide (c ∈ b.names))) j → i = j := by
    intro i j hi hj hk
    unfold keyAt at hk
    have hcell := List.map_eq_map_iff.mp hk (nm "time") htks
    unfold cellAt at hcell
    rw [hta, htb] at hcell
    simp only [Option.getD_some] at hcell
    rw [List.getD_eq_getElem t PValue.nan (htlen ▸ hi),
      List.getD_eq_getElem t PValue.nan (htlen ▸ hj)] at hcell
    exact (htn.getElem_inj_iff).mp hcell
  have hdiag := matchPairs_diag a b _ n hrowsa hrowsb hkey hinj
  unfold merge
  dsimp only
  rw [hdiag]
  have haside : a.cols.map (fun p =>
      (p.1, ((List.range n).map (fun i => (i, i))).map (fun ij => cellAt a p.1 ij.1))) =
      a.cols := by
    have : ∀ p ∈ a.cols, (p.1, ((List.range n).map (fun i => (i, i))).map
        (fun ij => cellAt a p.1 ij.1)) = p := by
      intro p hp
      have hg : a.getCol p.1 = some p.2 := getCol_mem_nodup a hnda hp
      have hc : ∀ i : ℕ, cellAt a p.1 i = p.2.getD i PValue.nan := by
        intro i
        unfold cellAt
        rw [hg]
        rfl
      rw [List.map_map]
      have : ((fun ij : ℕ × ℕ => cellAt a p.1 ij.1) ∘ fun i => (i, i)) =
          fun i => p.2.getD i PValue.nan := by
        funext i
        exact hc i
      rw [this, map_range_getD p.2 n (hna p hp)]
    rw [List.map_congr_left this]
    exact List.map_id' _
  have hbside : (b.cols.filter (fun p =>
        decide (¬ p.1 ∈ a.names.filter (fun c => decide (c ∈ b.names))))).map (fun p =>
      (p.1, ((List.range n).map (fun i => (i, i))).map (fun ij => cellAt b p.1 ij.2))) =
      b.cols.filter (fun p => decide (¬ p.1 ∈ a.names)) := by
    have hfc : b.cols.filter (fun p =>
        decide (¬ p.1 ∈ a.names.filter (fun c => decide (c ∈ b.names)))) =
        b.cols.filter (fun p => decide (¬ p.1 ∈ a.names)) := by
      apply List.filter_congr
      intro p hp
      have hpb : p.1 ∈ b.names := List.mem_map.mpr ⟨p, hp, rfl⟩
      rw [Bool.eq_iff_iff, decide_eq_true_eq, decide_eq_true_eq, not_iff_not]
      rw [List.mem_filter]
      constructor
      · intro h1
        exact h1.1
      · intro h1
        exact ⟨h1, decide_eq_true hpb⟩
    rw [hfc]
    have : ∀ p ∈ b.cols.filter (fun p => decide (¬ p.1 ∈ a.names)),
        (p.1, ((List.range n).map (fun i => (i, i))).map (fun ij => cellAt b p.1 ij.2)) = p := by
      intro p hp
      have hpb : p ∈ b.cols := List.mem_of_mem_filter hp
      have hg : b.getCol p.1 = some p.2 := getCol_mem_nodup b hndb hpb
      rw [List.map_map]
      have : ((fun ij : ℕ × ℕ => cellAt b p.1 ij.2) ∘ fun i => (i, i)) =
          fun i => p.2.getD i PValue.nan := by
        funext i
        unfold cellAt
        rw [hg]
        rfl
      rw [this, map_range_getD p.2 n (hnb p hpb)]
    rw [List.map_congr_left this]
    exact List.map_id' _
  rw [haside, hbside]

lemma merged_getCol_left (a b : Frame) (c : Name) (hc : c ∈ a.names) :
    (⟨a.cols ++ b.cols.filter (fun p => decide (¬ p.1 ∈ a.names))⟩ : Frame).getCol c =
      a.getCol c := by
  obtain ⟨vs, hvs⟩ := getCol_mem_exists a c hc
  rw [hvs]
  exact getCol_mk_append_left a.cols _ c vs hvs

lemma merged_getCol_right (a b : Frame) (c : Name) (hc : c ∉ a.names) :
    (⟨a.cols ++ b.cols.filter (fun p => decide (¬ p.1 ∈ a.names))⟩ : Frame).getCol c =
      b.getCol c := by
  rw [getCol_mk_append_right a.cols _ c hc]
  rw [getCol_filter_keep b.cols _ c (fun p _ hpc => decide_eq_true (hpc ▸ hc))]

lemma merged_lengths (a b : Frame) (n : ℕ)
    (hna : ∀ p ∈ a.cols, p.2.length = n) (hnb : ∀ p ∈ b.cols, p.2.length = n) :
    ∀ p ∈ (⟨a.cols ++ b.cols.filter (fun p => decide (¬ p.1 ∈ a.names))⟩ : Frame).cols,
      p.2.length = n := by
  intro p hp
  rcases List.mem_append.mp hp with h | h
  · exact hna p h
  · exact hnb p (List.mem_of_mem_filter h)

lemma merged_names_nodup (a b : Frame)
    (hnda : a.names.Nodup) (hndb : b.names.Nodup) :
    (⟨a.cols ++ b.cols.filter (fun p => decide (¬ p.1 ∈ a.names))⟩ : Frame).names.Nodup := by
  unfold Frame.names
  rw [List.map_append]
  refine List.Nodup.append hnda ?_ ?_
  · exact ((List.filter_sublist b.cols).map Prod.fst).nodup hndb
  · intro x hx hx2
    obtain ⟨p, hp, rfl⟩ := List.mem_map.mp hx2
    have := List.of_mem_filter hp
    rw [decide_eq_true_eq] at this
    exact this hx

lemma merged_names_mem (a b : Frame) (x : Name) :
    x ∈ (⟨a.cols ++ b.cols.filter (fun p => decide (¬ p.1 ∈ a.names))⟩ : Frame).names ↔
      x ∈ a.names ∨ x ∈ b.names := by
  unfold Frame.names
  rw [List.map_append, List.mem_append]
  constructor
  · rintro (h | h)
    · exact Or.inl h
    · obtain ⟨p, hp, rfl⟩ := List.mem_map.mp h
      exact Or.inr (List.mem_map.mpr ⟨p, List.mem_of_mem_filter hp, rfl⟩)
  · rintro (h | h)
    · exact Or.inl h
    · by_cases hxa : x ∈ a.names
      · exact Or.inl hxa
      · obtain ⟨p, hp, rfl⟩ := List.mem_map.mp h
        refine Or.inr (List.mem_map.mpr ⟨p, List.mem_filter.mpr ⟨hp, ?_⟩, rfl⟩)
        exact decide_eq_true hxa

lemma magSelect_facts (gV : Frame) (n : ℕ) (t : List PValue) (L1 L2 : List Name)
    (n1 n2 : Name)
    (hlenV : ∀ p ∈ gV.cols, p.2.length = n)
    (hndV : gV.names.Nodup)
    (htV : gV.getCol (nm "time") = some t)
    (htlen : t.length = n)
    (hgne : gV.cols ≠ [])
    (hrowsV : gV.nRows = n)
    (hsub1 : ∀ c ∈ L1, c ∈ gV.names) (hsub2 : ∀ c ∈ L2, c ∈ gV.names)
    (hnd1 : L1.Nodup) (hnd2 : L2.Nodup) (hdisj : L1.Disjoint L2)
    (ht1 : nm "time" ∉ L1) (ht2 : nm "time" ∉ L2)
    (hn1g : n1 ∉ gV.names) (hn2g : n2 ∉ gV.names)
    (hn12 : n1 ≠ n2)
    (htn1 : nm "time" ≠ n1) (htn2 : nm "time" ≠ n2) :
    (magSelect gV L1 L2 n1 n2).getCol (nm "time") = some t ∧
    (∀ p ∈ (magSelect gV L1 L2 n1 n2).cols, p.2.length = n) ∧
    (magSelect gV L1 L2 n1 n2).names.Nodup ∧
    (magSelect gV L1 L2 n1 n2).names =
      nm "time" :: ((L1 ++ (if L1 = [] then [] else [n1])) ++
        (L2 ++ (if L2 = [] then [] else [n2]))) ∧
    (∀ c ∈ L1 ++ L2, (magSelect gV L1 L2 n1 n2).getCol c = gV.getCol c) ∧
    (L1 ≠ [] → (magSelect gV L1 L2 n1 n2).getCol n1 = some (get_vector_total gV L1)) ∧
    (L2 ≠ [] → (magSelect gV L1 L2 n1 n2).getCol n2 = some (get_vector_total gV L2)) := by
  have hn1L1 : n1 ∉ L1 := fun hc => hn1g (hsub1 _ hc)
  have hn1L2 : n1 ∉ L2 := fun hc => hn1g (hsub2 _ hc)
  have hn2L1 : n2 ∉ L1 := fun hc => hn2g (hsub1 _ hc)
  have hn2L2 : n2 ∉ L2 := fun hc => hn2g (hsub2 _ hc)
  have hget1 : ∀ c ∈ L1, ∃ vs, gV.getCol c = some vs ∧ vs.length = n := by
    intro c hc
    obtain ⟨vs, hvs⟩ := getCol_mem_exists gV c (hsub1 c hc)
    exact ⟨vs, hvs, getCol_length gV n hlenV c vs hvs⟩
  have hget2 : ∀ c ∈ L2, ∃ vs, gV.getCol c = some vs ∧ vs.length = n := by
    intro c hc
    obtain ⟨vs, hvs⟩ := getCol_mem_exists gV c (hsub2 c hc)
    exact ⟨vs, hvs, getCol_length gV n hlenV c vs hvs⟩
  by_cases hL1 : L1 = []
  · by_cases hL2 : L2 = []
    · have hout : magSelect gV L1 L2 n1 n2 = gV.select [nm "time"] := by
        simp [magSelect, magStage, hL1, hL2]
      obtain ⟨hsn, hsl, hsg, hsnd⟩ := select_facts gV n [nm "time"] (by decide)
        (by
          intro c hc
          rw [List.mem_singleton] at hc
          subst hc
          exact ⟨t, htV, htlen⟩)
      rw [hout]
      refine ⟨?_, hsl, hsnd, ?_, ?_, fun hc => absurd hL1 hc, fun hc => absurd hL2 hc⟩
      · rw [hsg (nm "time") (by decide)]
        exact htV
      · rw [hsn, hL1, hL2]
        simp
      · intro c hc
        rw [hL1, hL2] at hc
        cases hc
    · have hm2 : (get_vector_total gV L2).length = n := by
        rw [length_gvt, hrowsV]
      obtain ⟨heqS, hgetS, hselfS, hnamesS, hrowsS⟩ :=
        setCol_fresh gV n2 (get_vector_total gV L2) hn2g
      have hout : magSelect gV L1 L2 n1 n2 =
          (gV.setCol n2 (get_vector_total gV L2)).select (nm "time" :: L2 ++ [n2]) := by
        simp [magSelect, magStage, hL1, hL2]
      have hselnd : (nm "time" :: L2 ++ [n2]).Nodup := by
        refine List.nodup_cons.mpr ⟨?_, ?_⟩
        · intro hc
          rcases List.mem_append.mp hc with h | h
          · exact ht2 h
          · rw [List.mem_singleton] at h
            exact htn2 h
        · refine List.Nodup.append hnd2 (List.nodup_singleton _) ?_
          intro c hc hc2
          rw [List.mem_singleton] at hc2
          subst hc2
          exact hn2L2 hc
      have hcols : ∀ c ∈ nm "time" :: L2 ++ [n2],
          ∃ vs, (gV.setCol n2 (get_vector_total gV L2)).getCol c = some vs ∧ vs.length = n := by
        intro c hc
        rcases List.mem_cons.mp hc with rfl | hc2
        · exact ⟨t, by rw [hgetS _ htn2]; exact htV, htlen⟩
        · rcases List.mem_append.mp hc2 with h | h
          · have hne : c ≠ n2 := fun hcc => hn2L2 (hcc ▸ h)
            obtain ⟨vs, hvs, hl⟩ := hget2 c h
            refine ⟨vs, ?_, hl⟩
            rw [hgetS c hne]
            exact hvs
          · rw [List.mem_singleton] at h
            subst h
            exact ⟨_, hselfS, hm2⟩
      obtain ⟨hsn, hsl, hsg, hsnd⟩ := select_facts _ n _ hselnd hcols
      rw [hout]
      refine ⟨?_, hsl, hsnd, ?_, ?_, fun hc => absurd hL1 hc, ?_⟩
      · rw [hsg (nm "time") (List.mem_cons_self _ _), hgetS _ htn2]
        exact htV
      · rw [hsn, hL1, if_pos rfl, if_neg hL2]
        simp
      · intro c hc
        rw [hL1, List.nil_append] at hc
        have hne : c ≠ n2 := fun hcc => hn2L2 (hcc ▸ hc)
        rw [hsg c (List.mem_cons_of_mem _ (List.mem_append_left _ hc)), hgetS c hne]
      · intro _
        rw [hsg n2 (List.mem_cons_of_mem _ (List.mem_append_right _ (List.mem_singleton.mpr rfl)))]
        exact hselfS
  · have hm1 : (get_vector_total gV L1).length = n := by
      rw [length_gvt, hrowsV]
    obtain ⟨heq1, hget1S, hself1, hnames1, hrows1⟩ :=
      setCol_fresh gV n1 (get_vector_total gV L1) hn1g
    have hg1ne : (gV.setCol n1 (get_vector_total gV L1)).cols ≠ [] := by
      rw [heq1]
      intro hc
      exact hgne (List.append_eq_nil.mp hc).1
    have hg1L2get : ∀ c ∈ L2,
        (gV.setCol n1 (get_vector_total gV L1)).getCol c = gV.getCol c := by
      intro c hc
      exact hget1S c (fun hcc => hn1L2 (hcc ▸ hc))
    by_cases hL2 : L2 = []
    · have hout : magSelect gV L1 L2 n1 n2 =
          (gV.setCol n1 (get_vector_total gV L1)).select (nm "time" :: L1 ++ [n1]) := by
        simp [magSelect, magStage, hL1, hL2]
      have hselnd : (nm "time" :: L1 ++ [n1]).Nodup := by
        refine List.nodup_cons.mpr ⟨?_, ?_⟩
        · intro hc
          rcases List.mem_append.mp hc with h | h
          · exact ht1 h
          · rw [List.mem_singleton] at h
            exact htn1 h
        · refine List.Nodup.append hnd1 (List.nodup_singleton _) ?_
          intro c hc hc2
          rw [List.mem_singleton] at hc2
          subst hc2
          exact hn1L1 hc
      have hcols : ∀ c ∈ nm "time" :: L1 ++ [n1],
          ∃ vs, (gV.setCol n1 (get_vector_total gV L1)).getCol c = some vs ∧ vs.length = n := by
        intro c hc
        rcases List.mem_cons.mp hc with rfl | hc2
        · exact ⟨t, by rw [hget1S _ htn1]; exact htV, htlen⟩
        · rcases List.mem_append.mp hc2 with h | h
          · have hne : c ≠ n1 := fun hcc => hn1L1 (hcc ▸ h)
            obtain ⟨vs, hvs, hl⟩ := hget1 c h
            refine ⟨vs, ?_, hl⟩
            rw [hget1S c hne]
            exact hvs
          · rw [List.mem_singleton] at h
            subst h
            exact ⟨_, hself1, hm1⟩
      obtain ⟨hsn, hsl, hsg, hsnd⟩ := select_facts _ n _ hselnd hcols
      rw [hout]
      refine ⟨?_, hsl, hsnd, ?_, ?_, ?_, fun hc => absurd hL2 hc⟩
      · rw [hsg (nm "time") (List.mem_cons_self _ _), hget1S _ htn1]
        exact htV
      · rw [hsn, hL2, if_pos rfl, if_neg hL1]
        simp
      · intro c hc
        rw [hL2, List.append_nil] at hc
        have hne : c ≠ n1 := fun hcc => hn1L1 (hcc ▸ hc)
        rw [hsg c (List.mem_cons_of_mem _ (List.mem_append_left _ hc)), hget1S c hne]
      · intro _
        rw [hsg n1 (List.mem_cons_of_mem _ (List.mem_append_right _ (List.mem_singleton.mpr rfl)))]
        exact hself1
    · have hmc : get_vector_total (gV.setCol n1 (get_vector_total gV L1)) L2 =
          get_vector_total gV L2 := by
        refine gvt_congr gV _ L2 ?_ hg1L2get
        exact hrows1 hgne
      have hm2 : (get_vector_total gV L2).length = n := by
        rw [length_gvt, hrowsV]
      have hn2g1 : n2 ∉ (gV.setCol n1 (get_vector_total gV L1)).names := by
        rw [hnames1]
        intro hc
        rcases List.mem_append.mp hc with h | h
        · exact hn2g h
        · rw [List.mem_singleton] at h
          exact hn12 h.symm
      obtain ⟨heq2, hget2S, hself2, hnames2, hrows2⟩ :=
        setCol_fresh (gV.setCol n1 (get_vector_total gV L1)) n2
          (get_vector_total gV L2) hn2g1
      have hout : magSelect gV L1 L2 n1 n2 =
          ((gV.setCol n1 (get_vector_total gV L1)).setCol n2 (get_vector_total gV L2)).select
            (nm "time" :: (L1 ++ [n1]) ++ (L2 ++ [n2])) := by
        simp [magSelect, magStage, hL1, hL2, hmc]
      have hselnd : (nm "time" :: (L1 ++ [n1]) ++ (L2 ++ [n2])).Nodup := by
        refine List.nodup_cons.mpr ⟨?_, ?_⟩
        · intro hc
          rcases List.mem_append.mp hc with h | h
          · rcases List.mem_append.mp h with h2 | h2
            · exact ht1 h2
            · rw [List.mem_singleton] at h2
              exact htn1 h2
          · rcases List.mem_append.mp h with h2 | h2
            · exact ht2 h2
            · rw [List.mem_singleton] at h2
              exact htn2 h2
        · refine List.Nodup.append ?_ ?_ ?_
          · refine List.Nodup.append hnd1 (List.nodup_singleton _) ?_
            intro c hc hc2
            rw [List.mem_singleton] at hc2
            subst hc2
            exact hn1L1 hc
          · refine List.Nodup.append hnd2 (List.nodup_singleton _) ?_
            intro c hc hc2
            rw [List.mem_singleton] at hc2
            subst hc2
            exact hn2L2 hc
          · intro c hc hc2
            rcases List.mem_append.mp hc with h | h
            · rcases List.mem_append.mp hc2 with h2 | h2
              · exact hdisj h h2
              · rw [List.mem_singleton] at h2
                subst h2
                exact hn2L1 h
            · rw [List.mem_singleton] at h
              subst h
              rcases List.mem_append.mp hc2 with h2 | h2
              · exact hn1L2 h2
              · rw [List.mem_singleton] at h2
                exact hn12 h2
      have hcols : ∀ c ∈ nm "time" :: (L1 ++ [n1]) ++ (L2 ++ [n2]),
          ∃ vs, ((gV.setCol n1 (get_vector_total gV L1)).setCol n2
              (get_vector_total gV L2)).getCol c = some vs ∧ vs.length = n := by
        intro c hc
        rcases List.mem_cons.mp hc with rfl | hc2
        · refine ⟨t, ?_, htlen⟩
          rw [hget2S _ htn2, hget1S _ htn1]
          exact htV
        · rcases List.mem_append.mp hc2 with h | h
          · rcases List.mem_append.mp h with h2 | h2
            · have hne1 : c ≠ n1 := fun hcc => hn1L1 (hcc ▸ h2)
              have hne2 : c ≠ n2 := fun hcc => hn2L1 (hcc ▸ h2)
              obtain ⟨vs, hvs, hl⟩ := hget1 c h2
              refine ⟨vs, ?_, hl⟩
              rw [hget2S c hne2, hget1S c hne1]
              exact hvs
            · rw [List.mem_singleton] at h2
              subst h2
              refine ⟨_, ?_, hm1⟩
              rw [hget2S _ hn12]
              exact hself1
          · rcases List.mem_append.mp h with h2 | h2
            · have hne1 : c ≠ n1 := fun hcc => hn1L2 (hcc ▸ h2)
              have hne2 : c ≠ n2 := fun hcc => hn2L2 (hcc ▸ h2)
              obtain ⟨vs, hvs, hl⟩ := hget2 c h2
              refine ⟨vs, ?_, hl⟩
              rw [hget2S c hne2, hget1S c hne1]
              exact hvs
            · rw [List.mem_singleton] at h2
              subst h2
              exact ⟨_, hself2, hm2⟩
      obtain ⟨hsn, hsl, hsg, hsnd⟩ := select_facts _ n _ hselnd hcols
      rw [hout]
      refine ⟨?_, hsl, hsnd, ?_, ?_, ?_, ?_⟩
      · rw [hsg (nm "time") (List.mem_cons_self _ _), hget2S _ htn2, hget1S _ htn1]
        exact htV
      · rw [hsn, if_neg hL1, if_neg hL2]
        simp
      · intro c hc
        rcases List.mem_append.mp hc with h | h
        · have hne1 : c ≠ n1 := fun hcc => hn1L1 (hcc ▸ h)
          have hne2 : c ≠ n2 := fun hcc => hn2L1 (hcc ▸ h)
          rw [hsg c (List.mem_cons_of_mem _
              (List.mem_append_left _ (List.mem_append_left _ h))),
            hget2S c hne2, hget1S c hne1]
        · have hne1 : c ≠ n1 := fun hcc => hn1L2 (hcc ▸ h)
          have hne2 : c ≠ n2 := fun hcc => hn2L2 (hcc ▸ h)
          rw [hsg c (List.mem_cons_of_mem _
              (List.mem_append_right _ (List.mem_append_left _ h))),
            hget2S c hne2, hget1S c hne1]
      · intro _
        rw [hsg n1 (List.mem_cons_of_mem _
            (List.mem_append_left _ (List.mem_append_right _ (List.mem_singleton.mpr rfl)))),
          hget2S _ hn12]
        exact hself1
      · intro _
        rw [hsg n2 (List.mem_cons_of_mem _
            (List.mem_append_right _ (List.mem_append_right _ (List.mem_singleton.mpr rfl))))]
        exact hself2

lemma cons_v_injective : Function.Injective (fun c : Name => 'v' :: c) := by
  intro a b hab
  exact (List.cons_eq_cons.mp hab).2

lemma cons_d_injective : Function.Injective (fun c : Name => 'd' :: c) := by
  intro a b hab
  exact (List.cons_eq_cons.mp hab).2

lemma add_velocity_slice_facts (g : Frame) (n : ℕ) (t ds : List PValue)
    (hlen : ∀ p ∈ g.cols, p.2.length = n)
    (hnd : g.names.Nodup)
    (ht : g.getCol (nm "time") = some t)
    (htlen : t.length = n)
    (hdt : g.getCol (nm "dt") = some ds)
    (hdlen : ds.length = n)
    (hpat : ∀ c ∈ g.names, c = nm "time" ∨ c = nm "timestamp" ∨ c = nm "dt" ∨
      startsXYZ c = true ∨ startsFXYZ c = true) :
    (add_velocity_features g).2.getCol (nm "time") = some t ∧
    (∀ p ∈ (add_velocity_features g).2.cols, p.2.length = n) ∧
    (add_velocity_features g).2.names.Nodup ∧
    (∀ x ∈ (add_velocity_features g).2.names, x = nm "time" ∨ x.head? = some 'v') ∧
    (∀ c ∈ g.names, startsXYZ c = true →
      (endsOne ('v' :: c) || endsTwo ('v' :: c)) = true →
      ('v' :: c) ∈ (add_velocity_features g).2.names) := by
  have hgne : g.cols ≠ [] := cols_ne_nil_of_mem g (nm "time") (getCol_some_mem g _ t ht)
  have hrows : g.nRows = n := nRows_of_lengths g n hlen hgne
  have hnov : ∀ c, ('v' :: c) ∉ g.names := by
    intro c hmem
    rcases hpat _ hmem with h | h | h | h | h
    · exact ne_of_true_false (fun x => decide (x.head? = some 'v'))
        ('v' :: c) (nm "time") rfl rfl h
    · exact ne_of_true_false (fun x => decide (x.head? = some 'v'))
        ('v' :: c) (nm "timestamp") rfl rfl h
    · exact ne_of_true_false (fun x => decide (x.head? = some 'v'))
        ('v' :: c) (nm "dt") rfl rfl h
    · rw [show startsXYZ ('v' :: c) = false from rfl] at h
      cases h
    · rw [show startsFXYZ ('v' :: c) = false from rfl] at h
      cases h
  have hfresh : ∀ c ∈ g.names, startsXYZ c = true → ('v' :: c) ∉ g.names :=
    fun c _ _ => hnov c
  have hr := velLoop_spec g.names g [] [] hnd hfresh
  rw [List.nil_append, List.nil_append] at hr
  have hout : (add_velocity_features g).2 =
      magSelect ⟨g.cols ++ (g.names.filter (fun c => startsXYZ c)).map
          (fun c => ('v' :: c, get_variable_change_over_time g c))⟩
        ((g.names.filter (fun c => startsXYZ c && endsOne ('v' :: c))).map
          (fun c => 'v' :: c))
        ((g.names.filter (fun c => startsXYZ c && endsTwo ('v' :: c))).map
          (fun c => 'v' :: c))
        (nm "v1") (nm "v2") := by
    simp only [add_velocity_features, hr, magSelect, magStage]
  have hnamesV : (⟨g.cols ++ (g.names.filter (fun c => startsXYZ c)).map
      (fun c => ('v' :: c, get_variable_change_over_time g c))⟩ : Frame).names =
      g.names ++ ((g.names.filter (fun c => startsXYZ c)).map (fun c => 'v' :: c)) := by
    unfold Frame.names
    rw [List.map_append, List.map_map]
    rfl
  have hlenV : ∀ p ∈ (⟨g.cols ++ (g.names.filter (fun c => startsXYZ c)).map
      (fun c => ('v' :: c, get_variable_change_over_time g c))⟩ : Frame).cols,
      p.2.length = n := by
    intro p hp
    rcases List.mem_append.mp hp with h | h
    · exact hlen p h
    · obtain ⟨c, hc, rfl⟩ := List.mem_map.mp h
      have hcn : c ∈ g.names := List.mem_of_mem_filter hc
      obtain ⟨vs, hvs⟩ := getCol_mem_exists g c hcn
      exact length_gvcot g c n vs ds hvs (getCol_length g n hlen c vs hvs) hdt hdlen
  have hndV : (⟨g.cols ++ (g.names.filter (fun c => startsXYZ c)).map
      (fun c => ('v' :: c, get_variable_change_over_time g c))⟩ : Frame).names.Nodup := by
    rw [hnamesV]
    refine List.Nodup.append hnd (List.Nodup.map cons_v_injective (hnd.filter _)) ?_
    intro x hx hx2
    obtain ⟨c, _, rfl⟩ := List.mem_map.mp hx2
    exact hnov c hx
  have htV : (⟨g.cols ++ (g.names.filter (fun c => startsXYZ c)).map
      (fun c => ('v' :: c, get_variable_change_over_time g c))⟩ : Frame).getCol (nm "time") =
      some t := getCol_mk_append_left g.cols _ _ t ht
  have hgneV : (⟨g.cols ++ (g.names.filter (fun c => startsXYZ c)).map
      (fun c => ('v' :: c, get_variable_change_over_time g c))⟩ : Frame).cols ≠ [] := by
    intro hc
    exact hgne (List.append_eq_nil.mp hc).1
  have hrowsV : (⟨g.cols ++ (g.names.filter (fun c => startsXYZ c)).map
      (fun c => ('v' :: c, get_variable_change_over_time g c))⟩ : Frame).nRows = n := by
    rw [nRows_mk_append _ _ hgne]
    exact hrows
  have hsubmem : ∀ q : Name → Bool, ∀ c ∈ g.names.filter (fun c => startsXYZ c && q c),
      ('v' :: c) ∈ (⟨g.cols ++ (g.names.filter (fun c => startsXYZ c)).map
        (fun c => ('v' :: c, get_variable_change_over_time g c))⟩ : Frame).names := by
    intro q c hc
    rw [hnamesV, List.mem_append]
    have h1 := List.mem_filter.mp hc
    have h2 := h1.2
    rw [Bool.and_eq_true] at h2
    exact Or.inr (List.mem_map.mpr ⟨c, List.mem_filter.mpr ⟨h1.1, h2.1⟩, rfl⟩)
  have hv1g : nm "v1" ∉ (⟨g.cols ++ (g.names.filter (fun c => startsXYZ c)).map
      (fun c => ('v' :: c, get_variable_change_over_time g c))⟩ : Frame).names := by
    rw [hnamesV]
    intro hc
    rcases List.mem_append.mp hc with h | h
    · rcases hpat _ h with h2 | h2 | h2 | h2 | h2
      · exact absurd h2 (by decide)
      · exact absurd h2 (by decide)
      · exact absurd h2 (by decide)
      · exact absurd h2 (by decide)
      · exact absurd h2 (by decide)
    · obtain ⟨c, hcf, hceq⟩ := List.mem_map.mp h
      have : c = ['1'] := by
        have := List.cons_eq_cons.mp hceq
        exact this.2
      subst this
      exact absurd (List.of_mem_filter hcf) (by decide)
  have hv2g : nm "v2" ∉ (⟨g.cols ++ (g.names.filter (fun c => startsXYZ c)).map
      (fun c => ('v' :: c, get_variable_change_over_time g c))⟩ : Frame).names := by
    rw [hnamesV]
    intro hc
    rcases List.mem_append.mp hc with h | h
    · rcases hpat _ h with h2 | h2 | h2 | h2 | h2
      · exact absurd h2 (by decide)
      · exact absurd h2 (by decide)
      · exact absurd h2 (by decide)
      · exact absurd h2 (by decide)
      · exact absurd h2 (by decide)
    · obtain ⟨c, hcf, hceq⟩ := List.mem_map.mp h
      have : c = ['2'] := by
        have := List.cons_eq_cons.mp hceq
        exact this.2
      subst this
      exact absurd (List.of_mem_filter hcf) (by decide)
  obtain ⟨f1, f2, f3, f4, f5, f6, f7⟩ := magSelect_facts
    ⟨g.cols ++ (g.names.filter (fun c => startsXYZ c)).map
      (fun c => ('v' :: c, get_variable_change_over_time g c))⟩ n t
    ((g.names.filter (fun c => startsXYZ c && endsOne ('v' :: c))).map (fun c => 'v' :: c))
    ((g.names.filter (fun c => startsXYZ c && endsTwo ('v' :: c))).map (fun c => 'v' :: c))
    (nm "v1") (nm "v2")
    hlenV hndV htV htlen hgneV hrowsV
    (by
      intro x hx
      obtain ⟨c, hc, rfl⟩ := List.mem_map.mp hx
      exact hsubmem _ c hc)
    (by
      intro x hx
      obtain ⟨c, hc, rfl⟩ := List.mem_map.mp hx
      exact hsubmem _ c hc)
    (List.Nodup.map cons_v_injective (hnd.filter _))
    (List.Nodup.map cons_v_injective (hnd.filter _))
    (by
      intro x hx hx2
      obtain ⟨c, hc, rfl⟩ := List.mem_map.mp hx
      obtain ⟨c2, hc2, hceq⟩ := List.mem_map.mp hx2
      have hcc : c2 = c := (List.cons_eq_cons.mp hceq).2
      subst hcc
      have e1 := List.of_mem_filter hc
      have e2 := List.of_mem_filter hc2
      rw [Bool.and_eq_true] at e1 e2
      rw [endsOne_not_endsTwo _ e1.2] at e2
      cases e2.2)
    (by
      intro hc
      obtain ⟨c, _, hceq⟩ := List.mem_map.mp hc
      exact ne_of_true_false (fun x => decide (x.head? = some 'v'))
        ('v' :: c) (nm "time") rfl rfl hceq)
    (by
      intro hc
      obtain ⟨c, _, hceq⟩ := List.mem_map.mp hc
      exact ne_of_true_false (fun x => decide (x.head? = some 'v'))
        ('v' :: c) (nm "time") rfl rfl hceq)
    hv1g hv2g (by decide) (by decide) (by decide)
  rw [hout]
  refine ⟨f1, f2, f3, ?_, ?_⟩
  · intro x hx
    rw [f4] at hx
    rcases List.mem_cons.mp hx with rfl | hx2
    · exact Or.inl rfl
    · rcases List.mem_append.mp hx2 with h | h
      · rcases List.mem_append.mp h with h2 | h2
        · obtain ⟨c, _, rfl⟩ := List.mem_map.mp h2
          exact Or.inr rfl
        · by_cases he : (g.names.filter (fun c => startsXYZ c && endsOne ('v' :: c))).map
              (fun c => 'v' :: c) = []
          · rw [if_pos he] at h2
            cases h2
          · rw [if_neg he] at h2
            rw [List.mem_singleton] at h2
            subst h2
            exact Or.inr rfl
      · rcases List.mem_append.mp h with h2 | h2
        · obtain ⟨c, _, rfl⟩ := List.mem_map.mp h2
          exact Or.inr rfl
        · by_cases he : (g.names.filter (fun c => startsXYZ c && endsTwo ('v' :: c))).map
              (fun c => 'v' :: c) = []
          · rw [if_pos he] at h2
            cases h2
          · rw [if_neg he] at h2
            rw [List.mem_singleton] at h2
            subst h2
            exact Or.inr rfl
  · intro c hc hs hg
    rw [f4]
    rw [Bool.or_eq_true] at hg
    rcases hg with h1 | h2
    · refine List.mem_cons_of_mem _ (List.mem_append_left _ (List.mem_append_left _ ?_))
      exact List.mem_map.mpr ⟨c, List.mem_filter.mpr ⟨hc, by rw [hs, h1]; rfl⟩, rfl⟩
    · refine List.mem_cons_of_mem _ (List.mem_append_right _ (List.mem_append_left _ ?_))
      exact List.mem_map.mpr ⟨c, List.mem_filter.mpr ⟨hc, by rw [hs, h2]; rfl⟩, rfl⟩

lemma add_position_slice_facts (g : Frame) (n : ℕ) (t : List PValue)
    (hlen : ∀ p ∈ g.cols, p.2.length = n)
    (hnd : g.names.Nodup)
    (ht : g.getCol (nm "time") = some t)
    (htlen : t.length = n)
    (hpat : ∀ c ∈ g.names, c = nm "time" ∨ c = nm "timestamp" ∨ c = nm "dt" ∨
      startsXYZ c = true ∨ startsFXYZ c = true) :
    (add_position_change_features g).2.getCol (nm "time") = some t ∧
    (∀ p ∈ (add_position_change_features g).2.cols, p.2.length = n) ∧
    (add_position_change_features g).2.names.Nodup ∧
    (∀ x ∈ (add_position_change_features g).2.names,
      x = nm "time" ∨ x.head? = some 'd') ∧
    nm "dt" ∉ (add_position_change_features g).2.names ∧
    (∀ c ∈ g.names, startsXYZ c = true →
      (endsOne ('d' :: c) || endsTwo ('d' :: c)) = true →
      ('d' :: c) ∈ (add_position_change_features g).2.names) := by
  have hgne : g.cols ≠ [] := cols_ne_nil_of_mem g (nm "time") (getCol_some_mem g _ t ht)
  have hrows : g.nRows = n := nRows_of_lengths g n hlen hgne
  have hfresh : ∀ c ∈ g.names, startsXYZ c = true → ('d' :: c) ∉ g.names := by
    intro c _ hs hmem
    rcases hpat _ hmem with h | h | h | h | h
    · exact ne_of_true_false (fun x => decide (x.head? = some 'd'))
        ('d' :: c) (nm "time") rfl rfl h
    · exact ne_of_true_false (fun x => decide (x.head? = some 'd'))
        ('d' :: c) (nm "timestamp") rfl rfl h
    · have hc : c = ['t'] := (List.cons_eq_cons.mp h).2
      rw [hc] at hs
      exact absurd hs (by decide)
    · rw [show startsXYZ ('d' :: c) = false from rfl] at h
      cases h
    · rw [show startsFXYZ ('d' :: c) = false from rfl] at h
      cases h
  have hr := posLoop_spec g.names g [] [] hnd hfresh
  rw [List.nil_append, List.nil_append] at hr
  have hout : (add_position_change_features g).2 =
      magSelect ⟨g.cols ++ (g.names.filter (fun c => startsXYZ c)).map
          (fun c => ('d' :: c, posSeries g c))⟩
        ((g.names.filter (fun c => startsXYZ c && endsOne ('d' :: c))).map
          (fun c => 'd' :: c))
        ((g.names.filter (fun c => startsXYZ c && endsTwo ('d' :: c))).map
          (fun c => 'd' :: c))
        (nm "d1") (nm "d2") := by
    simp only [add_position_change_features, hr, magSelect, magStage]
  have hnamesV : (⟨g.cols ++ (g.names.filter (fun c => startsXYZ c)).map
      (fun c => ('d' :: c, posSeries g c))⟩ : Frame).names =
      g.names ++ ((g.names.filter (fun c => startsXYZ c)).map (fun c => 'd' :: c)) := by
    unfold Frame.names
    rw [List.map_append, List.map_map]
    rfl
  have hlenV : ∀ p ∈ (⟨g.cols ++ (g.names.filter (fun c => startsXYZ c)).map
      (fun c => ('d' :: c, posSeries g c))⟩ : Frame).cols,
      p.2.length = n := by
    intro p hp
    rcases List.mem_append.mp hp with h | h
    · exact hlen p h
    · obtain ⟨c, hc, rfl⟩ := List.mem_map.mp h
      have hcn : c ∈ g.names := List.mem_of_mem_filter hc
      obtain ⟨vs, hvs⟩ := getCol_mem_exists g c hcn
      exact length_posSeries g c n vs hvs (getCol_length g n hlen c vs hvs)
  have hndV : (⟨g.cols ++ (g.names.filter (fun c => startsXYZ c)).map
      (fun c => ('d' :: c, posSeries g c))⟩ : Frame).names.Nodup := by
    rw [hnamesV]
    refine List.Nodup.append hnd (List.Nodup.map cons_d_injective (hnd.filter _)) ?_
    intro x hx hx2
    obtain ⟨c, hc, rfl⟩ := List.mem_map.mp hx2
    exact hfresh c (List.mem_of_mem_filter hc) (List.of_mem_filter hc) hx
  have htV : (⟨g.cols ++ (g.names.filter (fun c => startsXYZ c)).map
      (fun c => ('d' :: c, posSeries g c))⟩ : Frame).getCol (nm "time") =
      some t := getCol_mk_append_left g.cols _ _ t ht
  have hgneV : (⟨g.cols ++ (g.names.filter (fun c => startsXYZ c)).map
      (fun c => ('d' :: c, posSeries g c))⟩ : Frame).cols ≠ [] := by
    intro hc
    exact hgne (List.append_eq_nil.mp hc).1
  have hrowsV : (⟨g.cols ++ (g.names.filter (fun c => startsXYZ c)).map
      (fun c => ('d' :: c, posSeries g c))⟩ : Frame).nRows = n := by
    rw [nRows_mk_append _ _ hgne]
    exact hrows
  have hsubmem : ∀ q : Name → Bool, ∀ c ∈ g.names.filter (fun c => startsXYZ c && q c),
      ('d' :: c) ∈ (⟨g.cols ++ (g.names.filter (fun c => startsXYZ c)).map
        (fun c => ('d' :: c, posSeries g c))⟩ : Frame).names := by
    intro q c hc
    rw [hnamesV, List.mem_append]
    have h1 := List.mem_filter.mp hc
    have h2 := h1.2
    rw [Bool.and_eq_true] at h2
    exact Or.inr (List.mem_map.mpr ⟨c, List.mem_filter.mpr ⟨h1.1, h2.1⟩, rfl⟩)
  have hv1g : nm "d1" ∉ (⟨g.cols ++ (g.names.filter (fun c => startsXYZ c)).map
      (fun c => ('d' :: c, posSeries g c))⟩ : Frame).names := by
    rw [hnamesV]
    intro hc
    rcases List.mem_append.mp hc with h | h
    · rcases hpat _ h with h2 | h2 | h2 | h2 | h2
      · exact absurd h2 (by decide)
      · exact absurd h2 (by decide)
      · exact absurd h2 (by decide)
      · exact absurd h2 (by decide)
      · exact absurd h2 (by decide)
    · obtain ⟨c, hcf, hceq⟩ := List.mem_map.mp h
      have : c = ['1'] := (List.cons_eq_cons.mp hceq).2
      subst this
      exact absurd (List.of_mem_filter hcf) (by decide)
  have hv2g : nm "d2" ∉ (⟨g.cols ++ (g.names.filter (fun c => startsXYZ c)).map
      (fun c => ('d' :: c, posSeries g c))⟩ : Frame).names := by
    rw [hnamesV]
    intro hc
    rcases List.mem_append.mp hc with h | h
    · rcases hpat _ h with h2 | h2 | h2 | h2 | h2
      · exact absurd h2 (by decide)
      · exact absurd h2 (by decide)
      · exact absurd h2 (by decide)
      · exact absurd h2 (by decide)
      · exact absurd h2 (by decide)
    · obtain ⟨c, hcf, hceq⟩ := List.mem_map.mp h
      have : c = ['2'] := (List.cons_eq_cons.mp hceq).2
      subst this
      exact absurd (List.of_mem_filter hcf) (by decide)
  obtain ⟨f1, f2, f3, f4, f5, f6, f7⟩ := magSelect_facts
    ⟨g.cols ++ (g.names.filter (fun c => startsXYZ c)).map
      (fun c => ('d' :: c, posSeries g c))⟩ n t
    ((g.names.filter (fun c => startsXYZ c && endsOne ('d' :: c))).map (fun c => 'd' :: c))
    ((g.names.filter (fun c => startsXYZ c && endsTwo ('d' :: c))).map (fun c => 'd' :: c))
    (nm "d1") (nm "d2")
    hlenV hndV htV htlen hgneV hrowsV
    (by
      intro x hx
      obtain ⟨c, hc, rfl⟩ := List.mem_map.mp hx
      exact hsubmem _ c hc)
    (by
      intro x hx
      obtain ⟨c, hc, rfl⟩ := List.mem_map.mp hx
      exact hsubmem _ c hc)
    (List.Nodup.map cons_d_injective (hnd.filter _))
    (List.Nodup.map cons_d_injective (hnd.filter _))
    (by
      intro x hx hx2
      obtain ⟨c, hc, rfl⟩ := List.mem_map.mp hx
      obtain ⟨c2, hc2, hceq⟩ := List.mem_map.mp hx2
      have hcc : c2 = c := (List.cons_eq_cons.mp hceq).2
      subst hcc
      have e1 := List.of_mem_filter hc
      have e2 := List.of_mem_filter hc2
      rw [Bool.and_eq_true] at e1 e2
      rw [endsOne_not_endsTwo _ e1.2] at e2
      cases e2.2)
    (by
      intro hc
      obtain ⟨c, _, hceq⟩ := List.mem_map.mp hc
      exact ne_of_true_false (fun x => decide (x.head? = some 'd'))
        ('d' :: c) (nm "time") rfl rfl hceq)
    (by
      intro hc
      obtain ⟨c, _, hceq⟩ := List.mem_map.mp hc
      exact ne_of_true_false (fun x => decide (x.head? = some 'd'))
        ('d' :: c) (nm "time") rfl rfl hceq)
    hv1g hv2g (by decide) (by decide) (by decide)
  rw [hout]
  refine ⟨f1, f2, f3, ?_, ?_, ?_⟩
  · intro x hx
    rw [f4] at hx
    rcases List.mem_cons.mp hx with rfl | hx2
    · exact Or.inl rfl
    · rcases List.mem_append.mp hx2 with h | h
      · rcases List.mem_append.mp h with h2 | h2
        · obtain ⟨c, _, rfl⟩ := List.mem_map.mp h2
          exact Or.inr rfl
        · by_cases he : (g.names.filter (fun c => startsXYZ c && endsOne ('d' :: c))).map
              (fun c => 'd' :: c) = []
          · rw [if_pos he] at h2
            cases h2
          · rw [if_neg he] at h2
            rw [List.mem_singleton] at h2
            subst h2
            exact Or.inr rfl
      · rcases List.mem_append.mp h with h2 | h2
        · obtain ⟨c, _, rfl⟩ := List.mem_map.mp h2
          exact Or.inr rfl
        · by_cases he : (g.names.filter (fun c => startsXYZ c && endsTwo ('d' :: c))).map
              (fun c => 'd' :: c) = []
          · rw [if_pos he] at h2
            cases h2
          · rw [if_neg he] at h2
            rw [List.mem_singleton] at h2
            subst h2
            exact Or.inr rfl
  · rw [f4]
    intro hx
    rcases List.mem_cons.mp hx with h | hx2
    · exact absurd h (by decide)
    · rcases List.mem_append.mp hx2 with h | h
      · rcases List.mem_append.mp h with h2 | h2
        · obtain ⟨c, hcf, hceq⟩ := List.mem_map.mp h2
          have hc : c = ['t'] := (List.cons_eq_cons.mp hceq).2
          subst hc
          have := List.of_mem_filter hcf
          rw [Bool.and_eq_true] at this
          exact absurd this.1 (by decide)
        · by_cases he : (g.names.filter (fun c => startsXYZ c && endsOne ('d' :: c))).map
              (fun c => 'd' :: c) = []
          · rw [if_pos he] at h2
            cases h2
          · rw [if_neg he] at h2
            rw [List.mem_singleton] at h2
            exact absurd h2 (by decide)
      · rcases List.mem_append.mp h with h2 | h2
        · obtain ⟨c, hcf, hceq⟩ := List.mem_map.mp h2
          have hc : c = ['t'] := (List.cons_eq_cons.mp hceq).2
          subst hc
          have := List.of_mem_filter hcf
          rw [Bool.and_eq_true] at this
          exact absurd this.1 (by decide)
        · by_cases he : (g.names.filter (fun c => startsXYZ c && endsTwo ('d' :: c))).map
              (fun c => 'd' :: c) = []
          · rw [if_pos he] at h2
            cases h2
          · rw [if_neg he] at h2
            rw [List.mem_singleton] at h2
            exact absurd h2 (by decide)
  · intro c hc hs hg
    rw [f4]
    rw [Bool.or_eq_true] at hg
    rcases hg with h1 | h2
    · refine List.mem_cons_of_mem _ (List.mem_append_left _ (List.mem_append_left _ ?_))
      exact List.mem_map.mpr ⟨c, List.mem_filter.mpr ⟨hc, by rw [hs, h1]; rfl⟩, rfl⟩
    · refine List.mem_cons_of_mem _ (List.mem_append_right _ (List.mem_append_left _ ?_))
      exact List.mem_map.mpr ⟨c, List.mem_filter.mpr ⟨hc, by rw [hs, h2]; rfl⟩, rfl⟩

lemma endsOne_cons (ch : Char) (b : Char) (l : List Char) :
    endsOne (ch :: b :: l) = endsOne (b :: l) := by
  unfold endsOne
  rw [List.getLast?_cons_cons]

lemma endsTwo_cons (ch : Char) (b : Char) (l : List Char) :
    endsTwo (ch :: b :: l) = endsTwo (b :: l) := by
  unfold endsTwo
  rw [List.getLast?_cons_cons]

lemma optSetCol_facts (gB : Frame) (n : ℕ) (t : List PValue) (L : List Name) (a : Name)
    (hlen : ∀ p ∈ gB.cols, p.2.length = n)
    (ht : gB.getCol (nm "time") = some t)
    (hgne : gB.cols ≠ [])
    (hrows : gB.nRows = n)
    (ha : a ∉ gB.names)
    (hta : nm "time" ≠ a) :
    ∃ e, (if L = [] then gB else gB.setCol a (get_vector_total gB L)).cols = gB.cols ++ e ∧
      (∀ p ∈ (if L = [] then gB else gB.setCol a (get_vector_total gB L)).cols,
        p.2.length = n) ∧
      (if L = [] then gB else gB.setCol a (get_vector_total gB L)).getCol (nm "time") =
        some t ∧
      (if L = [] then gB else gB.setCol a (get_vector_total gB L)).cols ≠ [] ∧
      (if L = [] then gB else gB.setCol a (get_vector_total gB L)).nRows = n ∧
      (∀ x ∈ gB.names,
        x ∈ (if L = [] then gB else gB.setCol a (get_vector_total gB L)).names) ∧
      (∀ x ∈ (if L = [] then gB else gB.setCol a (get_vector_total gB L)).names,
        x ∈ gB.names ∨ x = a) := by
  by_cases hL : L = []
  · rw [if_pos hL]
    exact ⟨[], by simp, hlen, ht, hgne, hrows, fun x hx => hx, fun x hx => Or.inl hx⟩
  · rw [if_neg hL]
    obtain ⟨heq, hget, hself, hnames, hrowsp⟩ :=
      setCol_fresh gB a (get_vector_total gB L) ha
    refine ⟨[(a, get_vector_total gB L)], by rw [heq], ?_, ?_, ?_, ?_, ?_, ?_⟩
    · apply setCol_fresh_lengths gB a _ n ha hlen
      rw [length_gvt, hrows]
    · rw [hget _ hta]
      exact ht
    · rw [heq]
      intro hc
      exact hgne (List.append_eq_nil.mp hc).1
    · rw [hrowsp hgne]
      exact hrows
    · intro x hx
      rw [hnames]
      exact List.mem_append_left _ hx
    · intro x hx
      rw [hnames] at hx
      rcases List.mem_append.mp hx with h | h
      · exact Or.inl h
      · rw [List.mem_singleton] at h
        exact Or.inr h

set_option maxHeartbeats 1000000 in
lemma add_acceleration_facts (g : Frame) (n : ℕ) (t ds : List PValue)
    (hlen : ∀ p ∈ g.cols, p.2.length = n)
    (hnd : g.names.Nodup)
    (ht : g.getCol (nm "time") = some t)
    (hdt : g.getCol (nm "dt") = some ds) (hds : ds.length = n)
    (hnoA : ∀ x ∈ g.names, x.head? ≠ some 'a') :
    (∃ extra, (add_acceleration_features g).cols = g.cols ++ extra) ∧
    (∀ p ∈ (add_acceleration_features g).cols, p.2.length = n) ∧
    (add_acceleration_features g).getCol (nm "time") = some t ∧
    (∀ x ∈ g.names, x ∈ (add_acceleration_features g).names) ∧
    (∀ c ∈ g.names, startsVXYZ c = true →
      ('a' :: c.drop 1) ∈ (add_acceleration_features g).names) := by
  have hgne : g.cols ≠ [] := cols_ne_nil_of_mem g (nm "time") (getCol_some_mem g _ t ht)
  have hrows : g.nRows = n := nRows_of_lengths g n hlen hgne
  have hfresh : ∀ c ∈ g.names, startsVXYZ c = true → ('a' :: c.drop 1) ∉ g.names := by
    intro c _ _ hmem
    exact hnoA _ hmem rfl
  have hr := accLoop_spec g.names g [] [] hnd hfresh
  rw [List.nil_append, List.nil_append] at hr
  have hout : add_acceleration_features g =
      (if (g.names.filter (fun c => startsVXYZ c && endsTwo ('a' :: c.drop 1))).map
          (fun c => 'a' :: c.drop 1) = [] then
        (if (g.names.filter (fun c => startsVXYZ c && endsOne ('a' :: c.drop 1))).map
            (fun c => 'a' :: c.drop 1) = [] then
          (⟨g.cols ++ (g.names.filter (fun c => startsVXYZ c)).map
            (fun c => ('a' :: c.drop 1, get_variable_change_over_time g c))⟩ : Frame)
        else
          (⟨g.cols ++ (g.names.filter (fun c => startsVXYZ c)).map
            (fun c => ('a' :: c.drop 1, get_variable_change_over_time g c))⟩ : Frame).setCol
            (nm "a1")
            (get_vector_total
              ⟨g.cols ++ (g.names.filter (fun c => startsVXYZ c)).map
                (fun c => ('a' :: c.drop 1, get_variable_change_over_time g c))⟩
              ((g.names.filter (fun c => startsVXYZ c && endsOne ('a' :: c.drop 1))).map
                (fun c => 'a' :: c.drop 1))))
      else
        (if (g.names.filter (fun c => startsVXYZ c && endsOne ('a' :: c.drop 1))).map
            (fun c => 'a' :: c.drop 1) = [] then
          (⟨g.cols ++ (g.names.filter (fun c => startsVXYZ c)).map
            (fun c => ('a' :: c.drop 1, get_variable_change_over_time g c))⟩ : Frame)
        else
          (⟨g.cols ++ (g.names.filter (fun c => startsVXYZ c)).map
            (fun c => ('a' :: c.drop 1, get_variable_change_over_time g c))⟩ : Frame).setCol
            (nm "a1")
            (get_vector_total
              ⟨g.cols ++ (g.names.filter (fun c => startsVXYZ c)).map
                (fun c => ('a' :: c.drop 1, get_variable_change_over_time g c))⟩
              ((g.names.filter (fun c => startsVXYZ c && endsOne ('a' :: c.drop 1))).map
                (fun c => 'a' :: c.drop 1)))).setCol
          (nm "a2")
          (get_vector_total
            (if (g.names.filter (fun c => startsVXYZ c && endsOne ('a' :: c.drop 1))).map
                (fun c => 'a' :: c.drop 1) = [] then
              (⟨g.cols ++ (g.names.filter (fun c => startsVXYZ c)).map
                (fun c => ('a' :: c.drop 1, get_variable_change_over_time g c))⟩ : Frame)
            else
              (⟨g.cols ++ (g.names.filter (fun c => startsVXYZ c)).map
                (fun c => ('a' :: c.drop 1, get_variable_change_over_time g c))⟩ :
                  Frame).setCol
                (nm "a1")
                (get_vector_total
                  ⟨g.cols ++ (g.names.filter (fun c => startsVXYZ c)).map
                    (fun c => ('a' :: c.drop 1, get_variable_change_over_time g c))⟩
                  ((g.names.filter
                      (fun c => startsVXYZ c && endsOne ('a' :: c.drop 1))).map
                    (fun c => 'a' :: c.drop 1))))
            ((g.names.filter (fun c => startsVXYZ c && endsTwo ('a' :: c.drop 1))).map
              (fun c => 'a' :: c.drop 1)))) := by
    simp only [add_acceleration_features, hr]
  have hnamesA : (⟨g.cols ++ (g.names.filter (fun c => startsVXYZ c)).map
      (fun c => ('a' :: c.drop 1, get_variable_change_over_time g c))⟩ : Frame).names =
      g.names ++ ((g.names.filter (fun c => startsVXYZ c)).map (fun c => 'a' :: c.drop 1)) := by
    unfold Frame.names
    rw [List.map_append, List.map_map]
    rfl
  have hlenA : ∀ p ∈ (⟨g.cols ++ (g.names.filter (fun c => startsVXYZ c)).map
      (fun c => ('a' :: c.drop 1, get_variable_change_over_time g c))⟩ : Frame).cols,
      p.2.length = n := by
    intro p hp
    rcases List.mem_append.mp hp with h | h
    · exact hlen p h
    · obtain ⟨c, hc, rfl⟩ := List.mem_map.mp h
      have hcn : c ∈ g.names := List.mem_of_mem_filter hc
      obtain ⟨vs, hvs⟩ := getCol_mem_exists g c hcn
      exact length_gvcot g c n vs ds hvs (getCol_length g n hlen c vs hvs) hdt hds
  have htA : (⟨g.cols ++ (g.names.filter (fun c => startsVXYZ c)).map
      (fun c => ('a' :: c.drop 1, get_variable_change_over_time g c))⟩ : Frame).getCol
      (nm "time") = some t := getCol_mk_append_left g.cols _ _ t ht
  have hgneA : (⟨g.cols ++ (g.names.filter (fun c => startsVXYZ c)).map
      (fun c => ('a' :: c.drop 1, get_variable_change_over_time g c))⟩ : Frame).cols ≠ [] := by
    intro hc
    exact hgne (List.append_eq_nil.mp hc).1
  have hrowsA : (⟨g.cols ++ (g.names.filter (fun c => startsVXYZ c)).map
      (fun c => ('a' :: c.drop 1, get_variable_change_over_time g c))⟩ : Frame).nRows = n := by
    rw [nRows_mk_append _ _ hgne]
    exact hrows
  have ha1A : nm "a1" ∉ (⟨g.cols ++ (g.names.filter (fun c => startsVXYZ c)).map
      (fun c => ('a' :: c.drop 1, get_variable_change_over_time g c))⟩ : Frame).names := by
    rw [hnamesA]
    intro hc
    rcases List.mem_append.mp hc with h | h
    · exact hnoA _ h rfl
    · obtain ⟨c, hcf, hceq⟩ := List.mem_map.mp h
      obtain ⟨rest, hc3 | hc3 | hc3⟩ := startsVXYZ_shape c (List.of_mem_filter hcf)
      all_goals
        subst hc3
        exact absurd (List.cons_eq_cons.mp ((List.cons_eq_cons.mp hceq).2)).1 (by decide)
  have ha2A : nm "a2" ∉ (⟨g.cols ++ (g.names.filter (fun c => startsVXYZ c)).map
      (fun c => ('a' :: c.drop 1, get_variable_change_over_time g c))⟩ : Frame).names := by
    rw [hnamesA]
    intro hc
    rcases List.mem_append.mp hc with h | h
    · exact hnoA _ h rfl
    · obtain ⟨c, hcf, hceq⟩ := List.mem_map.mp h
      obtain ⟨rest, hc3 | hc3 | hc3⟩ := startsVXYZ_shape c (List.of_mem_filter hcf)
      all_goals
        subst hc3
        exact absurd (List.cons_eq_cons.mp ((List.cons_eq_cons.mp hceq).2)).1 (by decide)
  have hmemA : ∀ c ∈ g.names, startsVXYZ c = true → ('a' :: c.drop 1) ∈
      (⟨g.cols ++ (g.names.filter (fun c => startsVXYZ c)).map
        (fun c => ('a' :: c.drop 1, get_variable_change_over_time g c))⟩ : Frame).names := by
    intro c hc hsv
    rw [hnamesA]
    exact List.mem_append_right _
      (List.mem_map.mpr ⟨c, List.mem_filter.mpr ⟨hc, hsv⟩, rfl⟩)
  obtain ⟨e1, hc1, hl1, ht1, hne1, hrows1, hsup1, hmem1⟩ :=
    optSetCol_facts
      ⟨g.cols ++ (g.names.filter (fun c => startsVXYZ c)).map
        (fun c => ('a' :: c.drop 1, get_variable_change_over_time g c))⟩ n t
      ((g.names.filter (fun c => startsVXYZ c && endsOne ('a' :: c.drop 1))).map
        (fun c => 'a' :: c.drop 1))
      (nm "a1") hlenA htA hgneA hrowsA ha1A (by decide)
  rw [hout]
  generalize hF : (if (g.names.filter
      (fun c => startsVXYZ c && endsOne ('a' :: c.drop 1))).map
        (fun c => 'a' :: c.drop 1) = [] then
      (⟨g.cols ++ (g.names.filter (fun c => startsVXYZ c)).map
        (fun c => ('a' :: c.drop 1, get_variable_change_over_time g c))⟩ : Frame)
    else
      (⟨g.cols ++ (g.names.filter (fun c => startsVXYZ c)).map
        (fun c => ('a' :: c.drop 1, get_variable_change_over_time g c))⟩ : Frame).setCol
        (nm "a1")
        (get_vector_total
          ⟨g.cols ++ (g.names.filter (fun c => startsVXYZ c)).map
            (fun c => ('a' :: c.drop 1, get_variable_change_over_time g c))⟩
          ((g.names.filter (fun c => startsVXYZ c && endsOne ('a' :: c.drop 1))).map
            (fun c => 'a' :: c.drop 1)))) = F
    at hc1 hl1 ht1 hne1 hrows1 hsup1 hmem1 ⊢
  have ha2d : nm "a2" ∉ F.names := by
    intro hx
    rcases hmem1 _ hx with h | h
    · exact ha2A h
    · exact absurd h (by decide)
  obtain ⟨e2, hc2, hl2, ht2, hne2, hrows2, hsup2, hmem2⟩ :=
    optSetCol_facts F n t
      ((g.names.filter (fun c => startsVXYZ c && endsTwo ('a' :: c.drop 1))).map
        (fun c => 'a' :: c.drop 1))
      (nm "a2") hl1 ht1 hne1 hrows1 ha2d (by decide)
  refine ⟨⟨(g.names.filter (fun c => startsVXYZ c)).map
      (fun c => ('a' :: c.drop 1, get_variable_change_over_time g c)) ++ e1 ++ e2, ?_⟩,
    hl2, ht2, ?_, ?_⟩
  · rw [hc2, hc1]
    simp only [List.append_assoc]
  · intro x hx
    refine hsup2 _ (hsup1 _ ?_)
    rw [hnamesA]
    exact List.mem_append_left _ hx
  · intro c hc hsv
    exact hsup2 _ (hsup1 _ (hmemA c hc hsv))

lemma merged_facts (a b : Frame) (n : ℕ) (t : List PValue)
    (hna : ∀ p ∈ a.cols, p.2.length = n)
    (hnb : ∀ p ∈ b.cols, p.2.length = n)
    (hnda : a.names.Nodup) (hndb : b.names.Nodup)
    (hta : a.getCol (nm "time") = some t) (htb : b.getCol (nm "time") = some t)
    (htn : t.Nodup) (htlen : t.length = n)
    (hcommon : ∀ c ∈ a.names, c ∈ b.names → a.getCol c = b.getCol c) :
    (merge a b).getCol (nm "time") = some t ∧
    (∀ p ∈ (merge a b).cols, p.2.length = n) ∧
    (merge a b).names.Nodup ∧
    (merge a b).nRows = n ∧
    (∀ x, x ∈ (merge a b).names ↔ x ∈ a.names ∨ x ∈ b.names) ∧
    (∀ c ∈ a.names, (merge a b).getCol c = a.getCol c) ∧
    (∀ c, c ∉ a.names → (merge a b).getCol c = b.getCol c) ∧
    (∃ extra, (merge a b).cols = a.cols ++ extra) := by
  have hgnea : a.cols ≠ [] := cols_ne_nil_of_mem a (nm "time") (getCol_some_mem a _ t hta)
  have hgneb : b.cols ≠ [] := cols_ne_nil_of_mem b (nm "time") (getCol_some_mem b _ t htb)
  have hrowsa : a.nRows = n := nRows_of_lengths a n hna hgnea
  have hrowsb : b.nRows = n := nRows_of_lengths b n hnb hgneb
  have hm := merge_spec a b n t hna hnb hnda hndb hta htb htn htlen hrowsa hrowsb hcommon
  rw [hm]
  refine ⟨?_, merged_lengths a b n hna hnb, merged_names_nodup a b hnda hndb, ?_,
    fun x => merged_names_mem a b x, ?_, ?_, ⟨_, rfl⟩⟩
  · rw [merged_getCol_left a b _ (getCol_some_mem a _ t hta)]
    exact hta
  · refine nRows_of_lengths _ n (merged_lengths a b n hna hnb) ?_
    intro hc
    exact hgnea (List.append_eq_nil.mp hc).1
  · intro c hc
    exact merged_getCol_left a b c hc
  · intro c hc
    exact merged_getCol_right a b c hc

/-- C3: on a gap-filled run frame (a time column with distinct stamps plus
position and force columns), add_engineered_features keeps exactly the rows of
its input — the row count and the time column are unchanged — retains every
original column with its values, and appends the derived columns (timestamp,
dt and the velocity / position-delta / acceleration families) after them. -/
theorem C3_engineered_features_appends (df : Frame) (n : ℕ) (t : List PValue)
    (hlen : ∀ p ∈ df.cols, p.2.length = n)
    (hnd : df.names.Nodup)
    (ht : df.getCol (nm "time") = some t)
    (htn : t.Nodup)
    (hpat : ∀ c ∈ df.names, c = nm "time" ∨ startsXYZ c = true ∨ startsFXYZ c = true) :
    (add_engineered_features df).getCol (nm "time") = some t ∧
    (∀ p ∈ (add_engineered_features df).cols, p.2.length = n) ∧
    (add_engineered_features df).nRows = n ∧
    (∃ extra, (add_engineered_features df).cols = df.cols ++ extra) ∧
    (∀ c ∈ df.names, (add_engineered_features df).getCol c = df.getCol c) ∧
    nm "timestamp" ∈ (add_engineered_features df).names ∧
    nm "dt" ∈ (add_engineered_features df).names ∧
    (∀ c ∈ df.names, startsXYZ c = true → (endsOne c || endsTwo c) = true →
      ('v' :: c) ∈ (add_engineered_features df).names ∧
      ('d' :: c) ∈ (add_engineered_features df).names ∧
      ('a' :: c) ∈ (add_engineered_features df).names) := by
  have htlen : t.length = n := getCol_length df n hlen _ t ht
  have hdfgne : df.cols ≠ [] := cols_ne_nil_of_mem df (nm "time") (getCol_some_mem df _ t ht)
  have htsdf : nm "timestamp" ∉ df.names := by
    intro h
    rcases hpat _ h with h2 | h2 | h2
    · exact absurd h2 (by decide)
    · exact absurd h2 (by decide)
    · exact absurd h2 (by decide)
  have hdtdf : nm "dt" ∉ df.names := by
    intro h
    rcases hpat _ h with h2 | h2 | h2
    · exact absurd h2 (by decide)
    · exact absurd h2 (by decide)
    · exact absurd h2 (by decide)
  obtain ⟨hAeq, hAget, hAself, hAnames, hArows⟩ := setCol_fresh df (nm "timestamp") t htsdf
  have hlenA := setCol_fresh_lengths df (nm "timestamp") t n htsdf hlen htlen
  have hndA := setCol_fresh_nodup df (nm "timestamp") t htsdf hnd
  have htA : (df.setCol (nm "timestamp") t).getCol (nm "time") = some t := by
    rw [hAget _ (by decide)]
    exact ht
  have hdtA : nm "dt" ∉ (df.setCol (nm "timestamp") t).names := by
    rw [hAnames]
    intro h
    rcases List.mem_append.mp h with h2 | h2
    · exact hdtdf h2
    · rw [List.mem_singleton] at h2
      exact absurd h2 (by decide)
  have hdslen : (seriesSub t (shift1 t)).length = n := by
    simp [seriesSub, List.length_zipWith, length_shift1, htlen]
  obtain ⟨hBeq, hBget, hBself, hBnames, hBrows⟩ :=
    setCol_fresh (df.setCol (nm "timestamp") t) (nm "dt") (seriesSub t (shift1 t)) hdtA
  have hlenB := setCol_fresh_lengths (df.setCol (nm "timestamp") t) (nm "dt")
    (seriesSub t (shift1 t)) n hdtA hlenA hdslen
  have hndB := setCol_fresh_nodup (df.setCol (nm "timestamp") t) (nm "dt")
    (seriesSub t (shift1 t)) hdtA hndA
  have htB : ((df.setCol (nm "timestamp") t).setCol (nm "dt")
      (seriesSub t (shift1 t))).getCol (nm "time") = some t := by
    rw [hBget _ (by decide)]
    exact htA
  set B := (df.setCol (nm "timestamp") t).setCol (nm "dt") (seriesSub t (shift1 t))
    with hBdef
  have hcolsB : B.cols =
      df.cols ++ ([(nm "timestamp", t)] ++ [(nm "dt", seriesSub t (shift1 t))]) := by
    rw [hBeq, hAeq]
    simp [List.append_assoc]
  have hmemB : ∀ x, x ∈ B.names ↔
      x ∈ df.names ∨ x = nm "timestamp" ∨ x = nm "dt" := by
    intro x
    rw [hBnames, hAnames]
    constructor
    · intro h
      rcases List.mem_append.mp h with h2 | h2
      · rcases List.mem_append.mp h2 with h3 | h3
        · exact Or.inl h3
        · rw [List.mem_singleton] at h3
          exact Or.inr (Or.inl h3)
      · rw [List.mem_singleton] at h2
        exact Or.inr (Or.inr h2)
    · rintro (h | h | h)
      · exact List.mem_append_left _ (List.mem_append_left _ h)
      · exact List.mem_append_left _ (List.mem_append_right _ (List.mem_singleton.mpr h))
      · exact List.mem_append_right _ (List.mem_singleton.mpr h)
  have hpatB : ∀ c ∈ B.names, c = nm "time" ∨ c = nm "timestamp" ∨ c = nm "dt" ∨
      startsXYZ c = true ∨ startsFXYZ c = true := by
    intro c hc
    rcases (hmemB c).mp hc with h | h | h
    · rcases hpat _ h with h2 | h2 | h2
      · exact Or.inl h2
      · exact Or.inr (Or.inr (Or.inr (Or.inl h2)))
      · exact Or.inr (Or.inr (Or.inr (Or.inr h2)))
    · exact Or.inr (Or.inl h)
    · exact Or.inr (Or.inr (Or.inl h))
  have hf1B : nm "f1" ∉ B.names := by
    intro h
    rcases hpatB _ h with h2 | h2 | h2 | h2 | h2
    · exact absurd h2 (by decide)
    · exact absurd h2 (by decide)
    · exact absurd h2 (by decide)
    · exact absurd h2 (by decide)
    · exact absurd h2 (by decide)
  have hf2B : nm "f2" ∉ B.names := by
    intro h
    rcases hpatB _ h with h2 | h2 | h2 | h2 | h2
    · exact absurd h2 (by decide)
    · exact absurd h2 (by decide)
    · exact absurd h2 (by decide)
    · exact absurd h2 (by decide)
    · exact absurd h2 (by decide)
  obtain ⟨vtime, vlen, vnd, vshape, vgrp⟩ :=
    add_velocity_slice_facts B n t (seriesSub t (shift1 t)) hlenB hndB htB htlen hBself
      hdslen hpatB
  obtain ⟨fnames, fkeep, ff1, ff2, ftime, flen, fnd⟩ :=
    add_total_force_spec B n t hlenB hndB htB hf1B hf2B
  obtain ⟨ptime, plen, pnd, pshape, pdtnot, pgrp⟩ :=
    add_position_slice_facts B n t hlenB hndB htB htlen hpatB
  have fshape : ∀ x ∈ (add_total_force_features B).2.names,
      x = nm "time" ∨ x.head? = some 'f' := by
    intro x hx
    rw [fnames] at hx
    rcases List.mem_cons.mp hx with rfl | hx2
    · exact Or.inl rfl
    · right
      rcases List.mem_append.mp hx2 with h | h
      · rcases List.mem_append.mp h with h2 | h2
        · unfold forceGroupOne at h2
          have hs := List.of_mem_filter h2
          rw [Bool.and_eq_true] at hs
          obtain ⟨rest, hc | hc | hc⟩ := startsFXYZ_shape x hs.1
          all_goals (subst hc; rfl)
        · split at h2
          · cases h2
          · rw [List.mem_singleton] at h2
            subst h2
            rfl
      · rcases List.mem_append.mp h with h2 | h2
        · unfold forceGroupTwo at h2
          have hs := List.of_mem_filter h2
          rw [Bool.and_eq_true] at hs
          obtain ⟨rest, hc | hc | hc⟩ := startsFXYZ_shape x hs.1
          all_goals (subst hc; rfl)
        · split at h2
          · cases h2
          · rw [List.mem_singleton] at h2
            subst h2
            rfl
  have hcommonVF : ∀ c ∈ (add_velocity_features B).2.names,
      c ∈ (add_total_force_features B).2.names →
      (add_velocity_features B).2.getCol c = (add_total_force_features B).2.getCol c := by
    intro c h1 h2
    rcases vshape c h1 with rfl | hv
    · rw [vtime, ftime]
    · exfalso
      rcases fshape c h2 with rfl | hf
      · exact absurd hv (by decide)
      · rw [hv] at hf
        exact absurd hf (by decide)
  obtain ⟨m1time, m1len, m1nd, m1rows, m1mem, m1left, m1right, m1cols⟩ :=
    merged_facts _ _ n t vlen flen vnd fnd vtime ftime htn htlen hcommonVF
  have m1shape : ∀ x ∈ (merge (add_velocity_features B).2
      (add_total_force_features B).2).names,
      x = nm "time" ∨ x.head? = some 'v' ∨ x.head? = some 'f' := by
    intro x hx
    rcases (m1mem x).mp hx with h | h
    · rcases vshape x h with h2 | h2
      · exact Or.inl h2
      · exact Or.inr (Or.inl h2)
    · rcases fshape x h with h2 | h2
      · exact Or.inl h2
      · exact Or.inr (Or.inr h2)
  have hcommonM1P : ∀ c ∈ (merge (add_velocity_features B).2
      (add_total_force_features B).2).names,
      c ∈ (add_position_change_features B).2.names →
      (merge (add_velocity_features B).2 (add_total_force_features B).2).getCol c =
        (add_position_change_features B).2.getCol c := by
    intro c h1 h2
    rcases m1shape c h1 with rfl | hv | hf
    · rw [m1time, ptime]
    · exfalso
      rcases pshape c h2 with rfl | hd
      · exact absurd hv (by decide)
      · rw [hv] at hd
        exact absurd hd (by decide)
    · exfalso
      rcases pshape c h2 with rfl | hd
      · exact absurd hf (by decide)
      · rw [hf] at hd
        exact absurd hd (by decide)
  obtain ⟨m2time, m2len, m2nd, m2rows, m2mem, m2left, m2right, m2cols⟩ :=
    merged_facts _ _ n t m1len plen m1nd pnd m1time ptime htn htlen hcommonM1P
  have m2shape : ∀ x ∈ (merge (merge (add_velocity_features B).2
      (add_total_force_features B).2) (add_position_change_features B).2).names,
      x = nm "time" ∨ x.head? = some 'v' ∨ x.head? = some 'f' ∨ x.head? = some 'd' := by
    intro x hx
    rcases (m2mem x).mp hx with h | h
    · rcases m1shape x h with h2 | h2 | h2
      · exact Or.inl h2
      · exact Or.inr (Or.inl h2)
      · exact Or.inr (Or.inr (Or.inl h2))
    · rcases pshape x h with h2 | h2
      · exact Or.inl h2
      · exact Or.inr (Or.inr (Or.inr h2))
  have m2dtnot : nm "dt" ∉ (merge (merge (add_velocity_features B).2
      (add_total_force_features B).2) (add_position_change_features B).2).names := by
    intro hx
    rcases (m2mem _).mp hx with h | h
    · rcases m1shape _ h with h2 | h2 | h2
      · exact absurd h2 (by decide)
      · exact absurd h2 (by decide)
      · exact absurd h2 (by decide)
    · exact pdtnot h
  have hcommonBM2 : ∀ c ∈ B.names,
      c ∈ (merge (merge (add_velocity_features B).2
        (add_total_force_features B).2) (add_position_change_features B).2).names →
      B.getCol c = (merge (merge (add_velocity_features B).2
        (add_total_force_features B).2) (add_position_change_features B).2).getCol c := by
    intro c h1 h2
    rcases hpatB c h1 with rfl | rfl | rfl | hx | hf
    · rw [htB, m2time]
    · exfalso
      rcases m2shape _ h2 with h3 | h3 | h3 | h3
      · exact absurd h3 (by decide)
      · exact absurd h3 (by decide)
      · exact absurd h3 (by decide)
      · exact absurd h3 (by decide)
    · exact absurd h2 m2dtnot
    · exfalso
      obtain ⟨rest, hc3 | hc3 | hc3⟩ := startsXYZ_shape c hx
      all_goals
        subst hc3
        rcases m2shape _ h2 with h3 | h3 | h3 | h3
        · exact absurd (List.cons_eq_cons.mp h3).1 (by decide)
        · rw [List.head?_cons] at h3
          exact absurd (Option.some.inj h3) (by decide)
        · rw [List.head?_cons] at h3
          exact absurd (Option.some.inj h3) (by decide)
        · rw [List.head?_cons] at h3
          exact absurd (Option.some.inj h3) (by decide)
    · have hcvdf : c ∉ (add_velocity_features B).2.names := by
        intro hcv
        rcases vshape c hcv with rfl | hv
        · exact absurd hf (by decide)
        · obtain ⟨rest, hc3 | hc3 | hc3⟩ := startsFXYZ_shape c hf
          all_goals
            subst hc3
            rw [List.head?_cons] at hv
            exact absurd (Option.some.inj hv) (by decide)
      have hcpdf : c ∉ (add_position_change_features B).2.names := by
        intro hcp
        rcases pshape c hcp with rfl | hd
        · exact absurd hf (by decide)
        · obtain ⟨rest, hc3 | hc3 | hc3⟩ := startsFXYZ_shape c hf
          all_goals
            subst hc3
            rw [List.head?_cons] at hd
            exact absurd (Option.some.inj hd) (by decide)
      have hcM1 : c ∈ (merge (add_velocity_features B).2
          (add_total_force_features B).2).names := by
        rcases (m2mem c).mp h2 with h3 | h3
        · exact h3
        · exact absurd h3 hcpdf
      have hcadf : c ∈ (add_total_force_features B).2.names := by
        rcases (m1mem c).mp hcM1 with h3 | h3
        · exact absurd h3 hcvdf
        · exact h3
      have hcgrp : c ∈ forceGroupOne B ++ forceGroupTwo B := by
        rw [fnames] at hcadf
        rcases List.mem_cons.mp hcadf with h3 | h3
        · subst h3
          exact absurd hf (by decide)
        · rcases List.mem_append.mp h3 with h4 | h4
          · rcases List.mem_append.mp h4 with h5 | h5
            · exact List.mem_append_left _ h5
            · split at h5
              · cases h5
              · rw [List.mem_singleton] at h5
                subst h5
                exact absurd hf (by decide)
          · rcases List.mem_append.mp h4 with h5 | h5
            · exact List.mem_append_right _ h5
            · split at h5
              · cases h5
              · rw [List.mem_singleton] at h5
                subst h5
                exact absurd hf (by decide)
      rw [m2left c hcM1, m1right c hcvdf, fkeep c hcgrp]
  obtain ⟨m3time, m3len, m3nd, m3rows, m3mem, m3left, m3right, m3cols⟩ :=
    merged_facts _ _ n t hlenB m2len hndB m2nd htB m2time htn htlen hcommonBM2
  have hdtmemB : nm "dt" ∈ B.names := (hmemB _).mpr (Or.inr (Or.inr rfl))
  have htsmemB : nm "timestamp" ∈ B.names := (hmemB _).mpr (Or.inr (Or.inl rfl))
  have hdtM3 : (merge B (merge (merge (add_velocity_features B).2
      (add_total_force_features B).2) (add_position_change_features B).2)).getCol
      (nm "dt") = some (seriesSub t (shift1 t)) := by
    rw [m3left _ hdtmemB]
    exact hBself
  have hnoAM3 : ∀ x ∈ (merge B (merge (merge (add_velocity_features B).2
      (add_total_force_features B).2) (add_position_change_features B).2)).names,
      x.head? ≠ some 'a' := by
    intro x hx
    rcases (m3mem x).mp hx with h | h
    · rcases hpatB x h with rfl | rfl | rfl | h2 | h2
      · decide
      · decide
      · decide
      · obtain ⟨rest, hc3 | hc3 | hc3⟩ := startsXYZ_shape x h2
        all_goals
          subst hc3
          rw [List.head?_cons]
          intro hh
          exact absurd (Option.some.inj hh) (by decide)
      · obtain ⟨rest, hc3 | hc3 | hc3⟩ := startsFXYZ_shape x h2
        all_goals
          subst hc3
          rw [List.head?_cons]
          intro hh
          exact absurd (Option.some.inj hh) (by decide)
    · rcases m2shape x h with rfl | h2 | h2 | h2
      · decide
      · intro hh
        rw [h2] at hh
        exact absurd hh (by decide)
      · intro hh
        rw [h2] at hh
        exact absurd hh (by decide)
      · intro hh
        rw [h2] at hh
        exact absurd hh (by decide)
  obtain ⟨⟨extraA, hcolsA⟩, alen, atime, asup, agrp⟩ :=
    add_acceleration_facts _ n t (seriesSub t (shift1 t)) m3len m3nd m3time hdtM3
      hdslen hnoAM3
  obtain ⟨extraM, hm3c⟩ := m3cols
  have hout : add_engineered_features df =
      add_acceleration_features (merge B (merge (merge (add_velocity_features B).2
        (add_total_force_features B).2) (add_position_change_features B).2)) := by
    rw [hBdef]
    unfold add_engineered_features
    rw [ht]
    rfl
  have hcolsOut : (add_acceleration_features (merge B (merge (merge
      (add_velocity_features B).2 (add_total_force_features B).2)
      (add_position_change_features B).2))).cols =
      df.cols ++ ((([(nm "timestamp", t)] ++ [(nm "dt", seriesSub t (shift1 t))]) ++
        extraM) ++ extraA) := by
    rw [hcolsA, hm3c, hcolsB]
    simp only [List.append_assoc]
  have hgneOut : (add_acceleration_features (merge B (merge (merge
      (add_velocity_features B).2 (add_total_force_features B).2)
      (add_position_change_features B).2))).cols ≠ [] := by
    rw [hcolsOut]
    intro h
    exact hdfgne (List.append_eq_nil.mp h).1
  rw [hout]
  refine ⟨atime, alen, nRows_of_lengths _ n alen hgneOut, ⟨_, hcolsOut⟩, ?_,
    asup _ ((m3mem _).mpr (Or.inl htsmemB)),
    asup _ ((m3mem _).mpr (Or.inl hdtmemB)), ?_⟩
  · intro c hc
    obtain ⟨vs, hvs⟩ := getCol_mem_exists df c hc
    have houtmk : add_acceleration_features (merge B (merge (merge
        (add_velocity_features B).2 (add_total_force_features B).2)
        (add_position_change_features B).2)) =
        ⟨df.cols ++ ((([(nm "timestamp", t)] ++ [(nm "dt", seriesSub t (shift1 t))]) ++
          extraM) ++ extraA)⟩ := by
      rw [← hcolsOut]
    rw [hvs, houtmk]
    exact getCol_mk_append_left df.cols _ c vs hvs
  · intro c hc hs he
    have hcB : c ∈ B.names := (hmemB c).mpr (Or.inl hc)
    obtain ⟨rest, hc3 | hc3 | hc3⟩ := startsXYZ_shape c hs
    all_goals
      subst hc3
      refine ⟨?_, ?_, ?_⟩
      · refine asup _ ((m3mem _).mpr (Or.inr ((m2mem _).mpr (Or.inl
          ((m1mem _).mpr (Or.inl (vgrp _ hcB hs ?_)))))))
        rw [endsOne_cons, endsTwo_cons]
        exact he
      · refine asup _ ((m3mem _).mpr (Or.inr ((m2mem _).mpr (Or.inr
          (pgrp _ hcB hs ?_)))))
        rw [endsOne_cons, endsTwo_cons]
        exact he
      · refine agrp _ ((m3mem _).mpr (Or.inr ((m2mem _).mpr (Or.inl
          ((m1mem _).mpr (Or.inl (vgrp _ hcB hs ?_))))))) ?_
        · rw [endsOne_cons, endsTwo_cons]
          exact he
        · rfl

/-- Witness for C3 at a one-row run frame with a position and a force column. -/
theorem C3_engineered_features_appends_witness :
    ((∀ p ∈ (Frame.mk [(nm "time", [PValue.val 0]), (nm "x_1", [PValue.val 1]),
        (nm "fx_1", [PValue.val 2])]).cols, p.2.length = 1) ∧
      (Frame.mk [(nm "time", [PValue.val 0]), (nm "x_1", [PValue.val 1]),
        (nm "fx_1", [PValue.val 2])]).names.Nodup ∧
      (Frame.mk [(nm "time", [PValue.val 0]), (nm "x_1", [PValue.val 1]),
        (nm "fx_1", [PValue.val 2])]).getCol (nm "time") = some [PValue.val 0] ∧
      ([PValue.val 0] : List PValue).Nodup ∧
      (∀ c ∈ (Frame.mk [(nm "time", [PValue.val 0]), (nm "x_1", [PValue.val 1]),
        (nm "fx_1", [PValue.val 2])]).names,
        c = nm "time" ∨ startsXYZ c = true ∨ startsFXYZ c = true)) ∧
    ((add_engineered_features (Frame.mk [(nm "time", [PValue.val 0]),
        (nm "x_1", [PValue.val 1]), (nm "fx_1", [PValue.val 2])])).getCol (nm "time") =
        some [PValue.val 0] ∧
      (∀ p ∈ (add_engineered_features (Frame.mk [(nm "time", [PValue.val 0]),
        (nm "x_1", [PValue.val 1]), (nm "fx_1", [PValue.val 2])])).cols,
        p.2.length = 1) ∧
      (add_engineered_features (Frame.mk [(nm "time", [PValue.val 0]),
        (nm "x_1", [PValue.val 1]), (nm "fx_1", [PValue.val 2])])).nRows = 1 ∧
      (∃ extra, (add_engineered_features (Frame.mk [(nm "time", [PValue.val 0]),
        (nm "x_1", [PValue.val 1]), (nm "fx_1", [PValue.val 2])])).cols =
        (Frame.mk [(nm "time", [PValue.val 0]), (nm "x_1", [PValue.val 1]),
          (nm "fx_1", [PValue.val 2])]).cols ++ extra) ∧
      (∀ c ∈ (Frame.mk [(nm "time", [PValue.val 0]), (nm "x_1", [PValue.val 1]),
        (nm "fx_1", [PValue.val 2])]).names,
        (add_engineered_features (Frame.mk [(nm "time", [PValue.val 0]),
          (nm "x_1", [PValue.val 1]), (nm "fx_1", [PValue.val 2])])).getCol c =
        (Frame.mk [(nm "time", [PValue.val 0]), (nm "x_1", [PValue.val 1]),
          (nm "fx_1", [PValue.val 2])]).getCol c) ∧
      nm "timestamp" ∈ (add_engineered_features (Frame.mk [(nm "time", [PValue.val 0]),
        (nm "x_1", [PValue.val 1]), (nm "fx_1", [PValue.val 2])])).names ∧
      nm "dt" ∈ (add_engineered_features (Frame.mk [(nm "time", [PValue.val 0]),
        (nm "x_1", [PValue.val 1]), (nm "fx_1", [PValue.val 2])])).names ∧
      (∀ c ∈ (Frame.mk [(nm "time", [PValue.val 0]), (nm "x_1", [PValue.val 1]),
        (nm "fx_1", [PValue.val 2])]).names,
        startsXYZ c = true → (endsOne c || endsTwo c) = true →
        ('v' :: c) ∈ (add_engineered_features (Frame.mk [(nm "time", [PValue.val 0]),
          (nm "x_1", [PValue.val 1]), (nm "fx_1", [PValue.val 2])])).names ∧
        ('d' :: c) ∈ (add_engineered_features (Frame.mk [(nm "time", [PValue.val 0]),
          (nm "x_1", [PValue.val 1]), (nm "fx_1", [PValue.val 2])])).names ∧
        ('a' :: c) ∈ (add_engineered_features (Frame.mk [(nm "time", [PValue.val 0]),
          (nm "x_1", [PValue.val 1]), (nm "fx_1", [PValue.val 2])])).names)) :=
  ⟨⟨by decide, by decide, by decide, by decide, by decide⟩,
    C3_engineered_features_appends _ 1 [PValue.val 0] (by decide) (by decide) (by decide)
      (by decide) (by decide)⟩
